import Mathlib

/-!
# A verification development for `llvm_minicomp`

The program is a small compiler: `Lexer` turns the source text into tokens,
`Parser` builds statements by recursive descent, and `LLVMCompiler` emits the
entry block of `main` through an `IRBuilder<>`.

Conventions of the embedding.

* A `std::string` is a `List Char`; every `Char` stands for one `char`.  The
  `<cctype>` predicates are those of the "C" locale, false on every `char`
  outside ASCII.
* `Lexer` is the part of `src` from the cursor `i` on: `peek` is the head, or
  NUL at the end, `get` drops the head.
* `Parser` is the part of `toks` from `pos` on; reading `toks[pos]` with
  `pos = toks.size()` is the outcome `ParseError.outOfBounds`.
* `exit(1)` and an uncaught exception are the outcome `Res.fail` (parser) or
  `Except.error` (emitter).
* The mutually recursive parser functions carry a recursion budget; the
  outcome `Res.fuel` says that the budget was too small and nothing else.
  `Parser.parseExpr` and its siblings run them on a budget that is proved
  sufficient.
* An LLVM `Value*` is a `Val`; an instruction is identified by the number it
  received when it was created, and an `AllocaInst*` is the number of its
  `alloca`.
-/

namespace Minicomp

/-! ## Lexer -/

inductive TokenKind
  | TK_EOF | TK_NUMBER | TK_IDENT | TK_PLUS | TK_MINUS | TK_MUL | TK_DIV
  | TK_LPAREN | TK_RPAREN | TK_SEMI | TK_ASSIGN | TK_LET | TK_PRINT | TK_UNKNOWN
  deriving DecidableEq

structure Token where
  kind : TokenKind
  text : List Char
  deriving DecidableEq

/-- The character `'\0'`. -/
def NUL : Char := Char.ofNat 0

/-- `isspace` in the "C" locale: space, `\t`, `\n`, `\v`, `\f`, `\r`. -/
def isspace (c : Char) : Bool := c.toNat == 32 || (9 ≤ c.toNat && c.toNat ≤ 13)

/-- `isdigit`: `0`-`9`. -/
def isdigit (c : Char) : Bool := 48 ≤ c.toNat && c.toNat ≤ 57

/-- `isalpha` in the "C" locale: `A`-`Z`, `a`-`z`. -/
def isalpha (c : Char) : Bool :=
  (65 ≤ c.toNat && c.toNat ≤ 90) || (97 ≤ c.toNat && c.toNat ≤ 122)

/-- `isalnum`: `isalpha` or `isdigit`. -/
def isalnum (c : Char) : Bool := isalpha c || isdigit c

/-- The loop condition `isalnum(peek()) || peek() == '_'`. -/
def isIdentChar (c : Char) : Bool := isalnum c || c == '_'

/-- `Lexer::peek`: the character under the cursor, NUL at the end. -/
def Lexer.peek : List Char → Char
  | [] => NUL
  | c :: _ => c

/-- `Lexer::get`: the character under the cursor, and the cursor moved past
it unless it is at the end. -/
def Lexer.get : List Char → Char × List Char
  | [] => (NUL, [])
  | c :: r => (c, r)

/-- `Lexer::skip_ws`: `while (isspace(peek())) get();`. -/
def Lexer.skip_ws : List Char → List Char
  | [] => []
  | c :: r => if isspace c then Lexer.skip_ws r else c :: r

/-- The loop `while (p(peek())) run.push_back(get());`: the run collected and
the lexer after it. -/
def Lexer.scan (p : Char → Bool) : List Char → List Char × List Char
  | [] => ([], [])
  | c :: r => if p c then ((Lexer.scan p r).1.cons c, (Lexer.scan p r).2) else ([], c :: r)

/-- The `switch (c)` at the end of `Lexer::next`. -/
def Lexer.punct (c : Char) : Token :=
  if c = '+' then ⟨.TK_PLUS, ['+']⟩
  else if c = '-' then ⟨.TK_MINUS, ['-']⟩
  else if c = '*' then ⟨.TK_MUL, ['*']⟩
  else if c = '/' then ⟨.TK_DIV, ['/']⟩
  else if c = '(' then ⟨.TK_LPAREN, ['(']⟩
  else if c = ')' then ⟨.TK_RPAREN, [')']⟩
  else if c = ';' then ⟨.TK_SEMI, [';']⟩
  else if c = '=' then ⟨.TK_ASSIGN, ['=']⟩
  else ⟨.TK_UNKNOWN, [c]⟩

/-- `Lexer::next`: the next token and the lexer after it. -/
def Lexer.next (l : List Char) : Token × List Char :=
  let s := Lexer.skip_ws l
  let c := Lexer.peek s
  if c = NUL then (⟨.TK_EOF, []⟩, s)
  else if isalpha c || c == '_' then
    let r := Lexer.scan isIdentChar s
    if r.1 = "let".toList then (⟨.TK_LET, r.1⟩, r.2)
    else if r.1 = "print".toList then (⟨.TK_PRINT, r.1⟩, r.2)
    else (⟨.TK_IDENT, r.1⟩, r.2)
  else if isdigit c then
    let r := Lexer.scan isdigit s
    (⟨.TK_NUMBER, r.1⟩, r.2)
  else (Lexer.punct c, (Lexer.get s).2)

/-- The loop of the `Parser` constructor, `n` iterations at most: `none` when
`n` iterations did not reach `TK_EOF`. -/
def Parser.lexLoop : Nat → List Char → Option (List Token)
  | 0, _ => none
  | n + 1, l =>
    let r := Lexer.next l
    if r.1.kind = .TK_EOF then some [r.1]
    else (Parser.lexLoop n r.2).map (List.cons r.1)

set_option linter.dupNamespace false in
/-- `Parser::Parser`: the token vector built from a lexer over `src`.  Every
iteration but the last consumes a character, so `src.length + 1` iterations
are enough (`Parser.lexLoop_total`). -/
def Parser.Parser (src : List Char) : Option (List Token) :=
  Parser.lexLoop (src.length + 1) src

/-! ## AST -/

inductive Expr
  | NumberExpr (value : Int)
  | VarExpr (name : List Char)
  | BinaryExpr (op : Char) (lhs rhs : Expr)
  deriving DecidableEq

inductive Stmt
  | LetStmt (name : List Char) (rhs : Expr)
  | PrintStmt (expr : Expr)
  deriving DecidableEq

/-! ## Parser -/

/-- The ways in which parsing stops the process. -/
inductive ParseError
  /-- `expect`: "Parse error: expected token k got 'text'". -/
  | expected (k : TokenKind) (got : List Char)
  /-- `parseFactor`: "Unexpected token in factor: text". -/
  | unexpectedFactor (text : List Char)
  /-- `parseAll`: "Expected identifier after let". -/
  | expectedIdent
  /-- `parseAll`: "Unexpected token 'text'". -/
  | unexpectedToken (text : List Char)
  /-- `std::invalid_argument` thrown by `stoi`. -/
  | stoiInvalidArgument
  /-- `std::out_of_range` thrown by `stoi`. -/
  | stoiOutOfRange
  /-- A read of `toks[pos]` with `pos = toks.size()`. -/
  | outOfBounds
  deriving DecidableEq

/-- Outcome of a parser function: a value, a stop of the process, or an
exhausted recursion budget. -/
inductive Res (α : Type)
  | ok (a : α)
  | fail (e : ParseError)
  | fuel
  deriving DecidableEq

/-- Sequencing of outcomes. -/
def Res.bind {α β : Type} (r : Res α) (f : α → Res β) : Res β :=
  match r with
  | .ok a => f a
  | .fail e => .fail e
  | .fuel => .fuel

/-- The value of the decimal digits `ds`. -/
def decimalValue (ds : List Char) : Nat :=
  ds.foldl (fun acc c => 10 * acc + (c.toNat - 48)) 0

/-- `std::stoi(text)`: skip leading whitespace, read an optional sign and the
longest run of digits; no digit is `invalid_argument`, a value outside `int`
is `out_of_range`. -/
def stoi (text : List Char) : Res Int :=
  let s := Lexer.skip_ws text
  let neg := Lexer.peek s == '-'
  let s1 := if Lexer.peek s == '-' || Lexer.peek s == '+' then (Lexer.get s).2 else s
  let ds := (Lexer.scan isdigit s1).1
  if ds = [] then .fail .stoiInvalidArgument
  else
    let v : Int := if neg then -(decimalValue ds : Int) else (decimalValue ds : Int)
    if v < -2147483648 ∨ 2147483647 < v then .fail .stoiOutOfRange else .ok v

/-- `Parser::expect(k)`: consume a token of kind `k` or stop, reporting the
text of the token found. -/
def Parser.expect (k : TokenKind) : List Token → Res (List Token)
  | [] => .fail .outOfBounds
  | t :: rest => if t.kind = k then .ok rest else .fail (.expected k t.text)

mutual

/-- `Parser::parseFactor` on a recursion budget. -/
def parseFactorF : Nat → List Token → Res (Expr × List Token)
  | 0, _ => .fuel
  | n + 1, toks =>
    match toks with
    | [] => .fail .outOfBounds
    | t :: rest =>
      if t.kind = .TK_NUMBER then (stoi t.text).bind fun v => .ok (.NumberExpr v, rest)
      else if t.kind = .TK_IDENT then .ok (.VarExpr t.text, rest)
      else if t.kind = .TK_LPAREN then
        (parseExprF n rest).bind fun r =>
          (Parser.expect .TK_RPAREN r.2).bind fun rest2 => .ok (r.1, rest2)
      else .fail (.unexpectedFactor t.text)

/-- The `while (true)` loop of `Parser::parseTerm`, entered with `node`. -/
def parseTermLoopF : Nat → Expr → List Token → Res (Expr × List Token)
  | 0, _, _ => .fuel
  | n + 1, node, toks =>
    match toks with
    | [] => .fail .outOfBounds
    | t :: rest =>
      if t.kind = .TK_MUL then
        (parseFactorF n rest).bind fun r => parseTermLoopF n (.BinaryExpr '*' node r.1) r.2
      else if t.kind = .TK_DIV then
        (parseFactorF n rest).bind fun r => parseTermLoopF n (.BinaryExpr '/' node r.1) r.2
      else .ok (node, toks)

/-- `Parser::parseTerm` on a recursion budget. -/
def parseTermF : Nat → List Token → Res (Expr × List Token)
  | 0, _ => .fuel
  | n + 1, toks => (parseFactorF n toks).bind fun r => parseTermLoopF n r.1 r.2

/-- The `while (true)` loop of `Parser::parseExpr`, entered with `node`. -/
def parseExprLoopF : Nat → Expr → List Token → Res (Expr × List Token)
  | 0, _, _ => .fuel
  | n + 1, node, toks =>
    match toks with
    | [] => .fail .outOfBounds
    | t :: rest =>
      if t.kind = .TK_PLUS then
        (parseTermF n rest).bind fun r => parseExprLoopF n (.BinaryExpr '+' node r.1) r.2
      else if t.kind = .TK_MINUS then
        (parseTermF n rest).bind fun r => parseExprLoopF n (.BinaryExpr '-' node r.1) r.2
      else .ok (node, toks)

/-- `Parser::parseExpr` on a recursion budget. -/
def parseExprF : Nat → List Token → Res (Expr × List Token)
  | 0, _ => .fuel
  | n + 1, toks => (parseTermF n toks).bind fun r => parseExprLoopF n r.1 r.2

end

/-- `Parser::parseFactor`. -/
def Parser.parseFactor (toks : List Token) : Res (Expr × List Token) :=
  parseFactorF (5 * toks.length + 1) toks

/-- `Parser::parseTerm`. -/
def Parser.parseTerm (toks : List Token) : Res (Expr × List Token) :=
  parseTermF (5 * toks.length + 2) toks

/-- `Parser::parseExpr`. -/
def Parser.parseExpr (toks : List Token) : Res (Expr × List Token) :=
  parseExprF (5 * toks.length + 3) toks

/-- One iteration of the loop of `Parser::parseAll` at the token `t`, with
`next` standing for the rest of the loop. -/
def parseAllBody (next : List Stmt → List Token → Res (List Stmt)) (out : List Stmt)
    (t : Token) (rest : List Token) : Res (List Stmt) :=
  if t.kind = .TK_EOF then .ok out
  else if t.kind = .TK_LET then
    match rest with
    | [] => .fail .outOfBounds
    | id :: rest1 =>
      if id.kind ≠ .TK_IDENT then .fail .expectedIdent
      else
        (Parser.expect .TK_ASSIGN rest1).bind fun rest2 =>
        (Parser.parseExpr rest2).bind fun r =>
        (Parser.expect .TK_SEMI r.2).bind fun rest3 =>
        next (out ++ [.LetStmt id.text r.1]) rest3
  else if t.kind = .TK_PRINT then
    (Parser.parseExpr rest).bind fun r =>
    (Parser.expect .TK_SEMI r.2).bind fun rest3 =>
    next (out ++ [.PrintStmt r.1]) rest3
  else if t.kind = .TK_SEMI then next out rest
  else .fail (.unexpectedToken t.text)

/-- The `while (peek().kind != TK_EOF)` loop of `Parser::parseAll`, entered
with the statements `out` collected so far, `n` iterations at most. -/
def parseAllF : Nat → List Stmt → List Token → Res (List Stmt)
  | 0, _, _ => .fuel
  | _ + 1, _, [] => .fail .outOfBounds
  | n + 1, out, t :: rest => parseAllBody (parseAllF n) out t rest

/-- `Parser::parseAll`.  Every iteration consumes a token, so
`toks.length + 1` iterations are enough (`Parser.parseAllLoop_ne_fuel`). -/
def Parser.parseAll (toks : List Token) : Res (List Stmt) :=
  parseAllF (toks.length + 1) [] toks

/-- The loop of `Parser::parseTerm` on a sufficient budget. -/
def Parser.parseTermLoop (node : Expr) (toks : List Token) : Res (Expr × List Token) :=
  parseTermLoopF (5 * toks.length + 1) node toks

/-- The loop of `Parser::parseExpr` on a sufficient budget. -/
def Parser.parseExprLoop (node : Expr) (toks : List Token) : Res (Expr × List Token) :=
  parseExprLoopF (5 * toks.length + 1) node toks

/-- The loop of `Parser::parseAll`, entered with `out`, on a sufficient
budget. -/
def Parser.parseAllLoop (out : List Stmt) (toks : List Token) : Res (List Stmt) :=
  parseAllF (toks.length + 1) out toks

/-! ## LLVM code generation

The emitter drives `IRBuilder<> builder`, whose insertion point
`SetInsertPoint(entry)` is the end of the entry block of `main`: what it
creates is appended to the block.

`IRBuilder<>` is `IRBuilder<ConstantFolder, IRBuilderDefaultInserter>`, the
default template arguments of `llvm/IR/IRBuilder.h`.  Each of `CreateAdd`,
`CreateSub`, `CreateMul` and `CreateSDiv` first asks the folder
(`Folder.FoldNoWrapBinOp`, `Folder.FoldExactBinOp`); when both operands are
`Constant`s the folder returns the constant result, the builder returns that
constant and no instruction is inserted.  Otherwise the folder returns null
and the builder inserts the instruction.  `ConstantFoldBinaryInstruction`
gives poison for a division by zero, for `INT_MIN / -1` and for a poison
operand.

`ConstantInt::get`, `CreateGlobalStringPtr` and `getOrInsertFunction` insert
no instruction in the block: they yield a constant, a global and a
declaration of the module. -/

/-- The opcodes of the four binary instructions. -/
inductive BinOp
  | add | sub | mul | sdiv
  deriving DecidableEq

/-- An LLVM value of the emitted function: a `ConstantInt` of type `i32`, the
`i32` poison constant, the result of the instruction numbered `id`, or the
address of a global constant string. -/
inductive Val
  | const (n : Int)
  | poison
  | inst (id : Nat)
  | globalStr (s : List Char)
  deriving DecidableEq

/-- The instructions of the entry block.  `id` is the number of the
instruction, `slot` the number of the `alloca` addressed, `name` the name
requested for the result. -/
inductive Instr
  | alloca (id : Nat) (name : List Char)
  | load (id : Nat) (slot : Nat) (name : List Char)
  | store (v : Val) (slot : Nat)
  | binop (id : Nat) (op : BinOp) (l r : Val)
  | call (id : Nat) (callee : List Char) (args : List Val)
  | ret (v : Val)
  deriving DecidableEq

/-- Reduction of an integer to the `i32` with the same low 32 bits. -/
def wrap32 (x : Int) : Int := (x + 2147483648) % 4294967296 - 2147483648

/-- Signed division of two `i32`, rounding toward zero; undefined for a zero
divisor and for `INT_MIN / -1`. -/
def sdiv32 (a b : Int) : Option Int :=
  if b = 0 ∨ (a = -2147483648 ∧ b = -1) then none else some (Int.tdiv a b)

/-- The result of a binary instruction on two `i32`. -/
def BinOp.eval : BinOp → Int → Int → Option Int
  | .add, a, b => some (wrap32 (a + b))
  | .sub, a, b => some (wrap32 (a - b))
  | .mul, a, b => some (wrap32 (a * b))
  | .sdiv, a, b => sdiv32 a b

/-- `ConstantFolder::FoldBinOp` on `i32` operands: two constants give the
constant result (poison for an undefined division or a poison operand), any
other pair is not folded. -/
def ConstantFolder.FoldBinOp (op : BinOp) : Val → Val → Option Val
  | .const a, .const b =>
    match op.eval a b with
    | some x => some (.const x)
    | none => some .poison
  | .const _, .poison => some .poison
  | .poison, .const _ => some .poison
  | .poison, .poison => some .poison
  | _, _ => none

/-- The ways in which emission stops the process. -/
inductive CompileError
  /-- `compileExpr`: "Unknown variable name". -/
  | unknownVariable (name : List Char)
  /-- `compileExpr`: "Unknown binary op". -/
  | unknownBinaryOp
  deriving DecidableEq

/-- The state of an `LLVMCompiler` during `compile`: the instruction list of
the entry block of `main`, the number the next instruction will receive, and
`namedValues` as an association list in which a name occurs at most once. -/
structure LLVMCompiler where
  entry : List Instr
  nextId : Nat
  namedValues : List (List Char × Nat)
  deriving DecidableEq

/-- `namedValues.find(name)`. -/
def LLVMCompiler.find (c : LLVMCompiler) (name : List Char) : Option Nat :=
  c.namedValues.lookup name

/-- `namedValues[name] = alloca`: insert or overwrite. -/
def LLVMCompiler.assign (c : LLVMCompiler) (name : List Char) (slot : Nat) : LLVMCompiler :=
  { c with namedValues := (name, slot) :: c.namedValues.filter (fun p => p.1 != name) }

/-- `builder.CreateLoad(i32, slot, name)`: a load appended to the block. -/
def LLVMCompiler.CreateLoad (c : LLVMCompiler) (slot : Nat) (name : List Char) :
    Val × LLVMCompiler :=
  (.inst c.nextId,
    { c with entry := c.entry ++ [.load c.nextId slot name], nextId := c.nextId + 1 })

/-- `builder.CreateAdd`, `CreateSub`, `CreateMul`, `CreateSDiv`: the folded
constant, or else a binary instruction appended to the block. -/
def LLVMCompiler.CreateBinOp (c : LLVMCompiler) (op : BinOp) (l r : Val) :
    Val × LLVMCompiler :=
  match ConstantFolder.FoldBinOp op l r with
  | some v => (v, c)
  | none =>
    (.inst c.nextId,
      { c with entry := c.entry ++ [.binop c.nextId op l r], nextId := c.nextId + 1 })

/-- `builder.CreateStore(val, slot)`: a store appended to the block. -/
def LLVMCompiler.CreateStore (c : LLVMCompiler) (val : Val) (slot : Nat) : LLVMCompiler :=
  { c with entry := c.entry ++ [.store val slot] }

/-- `builder.CreateCall(callee, args)`: a call appended to the block. -/
def LLVMCompiler.CreateCall (c : LLVMCompiler) (callee : List Char) (args : List Val) :
    LLVMCompiler :=
  { c with entry := c.entry ++ [.call c.nextId callee args], nextId := c.nextId + 1 }

/-- `builder.CreateRet(val)`: a return appended to the block. -/
def LLVMCompiler.CreateRet (c : LLVMCompiler) (val : Val) : LLVMCompiler :=
  { c with entry := c.entry ++ [.ret val] }

/-- `LLVMCompiler::createEntryBlockAlloca`: a temporary builder positioned at
`getEntryBlock().begin()` inserts the `alloca` as the first instruction of
the block. -/
def LLVMCompiler.createEntryBlockAlloca (c : LLVMCompiler) (name : List Char) :
    Nat × LLVMCompiler :=
  (c.nextId, { c with entry := .alloca c.nextId name :: c.entry, nextId := c.nextId + 1 })

/-- `LLVMCompiler::compileExpr`. -/
def LLVMCompiler.compileExpr (c : LLVMCompiler) : Expr → Except CompileError (Val × LLVMCompiler)
  | .NumberExpr value => .ok (.const value, c)
  | .VarExpr name =>
    match c.find name with
    | none => .error (.unknownVariable name)
    | some slot => .ok (c.CreateLoad slot name)
  | .BinaryExpr op lhs rhs =>
    match c.compileExpr lhs with
    | .error e => .error e
    | .ok (l, c1) =>
      match c1.compileExpr rhs with
      | .error e => .error e
      | .ok (r, c2) =>
        if op = '+' then .ok (c2.CreateBinOp .add l r)
        else if op = '-' then .ok (c2.CreateBinOp .sub l r)
        else if op = '*' then .ok (c2.CreateBinOp .mul l r)
        else if op = '/' then .ok (c2.CreateBinOp .sdiv l r)
        else .error .unknownBinaryOp

/-- `LLVMCompiler::compileStmt`. -/
def LLVMCompiler.compileStmt (c : LLVMCompiler) : Stmt → Except CompileError LLVMCompiler
  | .LetStmt name rhs =>
    match c.compileExpr rhs with
    | .error e => .error e
    | .ok (val, c1) =>
      let a := c1.createEntryBlockAlloca name
      .ok ((a.2.CreateStore val a.1).assign name a.1)
  | .PrintStmt expr =>
    match c.compileExpr expr with
    | .error e => .error e
    | .ok (val, c1) => .ok (c1.CreateCall "printf".toList [.globalStr "%d\n".toList, val])

/-- The loop `for (auto &s : stmts) compileStmt(s.get(), mainFunc);`. -/
def LLVMCompiler.compileStmts (c : LLVMCompiler) : List Stmt → Except CompileError LLVMCompiler
  | [] => .ok c
  | s :: rest =>
    match c.compileStmt s with
    | .error e => .error e
    | .ok c1 => c1.compileStmts rest

/-- A fresh `LLVMCompiler` after `builder.SetInsertPoint(entry)`: the block
is empty and so is `namedValues`. -/
def LLVMCompiler.init : LLVMCompiler := ⟨[], 0, []⟩

/-- `LLVMCompiler::compile`. -/
def LLVMCompiler.compile (stmts : List Stmt) : Except CompileError LLVMCompiler :=
  match LLVMCompiler.init.compileStmts stmts with
  | .error e => .error e
  | .ok c => .ok (c.CreateRet (.const 0))

/-! ## Execution of an emitted block

The reading of the instructions that the claims about executed IR refer to:
`i32` arithmetic wraps, `sdiv` truncates, a stack slot holds what was last
stored in it, a call of `printf` with the format `%d\n` prints its integer
argument. -/

/-- The state of an execution: the values of the instruction results, the
content of the stack slots (`none`: not allocated, `some none`: allocated and
never stored to), and the integers printed so far. -/
structure Machine where
  regs : Nat → Option Int
  mem : Nat → Option (Option Int)
  out : List Int

/-- The state before the first instruction. -/
def Machine.init : Machine := ⟨fun _ => none, fun _ => none, []⟩

/-- The integer an operand denotes, if it denotes one. -/
def Machine.eval (m : Machine) : Val → Option Int
  | .const n => some n
  | .inst id => m.regs id
  | .poison => none
  | .globalStr _ => none

/-- One instruction other than `ret`; `none` when the instruction has no
defined effect. -/
def Machine.step (m : Machine) : Instr → Option Machine
  | .alloca id _ => some { m with mem := Function.update m.mem id (some none) }
  | .load id slot _ =>
    match m.mem slot with
    | some (some v) => some { m with regs := Function.update m.regs id (some v) }
    | _ => none
  | .store v slot =>
    match m.eval v, m.mem slot with
    | some x, some _ => some { m with mem := Function.update m.mem slot (some (some x)) }
    | _, _ => none
  | .binop id op l r =>
    match m.eval l, m.eval r with
    | some a, some b =>
      match op.eval a b with
      | some x => some { m with regs := Function.update m.regs id (some x) }
      | none => none
    | _, _ => none
  | .call _ callee args =>
    match args with
    | [.globalStr f, v] =>
      if callee = "printf".toList ∧ f = "%d\n".toList then
        match m.eval v with
        | some x => some { m with out := m.out ++ [x] }
        | none => none
      else none
    | _ => none
  | .ret _ => none

/-- Execution of a block from state `m`: the integers printed and the value
returned. -/
def exec : List Instr → Machine → Option (List Int × Int)
  | [], _ => none
  | .ret v :: _, m =>
    match m.eval v with
    | some r => some (m.out, r)
    | none => none
  | i :: rest, m =>
    match m.step i with
    | some m1 => exec rest m1
    | none => none

/-! ## Evaluation of the statements

The reference reading of a program: the statements are evaluated top to
bottom in one flat environment, a `let` binds its name to the value of its
right-hand side, a `print` outputs the value of its expression. -/

/-- The value of `a op b` on `i32`. -/
def evalBinary (op : Char) (a b : Int) : Option Int :=
  if op = '+' then BinOp.add.eval a b
  else if op = '-' then BinOp.sub.eval a b
  else if op = '*' then BinOp.mul.eval a b
  else if op = '/' then BinOp.sdiv.eval a b
  else none

/-- The value of an expression in the environment `env`; `none` for an
unbound name, a division by zero and `INT_MIN / -1`. -/
def evalExpr (env : List (List Char × Int)) : Expr → Option Int
  | .NumberExpr value => some value
  | .VarExpr name => env.lookup name
  | .BinaryExpr op lhs rhs =>
    match evalExpr env lhs, evalExpr env rhs with
    | some a, some b => evalBinary op a b
    | _, _ => none

/-- The effect of one statement: the environment after it and what it
prints. -/
def evalStmt (env : List (List Char × Int)) : Stmt → Option (List (List Char × Int) × List Int)
  | .LetStmt name rhs =>
    match evalExpr env rhs with
    | some v => some ((name, v) :: env, [])
    | none => none
  | .PrintStmt expr =>
    match evalExpr env expr with
    | some v => some (env, [v])
    | none => none

/-- The integers printed by the statements, evaluated in order from `env`. -/
def evalStmts (env : List (List Char × Int)) : List Stmt → Option (List Int)
  | [] => some []
  | s :: rest =>
    match evalStmt env s with
    | some r =>
      match evalStmts r.1 rest with
      | some o => some (r.2 ++ o)
      | none => none
    | none => none

/-- The whole pipeline on a source text: lex, parse, emit. -/
def compileSource (src : List Char) : Option (Res (Except CompileError LLVMCompiler)) :=
  (Parser.Parser src).map fun toks =>
    (Parser.parseAll toks).bind fun stmts => .ok (LLVMCompiler.compile stmts)

/-! ## Notions used to state and prove semantic preservation -/

/-- Execution of instructions none of which is a `ret`. -/
def run : List Instr → Machine → Option Machine
  | [], m => some m
  | i :: rest, m =>
    match m.step i with
    | some m1 => run rest m1
    | none => none

/-- The instruction is not a `ret`. -/
def Instr.notRet : Instr → Prop
  | .ret _ => False
  | _ => True

/-- The numbers of the `alloca` instructions of a list. -/
def slots : List Instr → List Nat
  | [] => []
  | .alloca id _ :: rest => id :: slots rest
  | _ :: rest => slots rest

/-- Every name bound in `env` has a slot in `nv` that holds its value. -/
def MemAgree (nv : List (List Char × Nat)) (env : List (List Char × Int)) (m : Machine) : Prop :=
  ∀ x a, env.lookup x = some a → ∃ slot, nv.lookup x = some slot ∧ m.mem slot = some (some a)

/-- The shape of the block during `compile`: the `alloca`s `A`, then the
other instructions `B`, none of them a `ret`; every slot of `namedValues` is
one of `A` and older than `nextId`. -/
structure WF (c : LLVMCompiler) (A B : List Instr) : Prop where
  entry : c.entry = A ++ B
  allocas : ∀ i ∈ A, ∃ id nm, i = .alloca id nm
  body : ∀ i ∈ B, i.notRet
  bound : ∀ x slot, c.namedValues.lookup x = some slot → slot ∈ slots A ∧ slot < c.nextId

/-! ## The parser as a relation

`Parses mode w e`: the function named by `mode` consumes exactly the tokens
`w` and returns the tree `e`.  The rules are the successful paths of the
five functions. -/

/-- The five functions of the expression parser; a loop is entered with the
tree built so far. -/
inductive Mode
  | factor
  | termLoop (node : Expr)
  | term
  | exprLoop (node : Expr)
  | expr

inductive Parses : Mode → List Token → Expr → Prop
  | number (t : Token) (v : Int) : t.kind = .TK_NUMBER → stoi t.text = .ok v →
      Parses .factor [t] (.NumberExpr v)
  | ident (t : Token) : t.kind = .TK_IDENT → Parses .factor [t] (.VarExpr t.text)
  | paren (l r : Token) (w : List Token) (e : Expr) : l.kind = .TK_LPAREN →
      Parses .expr w e → r.kind = .TK_RPAREN → Parses .factor (l :: w ++ [r]) e
  | termStop (node : Expr) : Parses (.termLoop node) [] node
  | termMul (node : Expr) (t : Token) (w1 w2 : List Token) (f e : Expr) :
      t.kind = .TK_MUL → Parses .factor w1 f →
      Parses (.termLoop (.BinaryExpr '*' node f)) w2 e →
      Parses (.termLoop node) (t :: w1 ++ w2) e
  | termDiv (node : Expr) (t : Token) (w1 w2 : List Token) (f e : Expr) :
      t.kind = .TK_DIV → Parses .factor w1 f →
      Parses (.termLoop (.BinaryExpr '/' node f)) w2 e →
      Parses (.termLoop node) (t :: w1 ++ w2) e
  | term (w1 w2 : List Token) (f e : Expr) : Parses .factor w1 f →
      Parses (.termLoop f) w2 e → Parses .term (w1 ++ w2) e
  | exprStop (node : Expr) : Parses (.exprLoop node) [] node
  | exprPlus (node : Expr) (t : Token) (w1 w2 : List Token) (f e : Expr) :
      t.kind = .TK_PLUS → Parses .term w1 f →
      Parses (.exprLoop (.BinaryExpr '+' node f)) w2 e →
      Parses (.exprLoop node) (t :: w1 ++ w2) e
  | exprMinus (node : Expr) (t : Token) (w1 w2 : List Token) (f e : Expr) :
      t.kind = .TK_MINUS → Parses .term w1 f →
      Parses (.exprLoop (.BinaryExpr '-' node f)) w2 e →
      Parses (.exprLoop node) (t :: w1 ++ w2) e
  | expr (w1 w2 : List Token) (f e : Expr) : Parses .term w1 f →
      Parses (.exprLoop f) w2 e → Parses .expr (w1 ++ w2) e

/-- The token kind is `*` or `/`. -/
def TokenKind.isMulOp (k : TokenKind) : Bool := k = .TK_MUL || k = .TK_DIV

/-- The token kind is `+` or `-`. -/
def TokenKind.isAddOp (k : TokenKind) : Bool := k = .TK_PLUS || k = .TK_MINUS

/-- What `Parses mode w e` says about the function `mode` run on `w` followed
by more input: a factor is read whatever follows, a term when the next token
is not `*` or `/`, an expression when it is no operator at all. -/
def Runs : Mode → List Token → Expr → Prop
  | .factor, w, e => ∀ rest, Parser.parseFactor (w ++ rest) = .ok (e, rest)
  | .termLoop node, w, e => ∀ t rest, t.kind.isMulOp = false →
      Parser.parseTermLoop node (w ++ t :: rest) = .ok (e, t :: rest)
  | .term, w, e => ∀ t rest, t.kind.isMulOp = false →
      Parser.parseTerm (w ++ t :: rest) = .ok (e, t :: rest)
  | .exprLoop node, w, e => ∀ t rest, t.kind.isMulOp = false → t.kind.isAddOp = false →
      Parser.parseExprLoop node (w ++ t :: rest) = .ok (e, t :: rest)
  | .expr, w, e => ∀ t rest, t.kind.isMulOp = false → t.kind.isAddOp = false →
      Parser.parseExpr (w ++ t :: rest) = .ok (e, t :: rest)

/-- The token that stops a loop: the head of the remaining input. -/
def StopsAt (p : TokenKind → Bool) (rest : List Token) : Prop :=
  ∃ t r, rest = t :: r ∧ p t.kind = false

/-- The tokens consumed by a function are those of an expression: numbers,
identifiers, the four operators and parentheses. -/
def TokenKind.inExpr (k : TokenKind) : Bool :=
  k = .TK_NUMBER || k = .TK_IDENT || k = .TK_PLUS || k = .TK_MINUS || k = .TK_MUL ||
    k = .TK_DIV || k = .TK_LPAREN || k = .TK_RPAREN

/-- `ParsesStmts w ss`: the loop of `parseAll` consumes exactly the tokens `w`
in whole iterations and appends the statements `ss`. -/
inductive ParsesStmts : List Token → List Stmt → Prop
  | nil : ParsesStmts [] []
  | semi (t : Token) (w : List Token) (ss : List Stmt) : t.kind = .TK_SEMI →
      ParsesStmts w ss → ParsesStmts (t :: w) ss
  | letStmt (tl id ta ts : Token) (w w2 : List Token) (e : Expr) (ss : List Stmt) :
      tl.kind = .TK_LET → id.kind = .TK_IDENT → ta.kind = .TK_ASSIGN → Parses .expr w e →
      ts.kind = .TK_SEMI → ParsesStmts w2 ss →
      ParsesStmts (tl :: id :: ta :: w ++ ts :: w2) (.LetStmt id.text e :: ss)
  | printStmt (tp ts : Token) (w w2 : List Token) (e : Expr) (ss : List Stmt) :
      tp.kind = .TK_PRINT → Parses .expr w e → ts.kind = .TK_SEMI → ParsesStmts w2 ss →
      ParsesStmts (tp :: w ++ ts :: w2) (.PrintStmt e :: ss)

/-! ## Shape of the trees

Predicates on trees and tokens for the claims about precedence and
associativity. -/

/-- The root of the tree is a `+` or `-` node. -/
def Expr.isSum : Expr → Bool
  | .BinaryExpr op _ _ => op = '+' || op = '-'
  | _ => false

/-- No `+` or `-` node of the tree is a child of a `*` or `/` node. -/
def Expr.precedenceOk : Expr → Bool
  | .BinaryExpr op l r =>
    (!(op = '*' || op = '/') || (!l.isSum && !r.isSum)) && l.precedenceOk && r.precedenceOk
  | _ => true

/-- The tree has no `+` or `-` node and respects precedence. -/
def Expr.sumFree : Expr → Bool
  | .BinaryExpr op l r => !(op = '+' || op = '-') && l.sumFree && r.sumFree
  | _ => true

/-- The tree is a left-leaning chain of `+` and `-` nodes over trees without
`+` and `-`. -/
def Expr.flatSum : Expr → Bool
  | .BinaryExpr op l r =>
    if op = '+' ∨ op = '-' then l.flatSum && r.sumFree else l.sumFree && r.sumFree
  | _ => true

/-- The tokens hold no `(`. -/
def NoParen (w : List Token) : Prop := ∀ t ∈ w, t.kind ≠ .TK_LPAREN

/-- The shape of the tree a function returns when it consumed no `(`. -/
def Shape : Mode → Expr → Prop
  | .factor, e => e.sumFree = true
  | .termLoop node, e => node.sumFree = true → e.sumFree = true
  | .term, e => e.sumFree = true
  | .exprLoop node, e => node.flatSum = true → e.flatSum = true
  | .expr, e => e.flatSum = true

/-- `parseFactor` reads the tokens `w` as the tree `e`, whatever follows
them. -/
def IsFactor (w : List Token) (e : Expr) : Prop :=
  ∀ rest, Parser.parseFactor (w ++ rest) = .ok (e, rest)

/-- The character `parseTerm` and `parseExpr` store in the node built for an
operator token. -/
def TokenKind.opChar : TokenKind → Char
  | .TK_PLUS => '+'
  | .TK_MINUS => '-'
  | .TK_MUL => '*'
  | .TK_DIV => '/'
  | _ => NUL

/-- One step of a chain `f0 op1 f1 op2 f2 ...`: the operator token, the tokens
of the factor after it, and the tree of that factor. -/
structure Link where
  op : Token
  w : List Token
  e : Expr

/-- The tokens `op1 f1 op2 f2 ...` of a chain. -/
def chainTokens : List Link → List Token
  | [] => []
  | l :: r => l.op :: l.w ++ chainTokens r

/-- The left fold `((e0 op1 e1) op2 e2) ...` of a chain. -/
def leftFold (e0 : Expr) : List Link → Expr
  | [] => e0
  | l :: r => leftFold (.BinaryExpr l.op.kind.opChar e0 l.e) r

/-- Every slot of the block is older than `nextId`. -/
def LLVMCompiler.IdsBelow (c : LLVMCompiler) : Prop := ∀ s ∈ slots c.entry, s < c.nextId

/-! ## References and declarations -/

/-- The names referenced in an expression, left to right. -/
def Expr.vars : Expr → List (List Char)
  | .NumberExpr _ => []
  | .VarExpr name => [name]
  | .BinaryExpr _ lhs rhs => lhs.vars ++ rhs.vars

/-- Every operator of the tree is one of `+ - * /`. -/
def Expr.opsValid : Expr → Prop
  | .BinaryExpr op lhs rhs =>
    (op = '+' ∨ op = '-' ∨ op = '*' ∨ op = '/') ∧ lhs.opsValid ∧ rhs.opsValid
  | _ => True

/-- The expression of a statement. -/
def Stmt.expr : Stmt → Expr
  | .LetStmt _ rhs => rhs
  | .PrintStmt e => e

/-- The statement is a `let` of `x`. -/
def Stmt.declares (x : List Char) : Stmt → Bool
  | .LetStmt name _ => name = x
  | .PrintStmt _ => false

/-- Some statement references a name of which no earlier statement is a
`let`. -/
def HasUndeclaredRef (stmts : List Stmt) : Prop :=
  ∃ pre s post x, stmts = pre ++ s :: post ∧ x ∈ s.expr.vars ∧
    ∀ s1 ∈ pre, s1.declares x = false

/-- The operators of the tree a function returns, given those of the tree it
was entered with. -/
def OpsShape : Mode → Expr → Prop
  | .factor, e => e.opsValid
  | .termLoop node, e => node.opsValid → e.opsValid
  | .term, e => e.opsValid
  | .exprLoop node, e => node.opsValid → e.opsValid
  | .expr, e => e.opsValid

/-! ## Statements and keywords -/

/-- The token kind is `let` or `print`. -/
def TokenKind.isKeyword (k : TokenKind) : Bool := k = .TK_LET || k = .TK_PRINT

/-- The keyword a statement starts with. -/
def Stmt.keyword : Stmt → TokenKind
  | .LetStmt _ _ => .TK_LET
  | .PrintStmt _ => .TK_PRINT

/-- The keywords of a token list, in order. -/
def keywords (toks : List Token) : List TokenKind :=
  (toks.map Token.kind).filter TokenKind.isKeyword

/-! ## Arithmetic instructions and constants -/

/-- The instruction is an `add`, `sub`, `mul` or `sdiv`. -/
def Instr.isArith : Instr → Bool
  | .binop _ _ _ _ => true
  | _ => false

/-- The arithmetic instructions of a block, in order. -/
def arith (l : List Instr) : List Instr := l.filter Instr.isArith

/-- The value is an `i32` constant: a `ConstantInt` or poison. -/
def Val.isIntConst : Val → Bool
  | .const _ => true
  | .poison => true
  | _ => false

/-- The value is an `i32`: a constant or the result of an instruction. -/
def Val.isInt : Val → Bool
  | .globalStr _ => false
  | _ => true

/-- The opcode `compileExpr` selects for an operator character. -/
def opcode (op : Char) : Option BinOp :=
  if op = '+' then some .add
  else if op = '-' then some .sub
  else if op = '*' then some .mul
  else if op = '/' then some .sdiv
  else none

/-- The expression references a variable. -/
def Expr.hasVar : Expr → Bool
  | .NumberExpr _ => false
  | .VarExpr _ => true
  | .BinaryExpr _ lhs rhs => lhs.hasVar || rhs.hasVar

/-- The number of binary nodes of the expression below which a variable is
referenced. -/
def Expr.arithCount : Expr → Nat
  | .BinaryExpr _ lhs rhs =>
    lhs.arithCount + rhs.arithCount + (if lhs.hasVar || rhs.hasVar then 1 else 0)
  | _ => 0

/-! ## The documented grammar -/

/-- The nonterminals of the grammar; `exprTail` is `{ ("+" | "-") term }` and
`termTail` is `{ ("*" | "/") factor }`. -/
inductive NT
  | program | statement | expr | exprTail | term | termTail | factor

/-- The grammar of the language, over token kinds:
`program := { statement }`,
`statement := "let" IDENT "=" expr ";" | "print" expr ";" | ";"`,
`expr := term { ("+" | "-") term }`, `term := factor { ("*" | "/") factor }`,
`factor := NUMBER | IDENT | "(" expr ")"`. -/
inductive Gram : NT → List Token → Prop
  | number (t : Token) : t.kind = .TK_NUMBER → Gram .factor [t]
  | ident (t : Token) : t.kind = .TK_IDENT → Gram .factor [t]
  | paren (l r : Token) (w : List Token) : l.kind = .TK_LPAREN → Gram .expr w →
      r.kind = .TK_RPAREN → Gram .factor (l :: w ++ [r])
  | termTailNil : Gram .termTail []
  | termTailCons (op : Token) (w1 w2 : List Token) : op.kind.isMulOp = true →
      Gram .factor w1 → Gram .termTail w2 → Gram .termTail (op :: w1 ++ w2)
  | term (w1 w2 : List Token) : Gram .factor w1 → Gram .termTail w2 → Gram .term (w1 ++ w2)
  | exprTailNil : Gram .exprTail []
  | exprTailCons (op : Token) (w1 w2 : List Token) : op.kind.isAddOp = true →
      Gram .term w1 → Gram .exprTail w2 → Gram .exprTail (op :: w1 ++ w2)
  | expr (w1 w2 : List Token) : Gram .term w1 → Gram .exprTail w2 → Gram .expr (w1 ++ w2)
  | letStmt (tl id ta ts : Token) (w : List Token) : tl.kind = .TK_LET →
      id.kind = .TK_IDENT → ta.kind = .TK_ASSIGN → Gram .expr w → ts.kind = .TK_SEMI →
      Gram .statement (tl :: id :: ta :: w ++ [ts])
  | printStmt (tp ts : Token) (w : List Token) : tp.kind = .TK_PRINT → Gram .expr w →
      ts.kind = .TK_SEMI → Gram .statement (tp :: w ++ [ts])
  | semiStmt (t : Token) : t.kind = .TK_SEMI → Gram .statement [t]
  | programNil : Gram .program []
  | programCons (w1 w2 : List Token) : Gram .statement w1 → Gram .program w2 →
      Gram .program (w1 ++ w2)

/-- The text of the token is a run of digits whose value fits in a 32-bit
signed `int`. -/
def Token.fitsInt (t : Token) : Prop :=
  t.text ≠ [] ∧ (∀ c ∈ t.text, isdigit c = true) ∧ decimalValue t.text ≤ 2147483647

/-- Every integer literal of the list fits in a 32-bit signed `int`. -/
def LiteralsFit (w : List Token) : Prop := ∀ t ∈ w, t.kind = .TK_NUMBER → t.fitsInt

/-- The nonterminal a function of the parser recognises. -/
def Mode.nt : Mode → NT
  | .factor => .factor
  | .termLoop _ => .termTail
  | .term => .term
  | .exprLoop _ => .exprTail
  | .expr => .expr

/-- The relation a derivation of the grammar yields, given that its literals
fit. -/
def GramTarget : NT → List Token → Prop
  | .factor, w => ∃ e, Parses .factor w e
  | .termTail, w => ∀ node, ∃ e, Parses (.termLoop node) w e
  | .term, w => ∃ e, Parses .term w e
  | .exprTail, w => ∀ node, ∃ e, Parses (.exprLoop node) w e
  | .expr, w => ∃ e, Parses .expr w e
  | .statement, w => ∀ w2 ss, ParsesStmts w2 ss → ∃ ss1, ParsesStmts (w ++ w2) ss1
  | .program, w => ∃ ss, ParsesStmts w ss

/-! ## The end-of-input token -/

/-- Some token of the list is `TK_EOF`. -/
def HasEof (toks : List Token) : Prop := ∃ t ∈ toks, t.kind = .TK_EOF

/-! ## The example programs of the specification -/

/-- The tokens of `let x = 2 + 3 * 4; print x;`. -/
def sampleTokens : List Token :=
  [⟨.TK_LET, "let".toList⟩, ⟨.TK_IDENT, "x".toList⟩, ⟨.TK_ASSIGN, "=".toList⟩,
   ⟨.TK_NUMBER, "2".toList⟩, ⟨.TK_PLUS, "+".toList⟩, ⟨.TK_NUMBER, "3".toList⟩,
   ⟨.TK_MUL, "*".toList⟩, ⟨.TK_NUMBER, "4".toList⟩, ⟨.TK_SEMI, ";".toList⟩,
   ⟨.TK_PRINT, "print".toList⟩, ⟨.TK_IDENT, "x".toList⟩, ⟨.TK_SEMI, ";".toList⟩,
   ⟨.TK_EOF, []⟩]

/-- The statements of `let x = 2 + 3 * 4; print x;`. -/
def sampleStmts : List Stmt :=
  [.LetStmt "x".toList
     (.BinaryExpr '+' (.NumberExpr 2) (.BinaryExpr '*' (.NumberExpr 3) (.NumberExpr 4))),
   .PrintStmt (.VarExpr "x".toList)]

/-- The compiler state after `compile` on `let x = 2 + 3 * 4; print x;`. -/
def sampleCompiled : LLVMCompiler :=
  { entry := [.alloca 0 "x".toList, .store (.const 14) 0, .load 1 0 "x".toList,
              .call 2 "printf".toList [.globalStr "%d\n".toList, .inst 1], .ret (.const 0)],
    nextId := 3,
    namedValues := [("x".toList, 0)] }

/-- The statements of `let x = 1; let x = 2; print x;`. -/
def redeclStmts : List Stmt :=
  [.LetStmt ['x'] (.NumberExpr 1), .LetStmt ['x'] (.NumberExpr 2), .PrintStmt (.VarExpr ['x'])]

/-- The compiler state after `compile` on `let x = 1; let x = 2; print x;`. -/
def redeclCompiled : LLVMCompiler :=
  { entry := [.alloca 1 ['x'], .alloca 0 ['x'], .store (.const 1) 0, .store (.const 2) 1,
              .load 2 1 ['x'], .call 3 "printf".toList [.globalStr "%d\n".toList, .inst 2],
              .ret (.const 0)],
    nextId := 4,
    namedValues := [(['x'], 1)] }

/-! ## The branches of `Lexer::next` -/

/-- The classification of an identifier run by `Lexer::next`. -/
def Lexer.wordKind (run : List Char) : TokenKind :=
  if run = "let".toList then .TK_LET
  else if run = "print".toList then .TK_PRINT
  else .TK_IDENT

/-- The characters `Lexer::next` has a case for. -/
def Lexer.isPunct (c : Char) : Bool :=
  c = '+' || c = '-' || c = '*' || c = '/' || c = '(' || c = ')' || c = ';' || c = '='

/-! ## Characters the lexer has no case for -/

/-- The character is no whitespace, NUL, letter, digit, underscore or one of
`+ - * / ( ) ; =`. -/
def Lexer.isUnrecognized (c : Char) : Bool :=
  !isspace c && !(c == NUL) && !isalpha c && !isdigit c && !(c == '_') && !Lexer.isPunct c

/-! ## The layout of the emitted block -/

/-- The instruction is a load or an arithmetic instruction: what `compileExpr`
emits. -/
def Instr.isExprInstr : Instr → Bool
  | .load _ _ _ => true
  | .binop _ _ _ _ => true
  | _ => false

/-- The instructions a run of the emitter from state `c` to state `c1`
appended to the block. -/
def LLVMCompiler.appended (c c1 : LLVMCompiler) : List Instr := c1.entry.drop c.entry.length

/-- What `compileStmt` emits for one statement: the instructions of its
expression, its allocation (none for a `print`), and its store or call. -/
structure Group where
  expr : List Instr
  alloc : List Instr
  last : Instr
  deriving DecidableEq

/-- The group of the statement `s`, processed in the state `c`. -/
def LLVMCompiler.group (c : LLVMCompiler) : Stmt → Option Group
  | .LetStmt name rhs =>
    match c.compileExpr rhs with
    | .ok (v, c1) => some ⟨c.appended c1, [.alloca c1.nextId name], .store v c1.nextId⟩
    | .error _ => none
  | .PrintStmt expr =>
    match c.compileExpr expr with
    | .ok (v, c1) =>
      some ⟨c.appended c1, [], .call c1.nextId "printf".toList [.globalStr "%d\n".toList, v]⟩
    | .error _ => none

/-- The groups of the statements, processed in order from the state `c`. -/
def LLVMCompiler.groups (c : LLVMCompiler) : List Stmt → List Group
  | [] => []
  | s :: rest =>
    match c.group s, c.compileStmt s with
    | some g, .ok c1 => g :: c1.groups rest
    | _, _ => []

/-- A block made of one group per statement in statement order, with the
allocation of a `let` between the instructions of its right-hand side and its
store, then `ret i32 0`. -/
def claimedLayout (gs : List Group) : List Instr :=
  (gs.map fun g => g.expr ++ g.alloc ++ [g.last]).flatten ++ [.ret (.const 0)]

/-- A block that starts with the allocations, the latest first, followed by
one group per statement in statement order, the instructions of the expression
and the store or call, then `ret i32 0`. -/
def hoistedLayout (gs : List Group) : List Instr :=
  (gs.reverse.map Group.alloc).flatten ++ (gs.map fun g => g.expr ++ [g.last]).flatten ++
    [.ret (.const 0)]

/-- The shape of the group of a statement: loads and arithmetic instructions;
for a `let` the allocation of a slot with its name and a store into that slot,
for a `print` no allocation and a call of `printf` with the format string and
one value. -/
def Group.IsFor (s : Stmt) (g : Group) : Prop :=
  (∀ i ∈ g.expr, i.isExprInstr = true) ∧
  match s with
  | .LetStmt name _ => ∃ v slot, g.alloc = [.alloca slot name] ∧ g.last = .store v slot
  | .PrintStmt _ =>
    g.alloc = [] ∧ ∃ id v, g.last = .call id "printf".toList [.globalStr "%d\n".toList, v]

/-- A list of instructions that is a group as claimed for the statement: for
a `let` loads and arithmetic instructions, the allocation, the store; for a
`print` loads and arithmetic instructions, the call. -/
def ClaimedGroup (s : Stmt) (g : List Instr) : Prop :=
  match s with
  | .LetStmt name _ => ∃ new v slot, (∀ i ∈ new, i.isExprInstr = true) ∧
      g = new ++ [.alloca slot name, .store v slot]
  | .PrintStmt _ => ∃ new id v, (∀ i ∈ new, i.isExprInstr = true) ∧
      g = new ++ [.call id "printf".toList [.globalStr "%d\n".toList, v]]

/-! ## The calls of a block -/

/-- The statement is a `print`. -/
def Stmt.isPrint : Stmt → Bool
  | .PrintStmt _ => true
  | .LetStmt _ _ => false

/-- The call instructions of a block, in order: the callee and the arguments
of each. -/
def callsOf : List Instr → List (List Char × List Val)
  | [] => []
  | .call _ callee args :: rest => (callee, args) :: callsOf rest
  | _ :: rest => callsOf rest

/-- One call per `print` statement of the list, processed in order from the
state `c`: `printf` with the format string and the value `compileExpr` returns
for the expression of the statement in the state in which it is processed. -/
def LLVMCompiler.printCalls (c : LLVMCompiler) : List Stmt → List (List Char × List Val)
  | [] => []
  | s :: rest =>
    match c.compileStmt s with
    | .error _ => []
    | .ok c2 =>
      match s with
      | .LetStmt _ _ => c2.printCalls rest
      | .PrintStmt expr =>
        match c.compileExpr expr with
        | .ok (v, _) => ("printf".toList, [.globalStr "%d\n".toList, v]) :: c2.printCalls rest
        | .error _ => c2.printCalls rest

/-- The statements of `let x = 5; print x; print x * 2;`. -/
def printsStmts : List Stmt :=
  [.LetStmt ['x'] (.NumberExpr 5), .PrintStmt (.VarExpr ['x']),
   .PrintStmt (.BinaryExpr '*' (.VarExpr ['x']) (.NumberExpr 2))]

/-- The compiler state after `compile` on `let x = 5; print x; print x * 2;`. -/
def printsCompiled : LLVMCompiler :=
  { entry := [.alloca 0 ['x'], .store (.const 5) 0, .load 1 0 ['x'],
              .call 2 "printf".toList [.globalStr "%d\n".toList, .inst 1],
              .load 3 0 ['x'], .binop 4 .mul (.inst 3) (.const 2),
              .call 5 "printf".toList [.globalStr "%d\n".toList, .inst 4], .ret (.const 0)],
    nextId := 6,
    namedValues := [(['x'], 0)] }

/-! ## Definition before use -/

/-- The numbers of the instructions of a list that yield an `i32`: loads,
arithmetic instructions and calls. -/
def results : List Instr → List Nat
  | [] => []
  | .load id _ _ :: rest => id :: results rest
  | .binop id _ _ _ :: rest => id :: results rest
  | .call id _ _ :: rest => id :: results rest
  | _ :: rest => results rest

/-- The operand is a constant, or the result of an instruction numbered in
`regs`. -/
def Val.definedIn (regs : List Nat) : Val → Bool
  | .inst id => decide (id ∈ regs)
  | _ => true

/-- The instruction uses only what is there: a load and a store address a
slot of `allocs`, and every operand is a constant or a result of `regs`. -/
def Instr.usesOk (allocs regs : List Nat) : Instr → Bool
  | .alloca _ _ => true
  | .load _ slot _ => decide (slot ∈ allocs)
  | .store v slot => decide (slot ∈ allocs) && v.definedIn regs
  | .binop _ _ l r => l.definedIn regs && r.definedIn regs
  | .call _ _ args => args.all (Val.definedIn regs)
  | .ret v => v.definedIn regs

/-- Definition before use, checked along a list of instructions entered
with the slots `allocs` allocated and the results `regs` computed. -/
def defBeforeUse (allocs regs : List Nat) : List Instr → Bool
  | [] => true
  | i :: rest => i.usesOk allocs regs && defBeforeUse (slots [i] ++ allocs) (results [i] ++ regs) rest

/-- Definition before use: every instruction of the list uses only slots
allocated and results computed by the instructions before it. -/
def DefBeforeUse (l : List Instr) : Prop :=
  ∀ pre i post, l = pre ++ i :: post → i.usesOk (slots pre) (results pre) = true

/-- The state of the emitter is well formed: the block satisfies definition
before use, and every slot held in `namedValues` has its allocation in the
block. -/
def LLVMCompiler.WellFormed (c : LLVMCompiler) : Prop :=
  DefBeforeUse c.entry ∧ ∀ p ∈ c.namedValues, p.2 ∈ slots c.entry

/-- The well-formedness of a state, computed. -/
def LLVMCompiler.wellFormed (c : LLVMCompiler) : Bool :=
  defBeforeUse [] [] c.entry && c.namedValues.all fun p => decide (p.2 ∈ slots c.entry)

/-! ## The slots a `let` reads and the slot it binds -/

/-- The loads of a list, in order: the name and the slot of each. -/
def loadsOf : List Instr → List (List Char × Nat)
  | [] => []
  | .load _ slot name :: rest => (name, slot) :: loadsOf rest
  | _ :: rest => loadsOf rest

/-- The statements of `let x = 1; let x = x + 1; print x;`. -/
def rebindStmts : List Stmt :=
  [.LetStmt ['x'] (.NumberExpr 1),
   .LetStmt ['x'] (.BinaryExpr '+' (.VarExpr ['x']) (.NumberExpr 1)),
   .PrintStmt (.VarExpr ['x'])]

/-- The compiler state after `compile` on `let x = 1; let x = x + 1; print x;`. -/
def rebindCompiled : LLVMCompiler :=
  { entry := [.alloca 3 ['x'], .alloca 0 ['x'], .store (.const 1) 0, .load 1 0 ['x'],
              .binop 2 .add (.inst 1) (.const 1), .store (.inst 2) 3, .load 4 3 ['x'],
              .call 5 "printf".toList [.globalStr "%d\n".toList, .inst 4], .ret (.const 0)],
    nextId := 6,
    namedValues := [(['x'], 3)] }

/-! # Theorems

## The recursion budget of the parser

A larger budget never changes an outcome other than `Res.fuel`, and a budget
of five per token is always enough. -/

@[simp] theorem Res.bind_ok {α β : Type} (a : α) (f : α → Res β) :
    (Res.ok a).bind f = f a := rfl

@[simp] theorem Res.bind_fail {α β : Type} (e : ParseError) (f : α → Res β) :
    (Res.fail e : Res α).bind f = .fail e := rfl

@[simp] theorem Res.bind_fuel {α β : Type} (f : α → Res β) :
    (Res.fuel : Res α).bind f = .fuel := rfl

theorem Res.bind_stable {α β : Type} {A B : Res α} {f g : α → Res β}
    (hA : A ≠ .fuel → B = A) (hf : ∀ a, A = .ok a → f a ≠ .fuel → g a = f a)
    (h : A.bind f ≠ .fuel) : B.bind g = A.bind f := by
  cases hA0 : A with
  | ok a =>
    rw [hA0] at h hA
    rw [hA (by simp)]
    simpa using hf a hA0 (by simpa using h)
  | fail e =>
    rw [hA0] at hA
    rw [hA (by simp)]
    rfl
  | fuel => rw [hA0] at h; simp at h

theorem Res.bind_ne_fuel {α β : Type} {A : Res α} {f : α → Res β}
    (hA : A ≠ .fuel) (hf : ∀ a, A = .ok a → f a ≠ .fuel) : A.bind f ≠ .fuel := by
  cases hA0 : A with
  | ok a => simpa using hf a hA0
  | fail e => simp
  | fuel => exact absurd hA0 hA

theorem Res.bind_eq_ok {α β : Type} {A : Res α} {f : α → Res β} {b : β}
    (h : A.bind f = .ok b) : ∃ a, A = .ok a ∧ f a = .ok b := by
  cases A with
  | ok a => exact ⟨a, rfl, by simpa using h⟩
  | fail e => simp at h
  | fuel => simp at h

theorem parse_mono_step (n : Nat) :
    (∀ toks, parseFactorF n toks ≠ .fuel → parseFactorF (n + 1) toks = parseFactorF n toks) ∧
    (∀ node toks, parseTermLoopF n node toks ≠ .fuel →
      parseTermLoopF (n + 1) node toks = parseTermLoopF n node toks) ∧
    (∀ toks, parseTermF n toks ≠ .fuel → parseTermF (n + 1) toks = parseTermF n toks) ∧
    (∀ node toks, parseExprLoopF n node toks ≠ .fuel →
      parseExprLoopF (n + 1) node toks = parseExprLoopF n node toks) ∧
    (∀ toks, parseExprF n toks ≠ .fuel → parseExprF (n + 1) toks = parseExprF n toks) := by
  induction n with
  | zero => simp [parseFactorF, parseTermLoopF, parseTermF, parseExprLoopF, parseExprF]
  | succ n ih =>
    obtain ⟨ihF, ihTL, ihT, ihEL, ihE⟩ := ih
    refine ⟨?_, ?_, ?_, ?_, ?_⟩
    · intro toks h
      cases toks with
      | nil => simp [parseFactorF]
      | cons t rest =>
        simp only [parseFactorF] at h ⊢
        split_ifs at h ⊢ with h1 h2 h3
        · rfl
        · rfl
        · exact Res.bind_stable (ihE rest) (fun _ _ _ => rfl) h
        · rfl
    · intro node toks h
      cases toks with
      | nil => simp [parseTermLoopF]
      | cons t rest =>
        simp only [parseTermLoopF] at h ⊢
        split_ifs at h ⊢ with h1 h2
        · exact Res.bind_stable (ihF rest) (fun r _ hr => ihTL _ _ hr) h
        · exact Res.bind_stable (ihF rest) (fun r _ hr => ihTL _ _ hr) h
        · rfl
    · intro toks h
      simp only [parseTermF] at h ⊢
      exact Res.bind_stable (ihF toks) (fun r _ hr => ihTL _ _ hr) h
    · intro node toks h
      cases toks with
      | nil => simp [parseExprLoopF]
      | cons t rest =>
        simp only [parseExprLoopF] at h ⊢
        split_ifs at h ⊢ with h1 h2
        · exact Res.bind_stable (ihT rest) (fun r _ hr => ihEL _ _ hr) h
        · exact Res.bind_stable (ihT rest) (fun r _ hr => ihEL _ _ hr) h
        · rfl
    · intro toks h
      simp only [parseExprF] at h ⊢
      exact Res.bind_stable (ihT toks) (fun r _ hr => ihEL _ _ hr) h

theorem Res.bind_congr {α β : Type} {A : Res α} {f g : α → Res β}
    (h : ∀ a, A = .ok a → f a = g a) : A.bind f = A.bind g := by
  cases A with
  | ok a => simpa using h a rfl
  | fail e => rfl
  | fuel => rfl

theorem Parser.expect_eq_ok {k : TokenKind} {toks rest : List Token}
    (h : Parser.expect k toks = .ok rest) : ∃ t, toks = t :: rest ∧ t.kind = k := by
  cases toks with
  | nil => simp [Parser.expect] at h
  | cons t r =>
    simp only [Parser.expect] at h
    split_ifs at h with hk
    · exact ⟨t, by simpa using h, hk⟩

theorem Parser.expect_ne_fuel (k : TokenKind) (toks : List Token) :
    Parser.expect k toks ≠ .fuel := by
  cases toks with
  | nil => simp [Parser.expect]
  | cons t r => simp only [Parser.expect]; split_ifs <;> simp

theorem stoi_ne_fuel (text : List Char) : stoi text ≠ .fuel := by
  simp only [stoi]; split_ifs <;> simp

/-- Induction over the successful runs of the expression parser: a property
of (input, tree, remaining input) that every line of the five functions
preserves holds of every result. -/
theorem parse_induction
    (PF PT PE : List Token → Expr → List Token → Prop)
    (PTL PEL : Expr → List Token → Expr → List Token → Prop)
    (hNum : ∀ t rest v, t.kind = .TK_NUMBER → stoi t.text = .ok v →
      PF (t :: rest) (.NumberExpr v) rest)
    (hIdent : ∀ t rest, t.kind = .TK_IDENT → PF (t :: rest) (.VarExpr t.text) rest)
    (hParen : ∀ t rest e t2 rest2, t.kind = .TK_LPAREN → PE rest e (t2 :: rest2) →
      t2.kind = .TK_RPAREN → PF (t :: rest) e rest2)
    (hTLStop : ∀ node t rest, t.kind ≠ .TK_MUL → t.kind ≠ .TK_DIV →
      PTL node (t :: rest) node (t :: rest))
    (hTLMul : ∀ node t rest r rest2 e rest3, t.kind = .TK_MUL → PF rest r rest2 →
      PTL (.BinaryExpr '*' node r) rest2 e rest3 → PTL node (t :: rest) e rest3)
    (hTLDiv : ∀ node t rest r rest2 e rest3, t.kind = .TK_DIV → PF rest r rest2 →
      PTL (.BinaryExpr '/' node r) rest2 e rest3 → PTL node (t :: rest) e rest3)
    (hTerm : ∀ toks f rest e rest2, PF toks f rest → PTL f rest e rest2 → PT toks e rest2)
    (hELStop : ∀ node t rest, t.kind ≠ .TK_PLUS → t.kind ≠ .TK_MINUS →
      PEL node (t :: rest) node (t :: rest))
    (hELPlus : ∀ node t rest r rest2 e rest3, t.kind = .TK_PLUS → PT rest r rest2 →
      PEL (.BinaryExpr '+' node r) rest2 e rest3 → PEL node (t :: rest) e rest3)
    (hELMinus : ∀ node t rest r rest2 e rest3, t.kind = .TK_MINUS → PT rest r rest2 →
      PEL (.BinaryExpr '-' node r) rest2 e rest3 → PEL node (t :: rest) e rest3)
    (hExpr : ∀ toks f rest e rest2, PT toks f rest → PEL f rest e rest2 → PE toks e rest2)
    (n : Nat) :
    (∀ toks e rest, parseFactorF n toks = .ok (e, rest) → PF toks e rest) ∧
    (∀ node toks e rest, parseTermLoopF n node toks = .ok (e, rest) → PTL node toks e rest) ∧
    (∀ toks e rest, parseTermF n toks = .ok (e, rest) → PT toks e rest) ∧
    (∀ node toks e rest, parseExprLoopF n node toks = .ok (e, rest) → PEL node toks e rest) ∧
    (∀ toks e rest, parseExprF n toks = .ok (e, rest) → PE toks e rest) := by
  induction n with
  | zero => simp [parseFactorF, parseTermLoopF, parseTermF, parseExprLoopF, parseExprF]
  | succ n ih =>
    obtain ⟨ihF, ihTL, ihT, ihEL, ihE⟩ := ih
    refine ⟨?_, ?_, ?_, ?_, ?_⟩
    · intro toks e rest h
      cases toks with
      | nil => simp [parseFactorF] at h
      | cons t r =>
        simp only [parseFactorF] at h
        split_ifs at h with h1 h2 h3
        · obtain ⟨v, hv, hr⟩ := Res.bind_eq_ok h
          simp only [Res.ok.injEq, Prod.mk.injEq] at hr
          obtain ⟨rfl, rfl⟩ := hr
          exact hNum t r v h1 hv
        · simp only [Res.ok.injEq, Prod.mk.injEq] at h
          obtain ⟨rfl, rfl⟩ := h
          exact hIdent t r h2
        · obtain ⟨⟨e1, r1⟩, he, h4⟩ := Res.bind_eq_ok h
          obtain ⟨r2, hx, h5⟩ := Res.bind_eq_ok h4
          simp only [Res.ok.injEq, Prod.mk.injEq] at h5
          obtain ⟨rfl, rfl⟩ := h5
          obtain ⟨t2, ht2, hk⟩ := Parser.expect_eq_ok hx
          simp only at ht2
          subst ht2
          exact hParen t r _ t2 _ h3 (ihE _ _ _ he) hk
    · intro node toks e rest h
      cases toks with
      | nil => simp [parseTermLoopF] at h
      | cons t r =>
        simp only [parseTermLoopF] at h
        split_ifs at h with h1 h2
        · obtain ⟨⟨f, r1⟩, hf, h3⟩ := Res.bind_eq_ok h
          exact hTLMul node t r f r1 e rest h1 (ihF _ _ _ hf) (ihTL _ _ _ _ h3)
        · obtain ⟨⟨f, r1⟩, hf, h3⟩ := Res.bind_eq_ok h
          exact hTLDiv node t r f r1 e rest h2 (ihF _ _ _ hf) (ihTL _ _ _ _ h3)
        · simp only [Res.ok.injEq, Prod.mk.injEq] at h
          obtain ⟨rfl, rfl⟩ := h
          exact hTLStop _ t r h1 h2
    · intro toks e rest h
      simp only [parseTermF] at h
      obtain ⟨⟨f, r1⟩, hf, h3⟩ := Res.bind_eq_ok h
      exact hTerm toks f r1 e rest (ihF _ _ _ hf) (ihTL _ _ _ _ h3)
    · intro node toks e rest h
      cases toks with
      | nil => simp [parseExprLoopF] at h
      | cons t r =>
        simp only [parseExprLoopF] at h
        split_ifs at h with h1 h2
        · obtain ⟨⟨f, r1⟩, hf, h3⟩ := Res.bind_eq_ok h
          exact hELPlus node t r f r1 e rest h1 (ihT _ _ _ hf) (ihEL _ _ _ _ h3)
        · obtain ⟨⟨f, r1⟩, hf, h3⟩ := Res.bind_eq_ok h
          exact hELMinus node t r f r1 e rest h2 (ihT _ _ _ hf) (ihEL _ _ _ _ h3)
        · simp only [Res.ok.injEq, Prod.mk.injEq] at h
          obtain ⟨rfl, rfl⟩ := h
          exact hELStop _ t r h1 h2
    · intro toks e rest h
      simp only [parseExprF] at h
      obtain ⟨⟨f, r1⟩, hf, h3⟩ := Res.bind_eq_ok h
      exact hExpr toks f r1 e rest (ihT _ _ _ hf) (ihEL _ _ _ _ h3)

/-- What a successful run consumes: a factor, a term and an expression take
at least one token, a loop takes a prefix. -/
theorem parse_consumes (n : Nat) :
    (∀ toks e rest, parseFactorF n toks = .ok (e, rest) →
      ∃ w, w ≠ [] ∧ toks = w ++ rest) ∧
    (∀ node toks e rest, parseTermLoopF n node toks = .ok (e, rest) →
      ∃ w, toks = w ++ rest) ∧
    (∀ toks e rest, parseTermF n toks = .ok (e, rest) → ∃ w, w ≠ [] ∧ toks = w ++ rest) ∧
    (∀ node toks e rest, parseExprLoopF n node toks = .ok (e, rest) →
      ∃ w, toks = w ++ rest) ∧
    (∀ toks e rest, parseExprF n toks = .ok (e, rest) → ∃ w, w ≠ [] ∧ toks = w ++ rest) := by
  apply parse_induction (fun toks _ rest => ∃ w, w ≠ [] ∧ toks = w ++ rest)
    (fun toks _ rest => ∃ w, w ≠ [] ∧ toks = w ++ rest)
    (fun toks _ rest => ∃ w, w ≠ [] ∧ toks = w ++ rest)
    (fun _ toks _ rest => ∃ w, toks = w ++ rest)
    (fun _ toks _ rest => ∃ w, toks = w ++ rest)
  · intro t rest v _ _; exact ⟨[t], by simp, rfl⟩
  · intro t rest _; exact ⟨[t], by simp, rfl⟩
  · rintro t rest e t2 rest2 _ ⟨w, _, rfl⟩ _
    exact ⟨t :: (w ++ [t2]), by simp, by simp⟩
  · intro node t rest _ _; exact ⟨[], rfl⟩
  · rintro node t rest r rest2 e rest3 _ ⟨w, _, rfl⟩ ⟨w2, rfl⟩
    exact ⟨t :: (w ++ w2), by simp⟩
  · rintro node t rest r rest2 e rest3 _ ⟨w, _, rfl⟩ ⟨w2, rfl⟩
    exact ⟨t :: (w ++ w2), by simp⟩
  · rintro toks f rest e rest2 ⟨w, hw, rfl⟩ ⟨w2, rfl⟩
    exact ⟨w ++ w2, by simp [hw], by simp⟩
  · intro node t rest _ _; exact ⟨[], rfl⟩
  · rintro node t rest r rest2 e rest3 _ ⟨w, _, rfl⟩ ⟨w2, rfl⟩
    exact ⟨t :: (w ++ w2), by simp⟩
  · rintro node t rest r rest2 e rest3 _ ⟨w, _, rfl⟩ ⟨w2, rfl⟩
    exact ⟨t :: (w ++ w2), by simp⟩
  · rintro toks f rest e rest2 ⟨w, hw, rfl⟩ ⟨w2, rfl⟩
    exact ⟨w ++ w2, by simp [hw], by simp⟩

theorem parseFactorF_length {n : Nat} {toks rest : List Token} {e : Expr}
    (h : parseFactorF n toks = .ok (e, rest)) : rest.length < toks.length := by
  obtain ⟨w, hw, rfl⟩ := (parse_consumes n).1 toks e rest h
  have := List.length_pos.mpr hw
  simp; omega

theorem parseTermLoopF_length {n : Nat} {node : Expr} {toks rest : List Token} {e : Expr}
    (h : parseTermLoopF n node toks = .ok (e, rest)) : rest.length ≤ toks.length := by
  obtain ⟨w, rfl⟩ := (parse_consumes n).2.1 node toks e rest h
  simp

theorem parseTermF_length {n : Nat} {toks rest : List Token} {e : Expr}
    (h : parseTermF n toks = .ok (e, rest)) : rest.length < toks.length := by
  obtain ⟨w, hw, rfl⟩ := (parse_consumes n).2.2.1 toks e rest h
  have := List.length_pos.mpr hw
  simp; omega

theorem parseExprLoopF_length {n : Nat} {node : Expr} {toks rest : List Token} {e : Expr}
    (h : parseExprLoopF n node toks = .ok (e, rest)) : rest.length ≤ toks.length := by
  obtain ⟨w, rfl⟩ := (parse_consumes n).2.2.2.1 node toks e rest h
  simp

theorem parseExprF_length {n : Nat} {toks rest : List Token} {e : Expr}
    (h : parseExprF n toks = .ok (e, rest)) : rest.length < toks.length := by
  obtain ⟨w, hw, rfl⟩ := (parse_consumes n).2.2.2.2 toks e rest h
  have := List.length_pos.mpr hw
  simp; omega

/-- Five units of budget per token are enough for every function. -/
theorem parse_adequate (n : Nat) :
    (∀ toks, 5 * toks.length + 1 ≤ n → parseFactorF n toks ≠ .fuel) ∧
    (∀ node toks, 5 * toks.length + 1 ≤ n → parseTermLoopF n node toks ≠ .fuel) ∧
    (∀ toks, 5 * toks.length + 2 ≤ n → parseTermF n toks ≠ .fuel) ∧
    (∀ node toks, 5 * toks.length + 1 ≤ n → parseExprLoopF n node toks ≠ .fuel) ∧
    (∀ toks, 5 * toks.length + 3 ≤ n → parseExprF n toks ≠ .fuel) := by
  induction n with
  | zero => simp
  | succ n ih =>
    obtain ⟨ihF, ihTL, ihT, ihEL, ihE⟩ := ih
    refine ⟨?_, ?_, ?_, ?_, ?_⟩
    · intro toks hn
      cases toks with
      | nil => simp [parseFactorF]
      | cons t rest =>
        simp only [List.length_cons] at hn
        simp only [parseFactorF]
        split_ifs
        · exact Res.bind_ne_fuel (stoi_ne_fuel _) (fun _ _ => by simp)
        · simp
        · refine Res.bind_ne_fuel (ihE rest (by omega)) (fun r _ => ?_)
          exact Res.bind_ne_fuel (Parser.expect_ne_fuel _ _) (fun _ _ => by simp)
        · simp
    · intro node toks hn
      cases toks with
      | nil => simp [parseTermLoopF]
      | cons t rest =>
        simp only [List.length_cons] at hn
        simp only [parseTermLoopF]
        split_ifs
        · refine Res.bind_ne_fuel (ihF rest (by omega)) (fun r hr => ?_)
          have := parseFactorF_length hr
          exact ihTL _ _ (by omega)
        · refine Res.bind_ne_fuel (ihF rest (by omega)) (fun r hr => ?_)
          have := parseFactorF_length hr
          exact ihTL _ _ (by omega)
        · simp
    · intro toks hn
      simp only [parseTermF]
      refine Res.bind_ne_fuel (ihF toks (by omega)) (fun r hr => ?_)
      have := parseFactorF_length hr
      exact ihTL _ _ (by omega)
    · intro node toks hn
      cases toks with
      | nil => simp [parseExprLoopF]
      | cons t rest =>
        simp only [List.length_cons] at hn
        simp only [parseExprLoopF]
        split_ifs
        · refine Res.bind_ne_fuel (ihT rest (by omega)) (fun r hr => ?_)
          have := parseTermF_length hr
          exact ihEL _ _ (by omega)
        · refine Res.bind_ne_fuel (ihT rest (by omega)) (fun r hr => ?_)
          have := parseTermF_length hr
          exact ihEL _ _ (by omega)
        · simp
    · intro toks hn
      simp only [parseExprF]
      refine Res.bind_ne_fuel (ihT toks (by omega)) (fun r hr => ?_)
      have := parseTermF_length hr
      exact ihEL _ _ (by omega)

theorem fuel_stable {α β : Type} (F : Nat → α → Res β)
    (step : ∀ n a, F n a ≠ .fuel → F (n + 1) a = F n a) (a : α) (n : Nat)
    (h : F n a ≠ .fuel) : ∀ m, n ≤ m → F m a = F n a := by
  intro m hm
  induction m, hm using Nat.le_induction with
  | base => rfl
  | succ m _ ih => rw [step m a (by rw [ih]; exact h), ih]

theorem fuel_canon {α β : Type} (F : Nat → α → Res β)
    (step : ∀ n a, F n a ≠ .fuel → F (n + 1) a = F n a) (bound : α → Nat)
    (adequate : ∀ a, F (bound a) a ≠ .fuel) (a : α) (n : Nat) (h : F n a ≠ .fuel) :
    F (bound a) a = F n a := by
  rcases Nat.le_total n (bound a) with hle | hle
  · exact fuel_stable F step a n h _ hle
  · exact (fuel_stable F step a _ (adequate a) _ hle).symm

theorem Parser.parseFactor_eq {n : Nat} {toks : List Token} (h : parseFactorF n toks ≠ .fuel) :
    Parser.parseFactor toks = parseFactorF n toks :=
  fuel_canon parseFactorF (fun n a => (parse_mono_step n).1 a) (fun a => 5 * a.length + 1)
    (fun a => (parse_adequate _).1 a (Nat.le_refl _)) toks n h

theorem Parser.parseTermLoop_eq {n : Nat} {node : Expr} {toks : List Token}
    (h : parseTermLoopF n node toks ≠ .fuel) :
    Parser.parseTermLoop node toks = parseTermLoopF n node toks :=
  fuel_canon (fun n (p : Expr × List Token) => parseTermLoopF n p.1 p.2)
    (fun n a => (parse_mono_step n).2.1 a.1 a.2) (fun a => 5 * a.2.length + 1)
    (fun a => (parse_adequate _).2.1 a.1 a.2 (Nat.le_refl _)) (node, toks) n h

theorem Parser.parseTerm_eq {n : Nat} {toks : List Token} (h : parseTermF n toks ≠ .fuel) :
    Parser.parseTerm toks = parseTermF n toks :=
  fuel_canon parseTermF (fun n a => (parse_mono_step n).2.2.1 a) (fun a => 5 * a.length + 2)
    (fun a => (parse_adequate _).2.2.1 a (Nat.le_refl _)) toks n h

theorem Parser.parseExprLoop_eq {n : Nat} {node : Expr} {toks : List Token}
    (h : parseExprLoopF n node toks ≠ .fuel) :
    Parser.parseExprLoop node toks = parseExprLoopF n node toks :=
  fuel_canon (fun n (p : Expr × List Token) => parseExprLoopF n p.1 p.2)
    (fun n a => (parse_mono_step n).2.2.2.1 a.1 a.2) (fun a => 5 * a.2.length + 1)
    (fun a => (parse_adequate _).2.2.2.1 a.1 a.2 (Nat.le_refl _)) (node, toks) n h

theorem Parser.parseExpr_eq {n : Nat} {toks : List Token} (h : parseExprF n toks ≠ .fuel) :
    Parser.parseExpr toks = parseExprF n toks :=
  fuel_canon parseExprF (fun n a => (parse_mono_step n).2.2.2.2 a) (fun a => 5 * a.length + 3)
    (fun a => (parse_adequate _).2.2.2.2 a (Nat.le_refl _)) toks n h

/-! ### The functions of the parser satisfy the equations of the source -/

theorem parseFactorF_succ (n : Nat) (t : Token) (rest : List Token) :
    parseFactorF (n + 1) (t :: rest) =
      if t.kind = .TK_NUMBER then (stoi t.text).bind fun v => .ok (.NumberExpr v, rest)
      else if t.kind = .TK_IDENT then .ok (.VarExpr t.text, rest)
      else if t.kind = .TK_LPAREN then
        (parseExprF n rest).bind fun r =>
          (Parser.expect .TK_RPAREN r.2).bind fun rest2 => .ok (r.1, rest2)
      else .fail (.unexpectedFactor t.text) := by
  simp only [parseFactorF]

theorem parseTermLoopF_succ (n : Nat) (node : Expr) (t : Token) (rest : List Token) :
    parseTermLoopF (n + 1) node (t :: rest) =
      if t.kind = .TK_MUL then
        (parseFactorF n rest).bind fun r => parseTermLoopF n (.BinaryExpr '*' node r.1) r.2
      else if t.kind = .TK_DIV then
        (parseFactorF n rest).bind fun r => parseTermLoopF n (.BinaryExpr '/' node r.1) r.2
      else .ok (node, t :: rest) := by
  simp only [parseTermLoopF]

theorem parseTermF_succ (n : Nat) (toks : List Token) :
    parseTermF (n + 1) toks = (parseFactorF n toks).bind fun r => parseTermLoopF n r.1 r.2 := by
  simp only [parseTermF]

theorem parseExprLoopF_succ (n : Nat) (node : Expr) (t : Token) (rest : List Token) :
    parseExprLoopF (n + 1) node (t :: rest) =
      if t.kind = .TK_PLUS then
        (parseTermF n rest).bind fun r => parseExprLoopF n (.BinaryExpr '+' node r.1) r.2
      else if t.kind = .TK_MINUS then
        (parseTermF n rest).bind fun r => parseExprLoopF n (.BinaryExpr '-' node r.1) r.2
      else .ok (node, t :: rest) := by
  simp only [parseExprLoopF]

theorem parseExprF_succ (n : Nat) (toks : List Token) :
    parseExprF (n + 1) toks = (parseTermF n toks).bind fun r => parseExprLoopF n r.1 r.2 := by
  simp only [parseExprF]

theorem Parser.parseFactor_nil : Parser.parseFactor [] = .fail .outOfBounds := by
  simp [Parser.parseFactor, parseFactorF]

theorem Parser.parseFactor_cons (t : Token) (rest : List Token) :
    Parser.parseFactor (t :: rest) =
      if t.kind = .TK_NUMBER then (stoi t.text).bind fun v => .ok (.NumberExpr v, rest)
      else if t.kind = .TK_IDENT then .ok (.VarExpr t.text, rest)
      else if t.kind = .TK_LPAREN then
        (Parser.parseExpr rest).bind fun r =>
          (Parser.expect .TK_RPAREN r.2).bind fun rest2 => .ok (r.1, rest2)
      else .fail (.unexpectedFactor t.text) := by
  have h : 5 * (t :: rest).length + 1 = (5 * rest.length + 5) + 1 := by
    simp only [List.length_cons]; omega
  rw [Parser.parseFactor, h, parseFactorF_succ,
    Parser.parseExpr_eq ((parse_adequate (5 * rest.length + 5)).2.2.2.2 rest (by omega))]

theorem Parser.parseTermLoop_nil (node : Expr) :
    Parser.parseTermLoop node [] = .fail .outOfBounds := by
  simp [Parser.parseTermLoop, parseTermLoopF]

theorem Parser.parseTermLoop_cons (node : Expr) (t : Token) (rest : List Token) :
    Parser.parseTermLoop node (t :: rest) =
      if t.kind = .TK_MUL then
        (Parser.parseFactor rest).bind fun r =>
          Parser.parseTermLoop (.BinaryExpr '*' node r.1) r.2
      else if t.kind = .TK_DIV then
        (Parser.parseFactor rest).bind fun r =>
          Parser.parseTermLoop (.BinaryExpr '/' node r.1) r.2
      else .ok (node, t :: rest) := by
  have h : 5 * (t :: rest).length + 1 = (5 * rest.length + 5) + 1 := by
    simp only [List.length_cons]; omega
  have key : ∀ op, ((parseFactorF (5 * rest.length + 5) rest).bind fun r =>
      parseTermLoopF (5 * rest.length + 5) (.BinaryExpr op node r.1) r.2) =
      (Parser.parseFactor rest).bind fun r =>
        Parser.parseTermLoop (.BinaryExpr op node r.1) r.2 := by
    intro op
    rw [Parser.parseFactor_eq ((parse_adequate (5 * rest.length + 5)).1 rest (by omega))]
    refine Res.bind_congr (fun r hr => ?_)
    have := parseFactorF_length hr
    exact (Parser.parseTermLoop_eq
      ((parse_adequate (5 * rest.length + 5)).2.1 _ _ (by omega))).symm
  rw [Parser.parseTermLoop, h, parseTermLoopF_succ, key, key]

theorem Parser.parseTerm_unfold (toks : List Token) :
    Parser.parseTerm toks =
      (Parser.parseFactor toks).bind fun r => Parser.parseTermLoop r.1 r.2 := by
  rw [Parser.parseTerm, parseTermF_succ, Parser.parseFactor]
  refine Res.bind_congr (fun r hr => ?_)
  have := parseFactorF_length hr
  exact (Parser.parseTermLoop_eq
    ((parse_adequate (5 * toks.length + 1)).2.1 _ _ (by omega))).symm

theorem Parser.parseExprLoop_nil (node : Expr) :
    Parser.parseExprLoop node [] = .fail .outOfBounds := by
  simp [Parser.parseExprLoop, parseExprLoopF]

theorem Parser.parseExprLoop_cons (node : Expr) (t : Token) (rest : List Token) :
    Parser.parseExprLoop node (t :: rest) =
      if t.kind = .TK_PLUS then
        (Parser.parseTerm rest).bind fun r =>
          Parser.parseExprLoop (.BinaryExpr '+' node r.1) r.2
      else if t.kind = .TK_MINUS then
        (Parser.parseTerm rest).bind fun r =>
          Parser.parseExprLoop (.BinaryExpr '-' node r.1) r.2
      else .ok (node, t :: rest) := by
  have h : 5 * (t :: rest).length + 1 = (5 * rest.length + 5) + 1 := by
    simp only [List.length_cons]; omega
  have key : ∀ op, ((parseTermF (5 * rest.length + 5) rest).bind fun r =>
      parseExprLoopF (5 * rest.length + 5) (.BinaryExpr op node r.1) r.2) =
      (Parser.parseTerm rest).bind fun r =>
        Parser.parseExprLoop (.BinaryExpr op node r.1) r.2 := by
    intro op
    rw [Parser.parseTerm_eq ((parse_adequate (5 * rest.length + 5)).2.2.1 rest (by omega))]
    refine Res.bind_congr (fun r hr => ?_)
    have := parseTermF_length hr
    exact (Parser.parseExprLoop_eq
      ((parse_adequate (5 * rest.length + 5)).2.2.2.1 _ _ (by omega))).symm
  rw [Parser.parseExprLoop, h, parseExprLoopF_succ, key, key]

theorem Parser.parseExpr_unfold (toks : List Token) :
    Parser.parseExpr toks =
      (Parser.parseTerm toks).bind fun r => Parser.parseExprLoop r.1 r.2 := by
  rw [Parser.parseExpr, parseExprF_succ, Parser.parseTerm]
  refine Res.bind_congr (fun r hr => ?_)
  have := parseTermF_length hr
  exact (Parser.parseExprLoop_eq
    ((parse_adequate (5 * toks.length + 2)).2.2.2.1 _ _ (by omega))).symm

theorem Parser.parseExpr_ne_fuel (toks : List Token) : Parser.parseExpr toks ≠ .fuel :=
  (parse_adequate _).2.2.2.2 toks (Nat.le_refl _)

theorem Parser.parseExpr_length {toks rest : List Token} {e : Expr}
    (h : Parser.parseExpr toks = .ok (e, rest)) : rest.length < toks.length :=
  parseExprF_length h

theorem Parser.expect_length {k : TokenKind} {toks rest : List Token}
    (h : Parser.expect k toks = .ok rest) : rest.length < toks.length := by
  obtain ⟨t, rfl, _⟩ := Parser.expect_eq_ok h
  simp

theorem parseAllF_succ (n : Nat) (out : List Stmt) (t : Token) (rest : List Token) :
    parseAllF (n + 1) out (t :: rest) = parseAllBody (parseAllF n) out t rest := by
  simp only [parseAllF]

/-- The loop body gives the same outcome for two continuations that agree on
every shorter input. -/
theorem parseAllBody_congr {f g : List Stmt → List Token → Res (List Stmt)} (out : List Stmt)
    (t : Token) (rest : List Token)
    (h : ∀ out2 toks2, toks2.length ≤ rest.length → f out2 toks2 = g out2 toks2) :
    parseAllBody f out t rest = parseAllBody g out t rest := by
  unfold parseAllBody
  split_ifs with h1 h2 h3 h4
  · rfl
  · cases rest with
    | nil => rfl
    | cons id rest1 =>
      simp only
      split_ifs
      · rfl
      · refine Res.bind_congr (fun rest2 h5 => Res.bind_congr (fun r h6 =>
          Res.bind_congr (fun rest3 h7 => h _ _ ?_)))
        have := Parser.expect_length h5
        have := Parser.parseExpr_length h6
        have := Parser.expect_length h7
        simp only [List.length_cons]; omega
  · refine Res.bind_congr (fun r h6 => Res.bind_congr (fun rest3 h7 => h _ _ ?_))
    have := Parser.parseExpr_length h6
    have := Parser.expect_length h7
    omega
  · exact h _ _ (Nat.le_refl _)
  · rfl

theorem parseAllF_adequate (n : Nat) :
    ∀ out toks, toks.length + 1 ≤ n → parseAllF n out toks ≠ .fuel := by
  induction n with
  | zero => intro out toks h; omega
  | succ n ih =>
    intro out toks hn
    cases toks with
    | nil => simp [parseAllF]
    | cons t rest =>
      simp only [List.length_cons] at hn
      rw [parseAllF_succ]
      unfold parseAllBody
      split_ifs with h1 h2 h3 h4
      · simp
      · cases rest with
        | nil => simp
        | cons id rest1 =>
          simp only
          split_ifs
          · simp
          · refine Res.bind_ne_fuel (Parser.expect_ne_fuel _ _) (fun rest2 h5 =>
              Res.bind_ne_fuel (Parser.parseExpr_ne_fuel _) (fun r h6 =>
              Res.bind_ne_fuel (Parser.expect_ne_fuel _ _) (fun rest3 h7 => ih _ _ ?_)))
            have := Parser.expect_length h5
            have := Parser.parseExpr_length h6
            have := Parser.expect_length h7
            simp only [List.length_cons] at hn
            omega
      · refine Res.bind_ne_fuel (Parser.parseExpr_ne_fuel _) (fun r h6 =>
          Res.bind_ne_fuel (Parser.expect_ne_fuel _ _) (fun rest3 h7 => ih _ _ ?_))
        have := Parser.parseExpr_length h6
        have := Parser.expect_length h7
        omega
      · exact ih _ _ (by omega)
      · simp

/-- Any two sufficient budgets give the loop of `parseAll` the same
outcome. -/
theorem parseAllF_canon (n : Nat) :
    ∀ m out toks, toks.length + 1 ≤ n → toks.length + 1 ≤ m →
      parseAllF n out toks = parseAllF m out toks := by
  induction n with
  | zero => intro m out toks h; omega
  | succ n ih =>
    intro m out toks hn hm
    cases m with
    | zero => omega
    | succ m =>
      cases toks with
      | nil => simp [parseAllF]
      | cons t rest =>
        simp only [List.length_cons] at hn hm
        rw [parseAllF_succ, parseAllF_succ]
        exact parseAllBody_congr out t rest (fun out2 toks2 h2 =>
          ih m out2 toks2 (by omega) (by omega))

theorem Parser.parseAllLoop_nil (out : List Stmt) :
    Parser.parseAllLoop out [] = .fail .outOfBounds := by
  simp [Parser.parseAllLoop, parseAllF]

/-- The loop of `parseAll` satisfies the equation of the source. -/
theorem Parser.parseAllLoop_cons (out : List Stmt) (t : Token) (rest : List Token) :
    Parser.parseAllLoop out (t :: rest) = parseAllBody Parser.parseAllLoop out t rest := by
  rw [Parser.parseAllLoop, List.length_cons, parseAllF_succ]
  exact parseAllBody_congr out t rest (fun out2 toks2 h2 =>
    parseAllF_canon _ _ out2 toks2 (by omega) (Nat.le_refl _))

theorem Parser.parseAll_eq (toks : List Token) :
    Parser.parseAll toks = Parser.parseAllLoop [] toks := rfl

theorem Parser.parseAllLoop_ne_fuel (out : List Stmt) (toks : List Token) :
    Parser.parseAllLoop out toks ≠ .fuel :=
  parseAllF_adequate _ out toks (Nat.le_refl _)

/-! ## Facts about the lexer -/

theorem Lexer.skip_ws_length (l : List Char) : (Lexer.skip_ws l).length ≤ l.length := by
  induction l with
  | nil => simp [Lexer.skip_ws]
  | cons c r ih =>
    simp only [Lexer.skip_ws]
    split_ifs
    · simp only [List.length_cons]; omega
    · exact Nat.le_refl _

theorem Lexer.scan_length (p : Char → Bool) (l : List Char) :
    (Lexer.scan p l).1.length + (Lexer.scan p l).2.length = l.length := by
  induction l with
  | nil => simp [Lexer.scan]
  | cons c r ih =>
    simp only [Lexer.scan]
    split_ifs
    · simp only [List.length_cons]; omega
    · simp

theorem Lexer.scan_head (p : Char → Bool) (c : Char) (r : List Char) (h : p c = true) :
    (Lexer.scan p (c :: r)).2.length < (c :: r).length := by
  have := Lexer.scan_length p r
  simp only [Lexer.scan, h, if_true, List.length_cons]
  omega

theorem Lexer.punct_kind (c : Char) : (Lexer.punct c).kind ≠ .TK_EOF := by
  unfold Lexer.punct
  split_ifs <;> simp

/-- `Lexer::next` returns `TK_EOF` only as the token with the empty text. -/
theorem Lexer.next_eof (l : List Char) (h : (Lexer.next l).1.kind = .TK_EOF) :
    (Lexer.next l).1 = ⟨.TK_EOF, []⟩ := by
  revert h
  simp only [Lexer.next]
  split_ifs <;> simp [Lexer.punct_kind]

/-- A call of `Lexer::next` that does not return `TK_EOF` moves the cursor. -/
theorem Lexer.next_length (l : List Char) (h : (Lexer.next l).1.kind ≠ .TK_EOF) :
    (Lexer.next l).2.length < l.length := by
  have hws := Lexer.skip_ws_length l
  revert h
  simp only [Lexer.next]
  cases hs : Lexer.skip_ws l with
  | nil => simp [Lexer.peek]
  | cons c r =>
    rw [hs] at hws
    have h1 := fun (h : isIdentChar c = true) => Lexer.scan_head isIdentChar c r h
    have h2 := fun (h : isdigit c = true) => Lexer.scan_head isdigit c r h
    simp only [Lexer.peek, Lexer.get]
    simp only [List.length_cons] at hws h1 h2 ⊢
    split_ifs with a b c1 d e
    · simp
    · intro _
      have := h1 (by
        simp only [isIdentChar, isalnum, Bool.or_eq_true] at b ⊢
        rcases b with b | b
        · exact Or.inl (Or.inl b)
        · exact Or.inr b)
      dsimp only
      omega
    · intro _
      have := h1 (by
        simp only [isIdentChar, isalnum, Bool.or_eq_true] at b ⊢
        rcases b with b | b
        · exact Or.inl (Or.inl b)
        · exact Or.inr b)
      dsimp only
      omega
    · intro _
      have := h1 (by
        simp only [isIdentChar, isalnum, Bool.or_eq_true] at b ⊢
        rcases b with b | b
        · exact Or.inl (Or.inl b)
        · exact Or.inr b)
      dsimp only
      omega
    · intro _
      have := h2 e
      dsimp only
      omega
    · intro _
      dsimp only
      omega

/-- The constructor loop reaches `TK_EOF` within `l.length + 1` iterations,
and the tokens before it are not `TK_EOF`. -/
theorem Parser.lexLoop_total (n : Nat) :
    ∀ l : List Char, l.length < n →
      ∃ body, Parser.lexLoop n l = some (body ++ [⟨.TK_EOF, []⟩]) ∧
        ∀ t ∈ body, t.kind ≠ .TK_EOF := by
  induction n with
  | zero => intro l h; omega
  | succ n ih =>
    intro l hl
    simp only [Parser.lexLoop]
    split_ifs with h
    · exact ⟨[], by simp [Lexer.next_eof l h], by simp⟩
    · have := Lexer.next_length l h
      obtain ⟨body, hb, hne⟩ := ih (Lexer.next l).2 (by omega)
      refine ⟨(Lexer.next l).1 :: body, by simp [hb], ?_⟩
      intro t ht
      rcases List.mem_cons.mp ht with rfl | ht
      · exact h
      · exact hne t ht

theorem run_append (a b : List Instr) (m : Machine) :
    run (a ++ b) m = (run a m).bind (run b) := by
  induction a generalizing m with
  | nil => simp [run]
  | cons i a ih =>
    simp only [List.cons_append, run]
    cases m.step i with
    | none => simp
    | some m1 => exact ih m1

theorem exec_append (a b : List Instr) (m : Machine) (h : ∀ i ∈ a, i.notRet) :
    exec (a ++ b) m = (run a m).bind (exec b) := by
  induction a generalizing m with
  | nil => simp [run]
  | cons i a ih =>
    have hi : i.notRet := h i (List.mem_cons_self _ _)
    have ha : ∀ j ∈ a, j.notRet := fun j hj => h j (List.mem_cons_of_mem _ hj)
    cases i with
    | ret v => exact absurd hi (by simp [Instr.notRet])
    | alloca id nm =>
      simp only [List.cons_append, exec, run]
      cases m.step (.alloca id nm) with
      | none => simp
      | some m1 => exact ih m1 ha
    | load id s nm =>
      simp only [List.cons_append, exec, run]
      cases m.step (.load id s nm) with
      | none => simp
      | some m1 => exact ih m1 ha
    | store v s =>
      simp only [List.cons_append, exec, run]
      cases m.step (.store v s) with
      | none => simp
      | some m1 => exact ih m1 ha
    | binop id op l r =>
      simp only [List.cons_append, exec, run]
      cases m.step (.binop id op l r) with
      | none => simp
      | some m1 => exact ih m1 ha
    | call id f args =>
      simp only [List.cons_append, exec, run]
      cases m.step (.call id f args) with
      | none => simp
      | some m1 => exact ih m1 ha

theorem Machine.eval_congr {m m1 : Machine} {v : Val} {n : Nat}
    (hv : ∀ id, v = .inst id → id < n) (h : ∀ id, id < n → m1.regs id = m.regs id) :
    m1.eval v = m.eval v := by
  cases v with
  | inst id => exact h id (hv id rfl)
  | const k => rfl
  | poison => rfl
  | globalStr s => rfl

/-- What `CreateBinOp` adds to the block computes the operation. -/
theorem LLVMCompiler.CreateBinOp_sim (c : LLVMCompiler) (op : BinOp) (l r : Val) :
    ∃ new, (c.CreateBinOp op l r).2.entry = c.entry ++ new ∧
      (c.CreateBinOp op l r).2.namedValues = c.namedValues ∧
      c.nextId ≤ (c.CreateBinOp op l r).2.nextId ∧
      (∀ i ∈ new, i.notRet) ∧
      (∀ id, (c.CreateBinOp op l r).1 = .inst id → id < (c.CreateBinOp op l r).2.nextId) ∧
      ∀ (m : Machine) (a b x : Int), m.eval l = some a → m.eval r = some b →
        op.eval a b = some x →
        ∃ m1, run new m = some m1 ∧ m1.mem = m.mem ∧ m1.out = m.out ∧
          (∀ id, id < c.nextId → m1.regs id = m.regs id) ∧
          m1.eval (c.CreateBinOp op l r).1 = some x := by
  unfold LLVMCompiler.CreateBinOp
  cases hf : ConstantFolder.FoldBinOp op l r with
  | some v =>
    refine ⟨[], by simp, rfl, Nat.le_refl _, by simp, ?_, ?_⟩
    · intro id hid
      simp only at hid
      subst hid
      cases l <;> cases r <;> simp [ConstantFolder.FoldBinOp] at hf
      split at hf <;> simp at hf
    · intro m a b x ha hb hx
      refine ⟨m, rfl, rfl, rfl, fun _ _ => rfl, ?_⟩
      cases l <;> cases r <;> simp [ConstantFolder.FoldBinOp, Machine.eval] at hf ha hb
      subst ha hb
      rw [hx] at hf
      simp only [Option.some.injEq] at hf
      subst hf
      rfl
  | none =>
    refine ⟨[.binop c.nextId op l r], rfl, rfl, Nat.le_succ _, ?_, ?_, ?_⟩
    · intro i hi
      rw [List.mem_singleton.mp hi]
      trivial
    · intro id hid
      simp only [Val.inst.injEq] at hid
      subst hid
      exact Nat.lt_succ_self _
    · intro m a b x ha hb hx
      refine ⟨{ m with regs := Function.update m.regs c.nextId (some x) }, ?_, rfl, rfl, ?_, ?_⟩
      · simp [run, Machine.step, ha, hb, hx]
      · intro id hid
        simp [Function.update, Nat.ne_of_lt hid]
      · simp [Machine.eval]

/-- What `compileExpr` adds to the block computes the value of the
expression, and touches neither the slots nor the output nor an earlier
result. -/
theorem LLVMCompiler.compileExpr_sim (e : Expr) :
    ∀ (c c1 : LLVMCompiler) (v : Val), c.compileExpr e = .ok (v, c1) →
    ∃ new, c1.entry = c.entry ++ new ∧ c1.namedValues = c.namedValues ∧
      c.nextId ≤ c1.nextId ∧ (∀ i ∈ new, i.notRet) ∧
      (∀ id, v = .inst id → id < c1.nextId) ∧
      ∀ (env : List (List Char × Int)) (m : Machine) (a : Int),
        evalExpr env e = some a → MemAgree c.namedValues env m →
        ∃ m1, run new m = some m1 ∧ m1.mem = m.mem ∧ m1.out = m.out ∧
          (∀ id, id < c.nextId → m1.regs id = m.regs id) ∧ m1.eval v = some a := by
  induction e with
  | NumberExpr value =>
    intro c c1 v h
    simp only [LLVMCompiler.compileExpr, Except.ok.injEq, Prod.mk.injEq] at h
    obtain ⟨rfl, rfl⟩ := h
    refine ⟨[], by simp, rfl, Nat.le_refl _, by simp, by simp, ?_⟩
    intro env m a ha _
    simp only [evalExpr, Option.some.injEq] at ha
    subst ha
    exact ⟨m, rfl, rfl, rfl, fun _ _ => rfl, rfl⟩
  | VarExpr name =>
    intro c c1 v h
    simp only [LLVMCompiler.compileExpr] at h
    cases hf : c.find name with
    | none => rw [hf] at h; simp at h
    | some slot =>
      rw [hf] at h
      simp only [LLVMCompiler.CreateLoad, Except.ok.injEq, Prod.mk.injEq] at h
      obtain ⟨rfl, rfl⟩ := h
      refine ⟨[.load c.nextId slot name], rfl, rfl, Nat.le_succ _, ?_, ?_, ?_⟩
      · intro i hi
        rw [List.mem_singleton.mp hi]
        trivial
      · intro id hid
        simp only [Val.inst.injEq] at hid
        subst hid
        exact Nat.lt_succ_self _
      · intro env m a ha hagree
        simp only [evalExpr] at ha
        obtain ⟨slot1, hs1, hm⟩ := hagree name a ha
        have : slot1 = slot := by
          simp only [LLVMCompiler.find] at hf
          rw [hs1] at hf
          exact Option.some.inj hf
        subst this
        refine ⟨{ m with regs := Function.update m.regs c.nextId (some a) }, ?_, rfl, rfl, ?_, ?_⟩
        · simp [run, Machine.step, hm]
        · intro id hid
          simp [Function.update, Nat.ne_of_lt hid]
        · simp [Machine.eval]
  | BinaryExpr op lhs rhs ihl ihr =>
    intro c c3 v h
    simp only [LLVMCompiler.compileExpr] at h
    cases hl : c.compileExpr lhs with
    | error err => rw [hl] at h; simp at h
    | ok p1 =>
      obtain ⟨l, c1⟩ := p1
      rw [hl] at h
      simp only at h
      cases hr : c1.compileExpr rhs with
      | error err => rw [hr] at h; simp at h
      | ok p2 =>
        obtain ⟨r, c2⟩ := p2
        rw [hr] at h
        simp only at h
        obtain ⟨n1, he1, hnv1, hid1, hnr1, hv1, hs1⟩ := ihl c c1 l hl
        obtain ⟨n2, he2, hnv2, hid2, hnr2, hv2, hs2⟩ := ihr c1 c2 r hr
        have key : ∀ bop : BinOp, (∀ a b, evalBinary op a b = bop.eval a b) →
            (v, c3) = c2.CreateBinOp bop l r →
            ∃ new, c3.entry = c.entry ++ new ∧ c3.namedValues = c.namedValues ∧
              c.nextId ≤ c3.nextId ∧ (∀ i ∈ new, i.notRet) ∧
              (∀ id, v = .inst id → id < c3.nextId) ∧
              ∀ (env : List (List Char × Int)) (m : Machine) (a : Int),
                evalExpr env (.BinaryExpr op lhs rhs) = some a →
                MemAgree c.namedValues env m →
                ∃ m1, run new m = some m1 ∧ m1.mem = m.mem ∧ m1.out = m.out ∧
                  (∀ id, id < c.nextId → m1.regs id = m.regs id) ∧ m1.eval v = some a := by
          intro bop hop hc
          obtain ⟨n3, he3, hnv3, hid3, hnr3, hv3, hs3⟩ := c2.CreateBinOp_sim bop l r
          rw [← hc] at he3 hnv3 hid3 hv3 hs3
          simp only at he3 hnv3 hid3 hv3 hs3
          refine ⟨n1 ++ (n2 ++ n3), ?_, ?_, ?_, ?_, hv3, ?_⟩
          · rw [he3, he2, he1]; simp
          · rw [hnv3, hnv2, hnv1]
          · omega
          · intro i hi
            rcases List.mem_append.mp hi with hi | hi
            · exact hnr1 i hi
            · rcases List.mem_append.mp hi with hi | hi
              · exact hnr2 i hi
              · exact hnr3 i hi
          · intro env m x hx hagree
            simp only [evalExpr] at hx
            cases hea : evalExpr env lhs with
            | none => rw [hea] at hx; simp at hx
            | some a =>
              cases heb : evalExpr env rhs with
              | none => rw [hea, heb] at hx; simp at hx
              | some b =>
                rw [hea, heb] at hx
                simp only at hx
                rw [hop] at hx
                obtain ⟨m1, hr1, hm1, ho1, hg1, hval1⟩ := hs1 env m a hea hagree
                have hagree1 : MemAgree c1.namedValues env m1 := by
                  rw [hnv1]
                  intro y b1 hy
                  obtain ⟨s, hs, hm⟩ := hagree y b1 hy
                  exact ⟨s, hs, by rw [hm1]; exact hm⟩
                obtain ⟨m2, hr2, hm2, ho2, hg2, hval2⟩ := hs2 env m1 b heb hagree1
                have hvl : m2.eval l = some a := by
                  rw [Machine.eval_congr hv1 hg2]; exact hval1
                obtain ⟨m3, hr3, hm3, ho3, hg3, hval3⟩ := hs3 m2 a b x hvl hval2 hx
                refine ⟨m3, ?_, ?_, ?_, ?_, hval3⟩
                · rw [run_append, hr1, Option.some_bind, run_append, hr2, Option.some_bind]
                  exact hr3
                · rw [hm3, hm2, hm1]
                · rw [ho3, ho2, ho1]
                · intro id hid
                  rw [hg3 id (by omega), hg2 id (by omega), hg1 id hid]
        split_ifs at h with h1 h2 h3 h4
        · exact key .add (fun a b => by simp [evalBinary, h1]) (Except.ok.inj h).symm
        · exact key .sub (fun a b => by simp [evalBinary, h1, h2]) (Except.ok.inj h).symm
        · exact key .mul (fun a b => by simp [evalBinary, h1, h2, h3]) (Except.ok.inj h).symm
        · exact key .sdiv (fun a b => by simp [evalBinary, h1, h2, h3, h4]) (Except.ok.inj h).symm

theorem slots_append (a b : List Instr) : slots (a ++ b) = slots a ++ slots b := by
  induction a with
  | nil => rfl
  | cons i a ih => cases i <;> simp [slots, ih]

theorem lookup_filter_ne {β : Type} (nv : List (List Char × β)) (x y : List Char) (h : y ≠ x) :
    (nv.filter (fun p => p.1 != x)).lookup y = nv.lookup y := by
  induction nv with
  | nil => rfl
  | cons p nv ih =>
    obtain ⟨k, s⟩ := p
    by_cases hk : k = x
    · subst hk
      have : (y == k) = false := by simpa using h
      simp [List.filter, List.lookup, this, ih]
    · have hk2 : (k != x) = true := by simpa using hk
      simp only [List.filter, hk2, List.lookup]
      cases (y == k) <;> simp [ih]

theorem LLVMCompiler.lookup_assign (c : LLVMCompiler) (x y : List Char) (s : Nat) :
    (c.assign x s).namedValues.lookup y = if y = x then some s else c.namedValues.lookup y := by
  simp only [LLVMCompiler.assign]
  by_cases h : y = x
  · subst h; simp [List.lookup]
  · have : (y == x) = false := by simpa using h
    simp [List.lookup, this, h, lookup_filter_ne _ _ _ h]

theorem run_mem_mono (l : List Instr) :
    ∀ m m1 : Machine, run l m = some m1 → ∀ s, (m.mem s).isSome → (m1.mem s).isSome := by
  induction l with
  | nil =>
    intro m m1 h s hs
    simp only [run, Option.some.injEq] at h
    subst h
    exact hs
  | cons i l ih =>
    intro m m1 h s hs
    simp only [run] at h
    cases hstep : m.step i with
    | none => rw [hstep] at h; simp at h
    | some m2 =>
      rw [hstep] at h
      refine ih m2 m1 h s ?_
      cases i with
      | alloca id nm =>
        simp only [Machine.step, Option.some.injEq] at hstep
        subst hstep
        by_cases e : s = id
        · simp [Function.update, e]
        · simpa [Function.update, e] using hs
      | load id sl nm =>
        simp only [Machine.step] at hstep
        split at hstep
        · simp only [Option.some.injEq] at hstep
          subst hstep
          exact hs
        · simp at hstep
      | store v sl =>
        simp only [Machine.step] at hstep
        split at hstep
        · simp only [Option.some.injEq] at hstep
          subst hstep
          by_cases e : s = sl
          · simp [Function.update, e]
          · simpa [Function.update, e] using hs
        · simp at hstep
      | binop id op l r =>
        simp only [Machine.step] at hstep
        split at hstep
        · split at hstep
          · simp only [Option.some.injEq] at hstep
            subst hstep
            exact hs
          · simp at hstep
        · simp at hstep
      | call id f args =>
        simp only [Machine.step] at hstep
        split at hstep
        · split_ifs at hstep
          split at hstep
          · simp only [Option.some.injEq] at hstep
            subst hstep
            exact hs
          · simp at hstep
        · simp at hstep
      | ret v => simp [Machine.step] at hstep

/-- What `compileStmt` adds to the block has the effect of the statement. -/
theorem LLVMCompiler.compileStmt_sim (c c1 : LLVMCompiler) (s : Stmt)
    (h : c.compileStmt s = .ok c1) (A B : List Instr) (hwf : WF c A B) :
    ∃ A1 B1, WF c1 (A1 ++ A) (B ++ B1) ∧
      ∀ (env env1 : List (List Char × Int)) (o : List Int) (m : Machine),
        evalStmt env s = some (env1, o) → MemAgree c.namedValues env m →
        (∀ k ∈ slots (A1 ++ A), (m.mem k).isSome) →
        ∃ m1, run B1 m = some m1 ∧ MemAgree c1.namedValues env1 m1 ∧ m1.out = m.out ++ o := by
  cases s with
  | LetStmt name rhs =>
    simp only [LLVMCompiler.compileStmt] at h
    cases hc : c.compileExpr rhs with
    | error err => rw [hc] at h; simp at h
    | ok p =>
      obtain ⟨val, c2⟩ := p
      rw [hc] at h
      simp only [Except.ok.injEq] at h
      obtain ⟨new, he, hnv, hid, hnr, hv, hs⟩ := LLVMCompiler.compileExpr_sim rhs c c2 val hc
      refine ⟨[.alloca c2.nextId name], new ++ [.store val c2.nextId], ?_, ?_⟩
      · subst h
        refine ⟨?_, ?_, ?_, ?_⟩
        · simp [LLVMCompiler.assign, LLVMCompiler.CreateStore,
            LLVMCompiler.createEntryBlockAlloca, he, hwf.entry]
        · intro i hi
          rcases List.mem_append.mp hi with hi | hi
          · exact ⟨_, _, List.mem_singleton.mp hi⟩
          · exact hwf.allocas i hi
        · intro i hi
          rcases List.mem_append.mp hi with hi | hi
          · exact hwf.body i hi
          · rcases List.mem_append.mp hi with hi | hi
            · exact hnr i hi
            · rw [List.mem_singleton.mp hi]; trivial
        · intro x slot hx
          rw [LLVMCompiler.lookup_assign] at hx
          simp only [LLVMCompiler.CreateStore, LLVMCompiler.createEntryBlockAlloca] at hx ⊢
          simp only [LLVMCompiler.assign, List.singleton_append, slots, List.mem_cons]
          split_ifs at hx with hxn
          · simp only [Option.some.injEq] at hx
            subst hx
            exact ⟨Or.inl rfl, Nat.lt_succ_self _⟩
          · rw [hnv] at hx
            obtain ⟨h1, h2⟩ := hwf.bound x slot hx
            exact ⟨Or.inr h1, by omega⟩
      · intro env env1 o m hev hagree halloc
        simp only [evalStmt] at hev
        cases hea : evalExpr env rhs with
        | none => rw [hea] at hev; simp at hev
        | some a =>
          rw [hea] at hev
          simp only [Option.some.injEq, Prod.mk.injEq] at hev
          obtain ⟨rfl, rfl⟩ := hev
          obtain ⟨m1, hr1, hm1, ho1, hg1, hval1⟩ := hs env m a hea hagree
          have hsl : (m1.mem c2.nextId).isSome := by
            rw [hm1]
            exact halloc _ (by simp [slots])
          obtain ⟨old, hold⟩ := Option.isSome_iff_exists.mp hsl
          refine ⟨{ m1 with mem := Function.update m1.mem c2.nextId (some (some a)) }, ?_, ?_, ?_⟩
          · rw [run_append, hr1, Option.some_bind]
            simp [run, Machine.step, hval1, hold]
          · subst h
            intro y b hy
            rw [LLVMCompiler.lookup_assign]
            simp only [LLVMCompiler.CreateStore, LLVMCompiler.createEntryBlockAlloca]
            by_cases hyn : y = name
            · subst hyn
              simp only [List.lookup, beq_self_eq_true, Option.some.injEq] at hy
              subst hy
              exact ⟨c2.nextId, by simp, by simp [Function.update]⟩
            · have hyb : (y == name) = false := by simpa using hyn
              simp only [List.lookup, hyb] at hy
              obtain ⟨sl, hsl1, hsl2⟩ := hagree y b hy
              have hlt := (hwf.bound y sl hsl1).2
              refine ⟨sl, by simp [hyn, hnv, hsl1], ?_⟩
              have hne : sl ≠ c2.nextId := by omega
              simp [Function.update, hne, hm1, hsl2]
          · simp [ho1]
  | PrintStmt expr =>
    simp only [LLVMCompiler.compileStmt] at h
    cases hc : c.compileExpr expr with
    | error err => rw [hc] at h; simp at h
    | ok p =>
      obtain ⟨val, c2⟩ := p
      rw [hc] at h
      simp only [Except.ok.injEq] at h
      obtain ⟨new, he, hnv, hid, hnr, hv, hs⟩ := LLVMCompiler.compileExpr_sim expr c c2 val hc
      refine ⟨[], new ++ [.call c2.nextId "printf".toList [.globalStr "%d\n".toList, val]],
        ?_, ?_⟩
      · subst h
        refine ⟨?_, ?_, ?_, ?_⟩
        · simp [LLVMCompiler.CreateCall, he, hwf.entry]
        · simpa using hwf.allocas
        · intro i hi
          rcases List.mem_append.mp hi with hi | hi
          · exact hwf.body i hi
          · rcases List.mem_append.mp hi with hi | hi
            · exact hnr i hi
            · rw [List.mem_singleton.mp hi]; trivial
        · intro x slot hx
          simp only [LLVMCompiler.CreateCall] at hx ⊢
          rw [hnv] at hx
          obtain ⟨h1, h2⟩ := hwf.bound x slot hx
          exact ⟨by simpa using h1, by omega⟩
      · intro env env1 o m hev hagree halloc
        simp only [evalStmt] at hev
        cases hea : evalExpr env expr with
        | none => rw [hea] at hev; simp at hev
        | some a =>
          rw [hea] at hev
          simp only [Option.some.injEq, Prod.mk.injEq] at hev
          obtain ⟨rfl, rfl⟩ := hev
          obtain ⟨m1, hr1, hm1, ho1, hg1, hval1⟩ := hs env m a hea hagree
          refine ⟨{ m1 with out := m1.out ++ [a] }, ?_, ?_, ?_⟩
          · rw [run_append, hr1, Option.some_bind]
            simp [run, Machine.step, hval1]
          · subst h
            intro y b hy
            obtain ⟨sl, hsl1, hsl2⟩ := hagree y b hy
            exact ⟨sl, by simpa [LLVMCompiler.CreateCall, hnv] using hsl1, by simpa [hm1] using hsl2⟩
          · simp [ho1]

/-- What the statement loop adds to the block prints what the statements
print. -/
theorem LLVMCompiler.compileStmts_sim (stmts : List Stmt) :
    ∀ (c c1 : LLVMCompiler), c.compileStmts stmts = .ok c1 → ∀ (A B : List Instr), WF c A B →
    ∃ A1 B1, WF c1 (A1 ++ A) (B ++ B1) ∧
      ∀ (env : List (List Char × Int)) (o : List Int) (m : Machine),
        evalStmts env stmts = some o → MemAgree c.namedValues env m →
        (∀ k ∈ slots (A1 ++ A), (m.mem k).isSome) →
        ∃ m1, run B1 m = some m1 ∧ m1.out = m.out ++ o := by
  induction stmts with
  | nil =>
    intro c c1 h A B hwf
    simp only [LLVMCompiler.compileStmts, Except.ok.injEq] at h
    subst h
    refine ⟨[], [], by simpa using hwf, ?_⟩
    intro env o m ho _ _
    simp only [evalStmts, Option.some.injEq] at ho
    subst ho
    exact ⟨m, rfl, by simp⟩
  | cons s rest ih =>
    intro c c2 h A B hwf
    simp only [LLVMCompiler.compileStmts] at h
    cases hs : c.compileStmt s with
    | error err => rw [hs] at h; simp at h
    | ok c1 =>
      rw [hs] at h
      simp only at h
      obtain ⟨A1, B1, hwf1, hsim1⟩ := c.compileStmt_sim c1 s hs A B hwf
      obtain ⟨A2, B2, hwf2, hsim2⟩ := ih c1 c2 h (A1 ++ A) (B ++ B1) hwf1
      refine ⟨A2 ++ A1, B1 ++ B2, by simpa [List.append_assoc] using hwf2, ?_⟩
      intro env o m ho hagree halloc
      simp only [evalStmts] at ho
      cases he : evalStmt env s with
      | none => rw [he] at ho; simp at ho
      | some r =>
        obtain ⟨env1, o1⟩ := r
        rw [he] at ho
        simp only at ho
        cases he2 : evalStmts env1 rest with
        | none => rw [he2] at ho; simp at ho
        | some o2 =>
          rw [he2] at ho
          simp only [Option.some.injEq] at ho
          subst ho
          obtain ⟨m1, hr1, hag1, ho1⟩ := hsim1 env env1 o1 m he hagree (by
            intro k hk
            apply halloc
            rw [List.append_assoc, slots_append]
            exact List.mem_append_right _ hk)
          obtain ⟨m2, hr2, ho2⟩ := hsim2 env1 o2 m1 he2 hag1 (by
            intro k hk
            exact run_mem_mono B1 m m1 hr1 k (halloc k (by
              rw [List.append_assoc]; exact hk)))
          refine ⟨m2, ?_, ?_⟩
          · rw [run_append, hr1, Option.some_bind]; exact hr2
          · rw [ho2, ho1, List.append_assoc]

/-- The `alloca`s at the head of the block allocate their slots. -/
theorem run_allocas (A : List Instr) (hA : ∀ i ∈ A, ∃ id nm, i = Instr.alloca id nm) :
    ∀ m : Machine, ∃ m1, run A m = some m1 ∧ m1.out = m.out ∧
      ∀ k ∈ slots A, (m1.mem k).isSome := by
  induction A with
  | nil => intro m; exact ⟨m, rfl, rfl, by simp [slots]⟩
  | cons i A ih =>
    intro m
    obtain ⟨id, nm, rfl⟩ := hA i (List.mem_cons_self _ _)
    obtain ⟨m1, hr, ho, hm⟩ := ih (fun j hj => hA j (List.mem_cons_of_mem _ hj))
      { m with mem := Function.update m.mem id (some none) }
    refine ⟨m1, by simpa [run, Machine.step] using hr, ho, ?_⟩
    intro k hk
    simp only [slots, List.mem_cons] at hk
    rcases hk with rfl | hk
    · exact run_mem_mono A _ m1 hr k (by simp [Function.update])
    · exact hm k hk

/-- Executing the block emitted for `stmts` prints what evaluating `stmts`
prints, and returns 0. -/
theorem LLVMCompiler.compile_sim (stmts : List Stmt) (c : LLVMCompiler) (outs : List Int)
    (hc : LLVMCompiler.compile stmts = .ok c) (he : evalStmts [] stmts = some outs) :
    exec c.entry Machine.init = some (outs, 0) := by
  simp only [LLVMCompiler.compile] at hc
  cases hs : LLVMCompiler.init.compileStmts stmts with
  | error err => rw [hs] at hc; simp at hc
  | ok c1 =>
    rw [hs] at hc
    simp only [Except.ok.injEq] at hc
    subst hc
    have hwf0 : WF LLVMCompiler.init [] [] :=
      ⟨rfl, by simp, by simp, by simp [LLVMCompiler.init]⟩
    obtain ⟨A, B, hwf, hsim⟩ := LLVMCompiler.compileStmts_sim stmts _ c1 hs [] [] hwf0
    simp only [List.append_nil, List.nil_append] at hwf hsim
    obtain ⟨m0, hr0, ho0, hm0⟩ := run_allocas A hwf.allocas Machine.init
    obtain ⟨m1, hr1, ho1⟩ := hsim [] outs m0 he (by
      intro x a hx
      simp at hx) hm0
    simp only [LLVMCompiler.CreateRet, hwf.entry, List.append_assoc]
    rw [exec_append _ _ _ (by
      intro i hi
      obtain ⟨id, nm, rfl⟩ := hwf.allocas i hi
      trivial), hr0, Option.some_bind, exec_append _ _ _ hwf.body, hr1, Option.some_bind]
    simp [exec, Machine.eval, ho1, ho0, Machine.init]

/-- The first token of `w ++ t :: rest` is not `*` or `/` when `w` is the
input of an expression loop and `t` is not `*` or `/`. -/
theorem Parses.exprLoop_head {node : Expr} {w : List Token} {e : Expr}
    (h : Parses (.exprLoop node) w e) (t : Token) (rest : List Token)
    (ht : t.kind.isMulOp = false) :
    ∃ t1 rest1, w ++ t :: rest = t1 :: rest1 ∧ t1.kind.isMulOp = false := by
  cases h with
  | exprStop => exact ⟨t, rest, rfl, ht⟩
  | exprPlus _ t1 w1 w2 f _ hk _ _ =>
    exact ⟨t1, w1 ++ w2 ++ t :: rest, by simp, by simp [TokenKind.isMulOp, hk]⟩
  | exprMinus _ t1 w1 w2 f _ hk _ _ =>
    exact ⟨t1, w1 ++ w2 ++ t :: rest, by simp, by simp [TokenKind.isMulOp, hk]⟩

/-- Completeness: what the relation derives, the functions compute. -/
theorem Parses.runs {mode : Mode} {w : List Token} {e : Expr} (h : Parses mode w e) :
    Runs mode w e := by
  induction h with
  | number t v hk hv =>
    intro rest
    simp [Parser.parseFactor_cons, hk, hv]
  | ident t hk =>
    intro rest
    simp [Parser.parseFactor_cons, hk]
  | paren l r w e hl _ hr ih =>
    intro rest
    have := ih r rest (by simp [TokenKind.isMulOp, hr]) (by simp [TokenKind.isAddOp, hr])
    simp only [List.cons_append, List.append_assoc, List.singleton_append]
    rw [Parser.parseFactor_cons]
    simp [hl, this, Parser.expect, hr]
  | termStop node =>
    intro t rest ht
    simp only [TokenKind.isMulOp, Bool.or_eq_false_iff, decide_eq_false_iff_not] at ht
    simp [Parser.parseTermLoop_cons, ht.1, ht.2]
  | termMul node t w1 w2 f e hk _ _ ih1 ih2 =>
    intro t2 rest ht
    simp only [List.cons_append, List.append_assoc]
    rw [Parser.parseTermLoop_cons]
    simp only [hk, if_true]
    rw [ih1 (w2 ++ t2 :: rest)]
    exact ih2 t2 rest ht
  | termDiv node t w1 w2 f e hk _ _ ih1 ih2 =>
    intro t2 rest ht
    simp only [List.cons_append, List.append_assoc]
    have hk2 : t.kind ≠ .TK_MUL := by rw [hk]; decide
    rw [Parser.parseTermLoop_cons, if_neg hk2, if_pos hk, ih1 (w2 ++ t2 :: rest)]
    exact ih2 t2 rest ht
  | term w1 w2 f e _ _ ih1 ih2 =>
    intro t rest ht
    rw [Parser.parseTerm_unfold, List.append_assoc, ih1 (w2 ++ t :: rest)]
    exact ih2 t rest ht
  | exprStop node =>
    intro t rest _ ht
    simp only [TokenKind.isAddOp, Bool.or_eq_false_iff, decide_eq_false_iff_not] at ht
    simp [Parser.parseExprLoop_cons, ht.1, ht.2]
  | exprPlus node t w1 w2 f e hk _ h2 ih1 ih2 =>
    intro t2 rest hm ha
    obtain ⟨t3, rest3, heq, hm3⟩ := h2.exprLoop_head t2 rest hm
    simp only [List.cons_append, List.append_assoc]
    rw [Parser.parseExprLoop_cons]
    simp only [hk, if_true]
    rw [heq, ih1 t3 rest3 hm3, ← heq]
    exact ih2 t2 rest hm ha
  | exprMinus node t w1 w2 f e hk _ h2 ih1 ih2 =>
    intro t2 rest hm ha
    obtain ⟨t3, rest3, heq, hm3⟩ := h2.exprLoop_head t2 rest hm
    simp only [List.cons_append, List.append_assoc]
    have hk2 : t.kind ≠ .TK_PLUS := by rw [hk]; decide
    rw [Parser.parseExprLoop_cons, if_neg hk2, if_pos hk, heq, ih1 t3 rest3 hm3, ← heq]
    exact ih2 t2 rest hm ha
  | expr w1 w2 f e _ h2 ih1 ih2 =>
    intro t rest hm ha
    obtain ⟨t3, rest3, heq, hm3⟩ := h2.exprLoop_head t rest hm
    rw [Parser.parseExpr_unfold, List.append_assoc, heq, ih1 t3 rest3 hm3, ← heq]
    exact ih2 t rest hm ha

/-- Soundness: every result of the functions is derived by the relation, on
the tokens consumed, and the remaining input starts with a token that is not
an operator of the level. -/
theorem parse_sound (n : Nat) :
    (∀ toks e rest, parseFactorF n toks = .ok (e, rest) →
      ∃ w, toks = w ++ rest ∧ Parses .factor w e) ∧
    (∀ node toks e rest, parseTermLoopF n node toks = .ok (e, rest) →
      ∃ w, toks = w ++ rest ∧ Parses (.termLoop node) w e ∧
        StopsAt TokenKind.isMulOp rest) ∧
    (∀ toks e rest, parseTermF n toks = .ok (e, rest) →
      ∃ w, toks = w ++ rest ∧ Parses .term w e ∧ StopsAt TokenKind.isMulOp rest) ∧
    (∀ node toks e rest, parseExprLoopF n node toks = .ok (e, rest) →
      ∃ w, toks = w ++ rest ∧ Parses (.exprLoop node) w e ∧
        StopsAt TokenKind.isAddOp rest ∧
        (StopsAt TokenKind.isMulOp toks → StopsAt TokenKind.isMulOp rest)) ∧
    (∀ toks e rest, parseExprF n toks = .ok (e, rest) →
      ∃ w, toks = w ++ rest ∧ Parses .expr w e ∧
        StopsAt TokenKind.isAddOp rest ∧ StopsAt TokenKind.isMulOp rest) := by
  apply parse_induction
    (fun toks e rest => ∃ w, toks = w ++ rest ∧ Parses .factor w e)
    (fun toks e rest => ∃ w, toks = w ++ rest ∧ Parses .term w e ∧
      StopsAt TokenKind.isMulOp rest)
    (fun toks e rest => ∃ w, toks = w ++ rest ∧ Parses .expr w e ∧
      StopsAt TokenKind.isAddOp rest ∧ StopsAt TokenKind.isMulOp rest)
    (fun node toks e rest => ∃ w, toks = w ++ rest ∧ Parses (.termLoop node) w e ∧
      StopsAt TokenKind.isMulOp rest)
    (fun node toks e rest => ∃ w, toks = w ++ rest ∧ Parses (.exprLoop node) w e ∧
      StopsAt TokenKind.isAddOp rest ∧
      (StopsAt TokenKind.isMulOp toks → StopsAt TokenKind.isMulOp rest))
  · intro t rest v hk hv
    exact ⟨[t], rfl, .number t v hk hv⟩
  · intro t rest hk
    exact ⟨[t], rfl, .ident t hk⟩
  · rintro t rest e t2 rest2 hk ⟨w, rfl, hw, _⟩ hk2
    exact ⟨t :: w ++ [t2], by simp, .paren t t2 w e hk hw hk2⟩
  · intro node t rest h1 h2
    exact ⟨[], rfl, .termStop node, t, rest, rfl, by simp [TokenKind.isMulOp, h1, h2]⟩
  · rintro node t rest r rest2 e rest3 hk ⟨w1, rfl, hw1⟩ ⟨w2, rfl, hw2, hs⟩
    exact ⟨t :: w1 ++ w2, by simp, .termMul node t w1 w2 r e hk hw1 hw2, hs⟩
  · rintro node t rest r rest2 e rest3 hk ⟨w1, rfl, hw1⟩ ⟨w2, rfl, hw2, hs⟩
    exact ⟨t :: w1 ++ w2, by simp, .termDiv node t w1 w2 r e hk hw1 hw2, hs⟩
  · rintro toks f rest e rest2 ⟨w1, rfl, hw1⟩ ⟨w2, rfl, hw2, hs⟩
    exact ⟨w1 ++ w2, by simp, .term w1 w2 f e hw1 hw2, hs⟩
  · intro node t rest h1 h2
    exact ⟨[], rfl, .exprStop node, ⟨t, rest, rfl, by simp [TokenKind.isAddOp, h1, h2]⟩,
      fun h => h⟩
  · rintro node t rest r rest2 e rest3 hk ⟨w1, rfl, hw1, hs1⟩ ⟨w2, rfl, hw2, hs, hm⟩
    exact ⟨t :: w1 ++ w2, by simp, .exprPlus node t w1 w2 r e hk hw1 hw2, hs, fun _ => hm hs1⟩
  · rintro node t rest r rest2 e rest3 hk ⟨w1, rfl, hw1, hs1⟩ ⟨w2, rfl, hw2, hs, hm⟩
    exact ⟨t :: w1 ++ w2, by simp, .exprMinus node t w1 w2 r e hk hw1 hw2, hs, fun _ => hm hs1⟩
  · rintro toks f rest e rest2 ⟨w1, rfl, hw1, hs1⟩ ⟨w2, rfl, hw2, hs, hm⟩
    exact ⟨w1 ++ w2, by simp, .expr w1 w2 f e hw1 hw2, hs, hm hs1⟩

theorem Parser.parseExpr_sound {toks rest : List Token} {e : Expr}
    (h : Parser.parseExpr toks = .ok (e, rest)) :
    ∃ w, toks = w ++ rest ∧ Parses .expr w e ∧
      StopsAt TokenKind.isAddOp rest ∧ StopsAt TokenKind.isMulOp rest :=
  (parse_sound _).2.2.2.2 toks e rest h

theorem Parses.kinds {mode : Mode} {w : List Token} {e : Expr} (h : Parses mode w e) :
    ∀ t ∈ w, t.kind.inExpr = true := by
  induction h with
  | number t v hk _ => simp [TokenKind.inExpr, hk]
  | ident t hk => simp [TokenKind.inExpr, hk]
  | paren l r w e hl _ hr ih =>
    intro t ht
    simp only [List.cons_append, List.mem_cons, List.mem_append, List.mem_singleton,
      List.not_mem_nil, or_false] at ht
    rcases ht with rfl | ht | rfl
    · simp [TokenKind.inExpr, hl]
    · exact ih t ht
    · simp [TokenKind.inExpr, hr]
  | termStop node => simp
  | termMul node t w1 w2 f e hk _ _ ih1 ih2 =>
    intro t2 ht
    simp only [List.cons_append, List.mem_cons, List.mem_append] at ht
    rcases ht with rfl | ht | ht
    · simp [TokenKind.inExpr, hk]
    · exact ih1 t2 ht
    · exact ih2 t2 ht
  | termDiv node t w1 w2 f e hk _ _ ih1 ih2 =>
    intro t2 ht
    simp only [List.cons_append, List.mem_cons, List.mem_append] at ht
    rcases ht with rfl | ht | ht
    · simp [TokenKind.inExpr, hk]
    · exact ih1 t2 ht
    · exact ih2 t2 ht
  | term w1 w2 f e _ _ ih1 ih2 =>
    intro t ht
    rcases List.mem_append.mp ht with ht | ht
    · exact ih1 t ht
    · exact ih2 t ht
  | exprStop node => simp
  | exprPlus node t w1 w2 f e hk _ _ ih1 ih2 =>
    intro t2 ht
    simp only [List.cons_append, List.mem_cons, List.mem_append] at ht
    rcases ht with rfl | ht | ht
    · simp [TokenKind.inExpr, hk]
    · exact ih1 t2 ht
    · exact ih2 t2 ht
  | exprMinus node t w1 w2 f e hk _ _ ih1 ih2 =>
    intro t2 ht
    simp only [List.cons_append, List.mem_cons, List.mem_append] at ht
    rcases ht with rfl | ht | ht
    · simp [TokenKind.inExpr, hk]
    · exact ih1 t2 ht
    · exact ih2 t2 ht
  | expr w1 w2 f e _ _ ih1 ih2 =>
    intro t ht
    rcases List.mem_append.mp ht with ht | ht
    · exact ih1 t ht
    · exact ih2 t ht

/-- Completeness of the statement loop: after the tokens of whole statements
the loop is at the next token with the statements appended, whatever
follows. -/
theorem ParsesStmts.loop_runs {w : List Token} {ss : List Stmt} (h : ParsesStmts w ss) :
    ∀ out rest, Parser.parseAllLoop out (w ++ rest) = Parser.parseAllLoop (out ++ ss) rest := by
  induction h with
  | nil => intro out rest; simp
  | semi t w ss hk _ ih =>
    intro out rest
    rw [List.cons_append, Parser.parseAllLoop_cons]
    simp only [parseAllBody, hk]
    simpa using ih out rest
  | letStmt tl id ta ts w w2 e ss hl hi ha hw hs _ ih =>
    intro out rest
    have hrun := hw.runs ts (w2 ++ rest) (by simp [TokenKind.isMulOp, hs])
      (by simp [TokenKind.isAddOp, hs])
    simp only [List.cons_append, List.append_assoc]
    rw [Parser.parseAllLoop_cons]
    simp only [parseAllBody, hl, hi, Parser.expect, ha]
    simp only [List.cons_append] at hrun
    simp [hrun, hs, ih]
  | printStmt tp ts w w2 e ss hp hw hs _ ih =>
    intro out rest
    have hrun := hw.runs ts (w2 ++ rest) (by simp [TokenKind.isMulOp, hs])
      (by simp [TokenKind.isAddOp, hs])
    simp only [List.cons_append, List.append_assoc]
    rw [Parser.parseAllLoop_cons]
    simp only [parseAllBody, hp, Parser.expect]
    simp only [List.cons_append] at hrun
    simp [hrun, hs, ih]

/-- Soundness of the statement loop: a successful run consumed the tokens of
whole statements up to a `TK_EOF`, and returns the statements collected
before with theirs appended. -/
theorem parseAllF_sound (n : Nat) :
    ∀ out toks res, parseAllF n out toks = .ok res →
      ∃ w ss eof rest, toks = w ++ eof :: rest ∧ eof.kind = .TK_EOF ∧
        ParsesStmts w ss ∧ res = out ++ ss := by
  induction n with
  | zero => intro out toks res h; simp [parseAllF] at h
  | succ n ih =>
    intro out toks res h
    cases toks with
    | nil => simp [parseAllF] at h
    | cons t rest =>
      rw [parseAllF_succ] at h
      unfold parseAllBody at h
      split_ifs at h with h1 h2 h3 h4
      · simp only [Res.ok.injEq] at h
        exact ⟨[], [], t, rest, rfl, h1, .nil, by simp [h]⟩
      · cases rest with
        | nil => simp at h
        | cons id rest1 =>
          simp only at h
          split_ifs at h with h5
          obtain ⟨rest2, hx, h6⟩ := Res.bind_eq_ok h
          obtain ⟨⟨e, rest3⟩, he, h7⟩ := Res.bind_eq_ok h6
          obtain ⟨rest4, hy, h8⟩ := Res.bind_eq_ok h7
          obtain ⟨ta, rfl, hta⟩ := Parser.expect_eq_ok hx
          obtain ⟨ts, hts, hts2⟩ := Parser.expect_eq_ok hy
          obtain ⟨w, rfl, hw, _⟩ := Parser.parseExpr_sound he
          obtain ⟨w2, ss, eof, rest5, rfl, heof, hss, rfl⟩ := ih _ _ _ h8
          simp only at hts
          subst hts
          refine ⟨t :: id :: ta :: w ++ ts :: w2, _ :: ss, eof, rest5, by simp, heof,
            .letStmt t id ta ts w w2 e ss h2 (by simpa using h5) hta hw hts2 hss, by simp⟩
      · obtain ⟨⟨e, rest3⟩, he, h7⟩ := Res.bind_eq_ok h
        obtain ⟨rest4, hy, h8⟩ := Res.bind_eq_ok h7
        obtain ⟨ts, hts, hts2⟩ := Parser.expect_eq_ok hy
        obtain ⟨w, rfl, hw, _⟩ := Parser.parseExpr_sound he
        obtain ⟨w2, ss, eof, rest5, rfl, heof, hss, rfl⟩ := ih _ _ _ h8
        simp only at hts
        subst hts
        refine ⟨t :: w ++ ts :: w2, _ :: ss, eof, rest5, by simp, heof,
          .printStmt t ts w w2 e ss h3 hw hts2 hss, by simp⟩
      · obtain ⟨w2, ss, eof, rest5, rfl, heof, hss, rfl⟩ := ih _ _ _ h
        exact ⟨t :: w2, ss, eof, rest5, by simp, heof, .semi t w2 ss h4 hss, rfl⟩

theorem Parser.parseAll_sound {toks : List Token} {res : List Stmt}
    (h : Parser.parseAll toks = .ok res) :
    ∃ w eof rest, toks = w ++ eof :: rest ∧ eof.kind = .TK_EOF ∧ ParsesStmts w res := by
  obtain ⟨w, ss, eof, rest, h1, h2, h3, h4⟩ := parseAllF_sound _ _ _ _ h
  simp only [List.nil_append] at h4
  subst h4
  exact ⟨w, eof, rest, h1, h2, h3⟩

theorem Parser.parseAll_complete {w : List Token} {ss : List Stmt} (h : ParsesStmts w ss)
    (eof : Token) (rest : List Token) (heof : eof.kind = .TK_EOF) :
    Parser.parseAll (w ++ eof :: rest) = .ok ss := by
  rw [Parser.parseAll_eq, h.loop_runs, Parser.parseAllLoop_cons]
  simp [parseAllBody, heof]

/-- The tokens of whole statements are no `TK_EOF`. -/
theorem ParsesStmts.no_eof {w : List Token} {ss : List Stmt} (h : ParsesStmts w ss) :
    ∀ t ∈ w, t.kind ≠ .TK_EOF := by
  induction h with
  | nil => simp
  | semi t w ss hk _ ih =>
    intro t2 ht
    rcases List.mem_cons.mp ht with rfl | ht
    · rw [hk]; decide
    · exact ih t2 ht
  | letStmt tl id ta ts w w2 e ss hl hi ha hw hs _ ih =>
    intro t2 ht
    simp only [List.cons_append, List.mem_cons, List.mem_append] at ht
    rcases ht with rfl | rfl | rfl | ht | rfl | ht
    · rw [hl]; decide
    · rw [hi]; decide
    · rw [ha]; decide
    · have := hw.kinds t2 ht
      intro h0
      rw [h0] at this
      exact absurd this (by decide)
    · rw [hs]; decide
    · exact ih t2 ht
  | printStmt tp ts w w2 e ss hp hw hs _ ih =>
    intro t2 ht
    simp only [List.cons_append, List.mem_cons, List.mem_append] at ht
    rcases ht with rfl | ht | rfl | ht
    · rw [hp]; decide
    · have := hw.kinds t2 ht
      intro h0
      rw [h0] at this
      exact absurd this (by decide)
    · rw [hs]; decide
    · exact ih t2 ht

/-- A list is split at its first `TK_EOF` in one way only. -/
theorem eof_split_unique {w1 w2 r1 r2 : List Token} {e1 e2 : Token}
    (h : w1 ++ e1 :: r1 = w2 ++ e2 :: r2) (he1 : e1.kind = .TK_EOF) (he2 : e2.kind = .TK_EOF)
    (h1 : ∀ t ∈ w1, t.kind ≠ .TK_EOF) (h2 : ∀ t ∈ w2, t.kind ≠ .TK_EOF) :
    w1 = w2 ∧ e1 = e2 ∧ r1 = r2 := by
  induction w1 generalizing w2 with
  | nil =>
    cases w2 with
    | nil => simpa using h
    | cons b w2 =>
      simp only [List.nil_append, List.cons_append, List.cons.injEq] at h
      exact absurd (h.1 ▸ he1) (h2 b (List.mem_cons_self _ _))
  | cons a w1 ih =>
    cases w2 with
    | nil =>
      simp only [List.nil_append, List.cons_append, List.cons.injEq] at h
      exact absurd (h.1 ▸ he2) (h1 a (List.mem_cons_self _ _))
    | cons b w2 =>
      simp only [List.cons_append, List.cons.injEq] at h
      obtain ⟨hw, he, hr⟩ := ih h.2 (fun t ht => h1 t (List.mem_cons_of_mem _ ht))
        (fun t ht => h2 t (List.mem_cons_of_mem _ ht))
      exact ⟨by rw [h.1, hw], he, hr⟩

theorem Expr.sumFree_spec (e : Expr) (h : e.sumFree = true) :
    e.isSum = false ∧ e.precedenceOk = true ∧ e.flatSum = true := by
  induction e with
  | NumberExpr v => simp [Expr.isSum, Expr.precedenceOk, Expr.flatSum]
  | VarExpr x => simp [Expr.isSum, Expr.precedenceOk, Expr.flatSum]
  | BinaryExpr op l r ihl ihr =>
    simp only [Expr.sumFree, Bool.and_eq_true, Bool.not_eq_true', Bool.or_eq_false_iff,
      decide_eq_false_iff_not] at h
    obtain ⟨⟨⟨h1, h2⟩, hl⟩, hr⟩ := h
    obtain ⟨l1, l2, _⟩ := ihl hl
    obtain ⟨r1, r2, _⟩ := ihr hr
    refine ⟨?_, ?_, ?_⟩
    · simp [Expr.isSum, h1, h2]
    · rw [Expr.precedenceOk]; simp [l1, l2, r1, r2]
    · rw [Expr.flatSum]; simp [h1, h2, hl, hr]

theorem Expr.flatSum_spec (e : Expr) (h : e.flatSum = true) : e.precedenceOk = true := by
  induction e with
  | NumberExpr v => simp [Expr.precedenceOk]
  | VarExpr x => simp [Expr.precedenceOk]
  | BinaryExpr op l r ihl ihr =>
    simp only [Expr.flatSum] at h
    split_ifs at h with h1
    · simp only [Bool.and_eq_true] at h
      have hr := Expr.sumFree_spec r h.2
      have hop : ¬(op = '*' ∨ op = '/') := by
        rcases h1 with rfl | rfl <;> decide
      simp only [not_or] at hop
      rw [Expr.precedenceOk]; simp [ihl h.1, hr.2.1, hop.1, hop.2]
    · simp only [Bool.and_eq_true] at h
      have hl := Expr.sumFree_spec l h.1
      have hr := Expr.sumFree_spec r h.2
      rw [Expr.precedenceOk]; simp [hl.1, hl.2.1, hr.1, hr.2.1]

theorem Parses.shape {mode : Mode} {w : List Token} {e : Expr} (h : Parses mode w e) :
    NoParen w → Shape mode e := by
  induction h with
  | number t v _ _ => intro _; simp [Shape, Expr.sumFree]
  | ident t _ => intro _; simp [Shape, Expr.sumFree]
  | paren l r w e hl _ _ _ =>
    intro hn
    exact absurd hl (hn l (List.mem_cons_self _ _))
  | termStop node => intro _ h; exact h
  | termMul node t w1 w2 f e _ _ _ ih1 ih2 =>
    intro hn hnode
    have h1 : NoParen w1 := fun x hx => hn x (by simp [hx])
    have h2 : NoParen w2 := fun x hx => hn x (by simp [hx])
    exact ih2 h2 (by simpa [Expr.sumFree, hnode] using ih1 h1)
  | termDiv node t w1 w2 f e _ _ _ ih1 ih2 =>
    intro hn hnode
    have h1 : NoParen w1 := fun x hx => hn x (by simp [hx])
    have h2 : NoParen w2 := fun x hx => hn x (by simp [hx])
    exact ih2 h2 (by simpa [Expr.sumFree, hnode] using ih1 h1)
  | term w1 w2 f e _ _ ih1 ih2 =>
    intro hn
    have h1 : NoParen w1 := fun x hx => hn x (by simp [hx])
    have h2 : NoParen w2 := fun x hx => hn x (by simp [hx])
    exact ih2 h2 (ih1 h1)
  | exprStop node => intro _ h; exact h
  | exprPlus node t w1 w2 f e _ _ _ ih1 ih2 =>
    intro hn hnode
    have h1 : NoParen w1 := fun x hx => hn x (by simp [hx])
    have h2 : NoParen w2 := fun x hx => hn x (by simp [hx])
    exact ih2 h2 (by simpa [Expr.flatSum, hnode] using ih1 h1)
  | exprMinus node t w1 w2 f e _ _ _ ih1 ih2 =>
    intro hn hnode
    have h1 : NoParen w1 := fun x hx => hn x (by simp [hx])
    have h2 : NoParen w2 := fun x hx => hn x (by simp [hx])
    exact ih2 h2 (by simpa [Expr.flatSum, hnode] using ih1 h1)
  | expr w1 w2 f e _ _ ih1 ih2 =>
    intro hn
    have h1 : NoParen w1 := fun x hx => hn x (by simp [hx])
    have h2 : NoParen w2 := fun x hx => hn x (by simp [hx])
    exact ih2 h2 (Expr.sumFree_spec f (ih1 h1)).2.2

theorem Parser.parseTermLoop_stop (node : Expr) (t : Token) (rest : List Token)
    (h : t.kind.isMulOp = false) : Parser.parseTermLoop node (t :: rest) = .ok (node, t :: rest) := by
  simp only [TokenKind.isMulOp, Bool.or_eq_false_iff, decide_eq_false_iff_not] at h
  rw [Parser.parseTermLoop_cons, if_neg h.1, if_neg h.2]

theorem Parser.parseExprLoop_stop (node : Expr) (t : Token) (rest : List Token)
    (h : t.kind.isAddOp = false) : Parser.parseExprLoop node (t :: rest) = .ok (node, t :: rest) := by
  simp only [TokenKind.isAddOp, Bool.or_eq_false_iff, decide_eq_false_iff_not] at h
  rw [Parser.parseExprLoop_cons, if_neg h.1, if_neg h.2]

/-- A factor followed by a token other than `*` and `/` is a term. -/
theorem IsFactor.parseTerm {w : List Token} {e : Expr} (h : IsFactor w e) (t : Token)
    (rest : List Token) (ht : t.kind.isMulOp = false) :
    Parser.parseTerm (w ++ t :: rest) = .ok (e, t :: rest) := by
  rw [Parser.parseTerm_unfold, h (t :: rest), Res.bind_ok]
  exact Parser.parseTermLoop_stop e t rest ht

theorem Parses.isFactor {w : List Token} {e : Expr} (h : Parses .factor w e) : IsFactor w e :=
  h.runs

theorem TokenKind.isAddOp_not_isMulOp {k : TokenKind} (h : k.isAddOp = true) :
    k.isMulOp = false := by
  cases k <;> simp [TokenKind.isAddOp, TokenKind.isMulOp] at h ⊢

theorem chainTokens_head (links : List Link) (t : Token) (rest : List Token)
    (hl : ∀ l ∈ links, l.op.kind.isAddOp = true) (ht : t.kind.isMulOp = false) :
    ∃ t1 rest1, chainTokens links ++ t :: rest = t1 :: rest1 ∧ t1.kind.isMulOp = false := by
  cases links with
  | nil => exact ⟨t, rest, rfl, ht⟩
  | cons l r =>
    exact ⟨l.op, l.w ++ chainTokens r ++ t :: rest, by simp [chainTokens],
      TokenKind.isAddOp_not_isMulOp (hl l (List.mem_cons_self _ _))⟩

/-- The loop of `parseTerm` folds a chain of `*` and `/` to the left. -/
theorem Parser.parseTermLoop_chain (links : List Link) :
    ∀ (node : Expr) (t : Token) (rest : List Token),
      (∀ l ∈ links, IsFactor l.w l.e) → (∀ l ∈ links, l.op.kind.isMulOp = true) →
      t.kind.isMulOp = false →
      Parser.parseTermLoop node (chainTokens links ++ t :: rest) =
        .ok (leftFold node links, t :: rest) := by
  induction links with
  | nil =>
    intro node t rest _ _ ht
    exact Parser.parseTermLoop_stop node t rest ht
  | cons l r ih =>
    intro node t rest hf hop ht
    have hl := hop l (List.mem_cons_self _ _)
    have hfl := hf l (List.mem_cons_self _ _)
    have ihr := ih (.BinaryExpr l.op.kind.opChar node l.e) t rest
      (fun x hx => hf x (List.mem_cons_of_mem _ hx))
      (fun x hx => hop x (List.mem_cons_of_mem _ hx)) ht
    simp only [chainTokens, List.cons_append, List.append_assoc, leftFold]
    rw [Parser.parseTermLoop_cons]
    simp only [TokenKind.isMulOp, Bool.or_eq_true, decide_eq_true_eq] at hl
    rcases hl with hk | hk
    · rw [if_pos hk, hfl _, Res.bind_ok]
      simpa [hk, TokenKind.opChar] using ihr
    · have hk2 : l.op.kind ≠ .TK_MUL := by rw [hk]; decide
      rw [if_neg hk2, if_pos hk, hfl _, Res.bind_ok]
      simpa [hk, TokenKind.opChar] using ihr

/-- The loop of `parseExpr` folds a chain of `+` and `-` to the left. -/
theorem Parser.parseExprLoop_chain (links : List Link) :
    ∀ (node : Expr) (t : Token) (rest : List Token),
      (∀ l ∈ links, IsFactor l.w l.e) → (∀ l ∈ links, l.op.kind.isAddOp = true) →
      t.kind.isMulOp = false → t.kind.isAddOp = false →
      Parser.parseExprLoop node (chainTokens links ++ t :: rest) =
        .ok (leftFold node links, t :: rest) := by
  induction links with
  | nil =>
    intro node t rest _ _ _ ht
    exact Parser.parseExprLoop_stop node t rest ht
  | cons l r ih =>
    intro node t rest hf hop hm ht
    have hl := hop l (List.mem_cons_self _ _)
    have hfl := hf l (List.mem_cons_self _ _)
    have hop2 : ∀ x ∈ r, x.op.kind.isAddOp = true :=
      fun x hx => hop x (List.mem_cons_of_mem _ hx)
    have ihr := ih (.BinaryExpr l.op.kind.opChar node l.e) t rest
      (fun x hx => hf x (List.mem_cons_of_mem _ hx)) hop2 hm ht
    obtain ⟨t1, rest1, heq, hm1⟩ := chainTokens_head r t rest hop2 hm
    simp only [chainTokens, List.cons_append, List.append_assoc, leftFold]
    rw [Parser.parseExprLoop_cons]
    simp only [TokenKind.isAddOp, Bool.or_eq_true, decide_eq_true_eq] at hl
    rcases hl with hk | hk
    · rw [if_pos hk, heq, hfl.parseTerm t1 rest1 hm1, Res.bind_ok, ← heq]
      simpa [hk, TokenKind.opChar] using ihr
    · have hk2 : l.op.kind ≠ .TK_PLUS := by rw [hk]; decide
      rw [if_neg hk2, if_pos hk, heq, hfl.parseTerm t1 rest1 hm1, Res.bind_ok, ← heq]
      simpa [hk, TokenKind.opChar] using ihr

/-! ## Slots and the symbol table -/

theorem LLVMCompiler.CreateBinOp_frame (c : LLVMCompiler) (op : BinOp) (l r : Val) :
    slots (c.CreateBinOp op l r).2.entry = slots c.entry ∧
    c.nextId ≤ (c.CreateBinOp op l r).2.nextId ∧
    (c.CreateBinOp op l r).2.namedValues = c.namedValues ∧
    ∀ id s x, Instr.load id s x ∈ (c.CreateBinOp op l r).2.entry → Instr.load id s x ∈ c.entry := by
  unfold LLVMCompiler.CreateBinOp
  cases ConstantFolder.FoldBinOp op l r with
  | some v => exact ⟨rfl, Nat.le_refl _, rfl, fun _ _ _ h => h⟩
  | none =>
    refine ⟨by simp [slots_append, slots], Nat.le_succ _, rfl, ?_⟩
    intro id s x h
    simpa using h

/-- `compileExpr` allocates no slot, leaves `namedValues` alone, and every
load it adds for a name reads the slot `namedValues` holds for that name. -/
theorem LLVMCompiler.compileExpr_frame (e : Expr) :
    ∀ (c c1 : LLVMCompiler) (v : Val), c.compileExpr e = .ok (v, c1) →
      slots c1.entry = slots c.entry ∧ c.nextId ≤ c1.nextId ∧
      c1.namedValues = c.namedValues ∧
      ∀ id s x, Instr.load id s x ∈ c1.entry →
        Instr.load id s x ∈ c.entry ∨ c.find x = some s := by
  induction e with
  | NumberExpr value =>
    intro c c1 v h
    simp only [LLVMCompiler.compileExpr, Except.ok.injEq, Prod.mk.injEq] at h
    obtain ⟨_, rfl⟩ := h
    exact ⟨rfl, Nat.le_refl _, rfl, fun _ _ _ h => Or.inl h⟩
  | VarExpr name =>
    intro c c1 v h
    simp only [LLVMCompiler.compileExpr] at h
    cases hf : c.find name with
    | none => rw [hf] at h; simp at h
    | some slot =>
      rw [hf] at h
      simp only [LLVMCompiler.CreateLoad, Except.ok.injEq, Prod.mk.injEq] at h
      obtain ⟨_, rfl⟩ := h
      refine ⟨by simp [slots_append, slots], Nat.le_succ _, rfl, ?_⟩
      intro id s x hx
      simp only [List.mem_append, List.mem_singleton, Instr.load.injEq] at hx
      rcases hx with hx | ⟨_, rfl, rfl⟩
      · exact Or.inl hx
      · exact Or.inr hf
  | BinaryExpr op lhs rhs ihl ihr =>
    intro c c3 v h
    simp only [LLVMCompiler.compileExpr] at h
    cases hl : c.compileExpr lhs with
    | error err => rw [hl] at h; simp at h
    | ok p1 =>
      obtain ⟨l, c1⟩ := p1
      rw [hl] at h
      simp only at h
      cases hr : c1.compileExpr rhs with
      | error err => rw [hr] at h; simp at h
      | ok p2 =>
        obtain ⟨r, c2⟩ := p2
        rw [hr] at h
        simp only at h
        obtain ⟨a1, a2, a3, a4⟩ := ihl c c1 l hl
        obtain ⟨b1, b2, b3, b4⟩ := ihr c1 c2 r hr
        have key : ∀ bop : BinOp, (v, c3) = c2.CreateBinOp bop l r →
            slots c3.entry = slots c.entry ∧ c.nextId ≤ c3.nextId ∧
            c3.namedValues = c.namedValues ∧
            ∀ id s x, Instr.load id s x ∈ c3.entry →
              Instr.load id s x ∈ c.entry ∨ c.find x = some s := by
          intro bop hc
          obtain ⟨d1, d2, d3, d4⟩ := c2.CreateBinOp_frame bop l r
          rw [← hc] at d1 d2 d3 d4
          simp only at d1 d2 d3 d4
          refine ⟨by rw [d1, b1, a1], by omega, by rw [d3, b3, a3], ?_⟩
          intro id s x hx
          rcases b4 id s x (d4 id s x hx) with h1 | h1
          · exact a4 id s x h1
          · right
            simpa [LLVMCompiler.find, a3] using h1
        split_ifs at h
        · exact key .add (Except.ok.inj h).symm
        · exact key .sub (Except.ok.inj h).symm
        · exact key .mul (Except.ok.inj h).symm
        · exact key .sdiv (Except.ok.inj h).symm

/-- What `compileStmt` does to the slots and to `namedValues`: a `let`
allocates one slot, numbered `nextId` after its right-hand side, and binds its
name to it; a `print` changes neither. -/
theorem LLVMCompiler.compileStmt_frame (c c1 : LLVMCompiler) (s : Stmt)
    (h : c.compileStmt s = .ok c1) :
    c.nextId ≤ c1.nextId ∧
    match s with
    | .LetStmt name _ =>
      ∃ slot, c.nextId ≤ slot ∧ slot < c1.nextId ∧ slots c1.entry = slot :: slots c.entry ∧
        Instr.alloca slot name ∈ c1.entry ∧
        ∀ y, c1.find y = if y = name then some slot else c.find y
    | .PrintStmt _ => slots c1.entry = slots c.entry ∧ c1.namedValues = c.namedValues := by
  cases s with
  | LetStmt name rhs =>
    simp only [LLVMCompiler.compileStmt] at h
    cases hc : c.compileExpr rhs with
    | error err => rw [hc] at h; simp at h
    | ok p =>
      obtain ⟨val, c2⟩ := p
      rw [hc] at h
      simp only [Except.ok.injEq] at h
      obtain ⟨a1, a2, a3, _⟩ := LLVMCompiler.compileExpr_frame rhs c c2 val hc
      subst h
      refine ⟨?_, c2.nextId, a2, ?_, ?_, ?_, ?_⟩
      · simp only [LLVMCompiler.assign, LLVMCompiler.CreateStore,
          LLVMCompiler.createEntryBlockAlloca]
        omega
      · simp [LLVMCompiler.assign, LLVMCompiler.CreateStore,
          LLVMCompiler.createEntryBlockAlloca]
      · simp [LLVMCompiler.assign, LLVMCompiler.CreateStore,
          LLVMCompiler.createEntryBlockAlloca, slots_append, slots, a1]
      · simp [LLVMCompiler.assign, LLVMCompiler.CreateStore,
          LLVMCompiler.createEntryBlockAlloca]
      · intro y
        simp only [LLVMCompiler.find]
        rw [LLVMCompiler.lookup_assign]
        simp [LLVMCompiler.CreateStore, LLVMCompiler.createEntryBlockAlloca, a3]
  | PrintStmt expr =>
    simp only [LLVMCompiler.compileStmt] at h
    cases hc : c.compileExpr expr with
    | error err => rw [hc] at h; simp at h
    | ok p =>
      obtain ⟨val, c2⟩ := p
      rw [hc] at h
      simp only [Except.ok.injEq] at h
      obtain ⟨a1, a2, a3, _⟩ := LLVMCompiler.compileExpr_frame expr c c2 val hc
      subst h
      refine ⟨?_, ?_, ?_⟩
      · simp only [LLVMCompiler.CreateCall]; omega
      · simp [LLVMCompiler.CreateCall, slots_append, slots, a1]
      · simp [LLVMCompiler.CreateCall, a3]

theorem LLVMCompiler.compileStmts_idsBelow (stmts : List Stmt) :
    ∀ c c1 : LLVMCompiler, c.IdsBelow → c.compileStmts stmts = .ok c1 → c1.IdsBelow := by
  induction stmts with
  | nil =>
    intro c c1 hc h
    simp only [LLVMCompiler.compileStmts, Except.ok.injEq] at h
    exact h ▸ hc
  | cons s rest ih =>
    intro c c2 hc h
    simp only [LLVMCompiler.compileStmts] at h
    cases hs : c.compileStmt s with
    | error err => rw [hs] at h; simp at h
    | ok c1 =>
      rw [hs] at h
      refine ih c1 c2 ?_ h
      obtain ⟨hle, hfr⟩ := c.compileStmt_frame c1 s hs
      cases s with
      | LetStmt name rhs =>
        obtain ⟨slot, h1, h2, h3, _⟩ := hfr
        intro k hk
        rw [h3] at hk
        rcases List.mem_cons.mp hk with rfl | hk
        · exact h2
        · exact Nat.lt_of_lt_of_le (hc k hk) hle
      | PrintStmt expr =>
        intro k hk
        rw [hfr.1] at hk
        exact Nat.lt_of_lt_of_le (hc k hk) hle

/-- Statements that are no `let` of `x` leave the slot of `x` alone. -/
theorem LLVMCompiler.compileStmts_find (stmts : List Stmt) (x : List Char) :
    ∀ c c1 : LLVMCompiler, (∀ y e, Stmt.LetStmt y e ∈ stmts → y ≠ x) →
      c.compileStmts stmts = .ok c1 → c1.find x = c.find x := by
  induction stmts with
  | nil =>
    intro c c1 _ h
    simp only [LLVMCompiler.compileStmts, Except.ok.injEq] at h
    rw [h]
  | cons s rest ih =>
    intro c c2 hn h
    simp only [LLVMCompiler.compileStmts] at h
    cases hs : c.compileStmt s with
    | error err => rw [hs] at h; simp at h
    | ok c1 =>
      rw [hs] at h
      rw [ih c1 c2 (fun y e hy => hn y e (List.mem_cons_of_mem _ hy)) h]
      obtain ⟨_, hfr⟩ := c.compileStmt_frame c1 s hs
      cases s with
      | LetStmt name rhs =>
        obtain ⟨slot, _, _, _, _, h5⟩ := hfr
        rw [h5 x, if_neg (fun hx => hn name rhs (List.mem_cons_self _ _) hx.symm)]
      | PrintStmt expr =>
        simp only [LLVMCompiler.find, hfr.2]

theorem LLVMCompiler.compileExpr_ok_vars (e : Expr) :
    ∀ (c c1 : LLVMCompiler) (v : Val), c.compileExpr e = .ok (v, c1) →
      ∀ x ∈ e.vars, c.find x ≠ none := by
  induction e with
  | NumberExpr value => intro c c1 v _ x hx; simp [Expr.vars] at hx
  | VarExpr name =>
    intro c c1 v h x hx
    simp only [Expr.vars, List.mem_singleton] at hx
    subst hx
    simp only [LLVMCompiler.compileExpr] at h
    intro hf
    rw [hf] at h
    simp at h
  | BinaryExpr op lhs rhs ihl ihr =>
    intro c c3 v h x hx
    simp only [LLVMCompiler.compileExpr] at h
    cases hl : c.compileExpr lhs with
    | error err => rw [hl] at h; simp at h
    | ok p1 =>
      obtain ⟨l, c1⟩ := p1
      rw [hl] at h
      simp only at h
      cases hr : c1.compileExpr rhs with
      | error err => rw [hr] at h; simp at h
      | ok p2 =>
        obtain ⟨r, c2⟩ := p2
        simp only [Expr.vars, List.mem_append] at hx
        rcases hx with hx | hx
        · exact ihl c c1 l hl x hx
        · have := ihr c1 c2 r hr x hx
          simpa [LLVMCompiler.find, (LLVMCompiler.compileExpr_frame lhs c c1 l hl).2.2.1]
            using this

theorem LLVMCompiler.compileExpr_error (e : Expr) (he : e.opsValid) :
    ∀ (c : LLVMCompiler) (err : CompileError), c.compileExpr e = .error err →
      ∃ x ∈ e.vars, c.find x = none ∧ err = .unknownVariable x := by
  induction e with
  | NumberExpr value => intro c err h; simp [LLVMCompiler.compileExpr] at h
  | VarExpr name =>
    intro c err h
    simp only [LLVMCompiler.compileExpr] at h
    cases hf : c.find name with
    | some slot => rw [hf] at h; simp at h
    | none =>
      rw [hf] at h
      simp only [Except.error.injEq] at h
      exact ⟨name, by simp [Expr.vars], hf, h.symm⟩
  | BinaryExpr op lhs rhs ihl ihr =>
    intro c err h
    obtain ⟨hop, hvl, hvr⟩ := he
    simp only [LLVMCompiler.compileExpr] at h
    cases hl : c.compileExpr lhs with
    | error e1 =>
      rw [hl] at h
      simp only [Except.error.injEq] at h
      subst h
      obtain ⟨x, hx, hf, hxe⟩ := ihl hvl c e1 hl
      exact ⟨x, by simp [Expr.vars, hx], hf, hxe⟩
    | ok p1 =>
      obtain ⟨l, c1⟩ := p1
      rw [hl] at h
      simp only at h
      cases hr : c1.compileExpr rhs with
      | error e1 =>
        rw [hr] at h
        simp only [Except.error.injEq] at h
        subst h
        obtain ⟨x, hx, hf, hxe⟩ := ihr hvr c1 e1 hr
        refine ⟨x, by simp [Expr.vars, hx], ?_, hxe⟩
        simpa [LLVMCompiler.find, (LLVMCompiler.compileExpr_frame lhs c c1 l hl).2.2.1]
          using hf
      | ok p2 =>
        obtain ⟨r, c2⟩ := p2
        rw [hr] at h
        simp only at h
        rcases hop with rfl | rfl | rfl | rfl <;> simp at h

theorem LLVMCompiler.compileStmt_error (c : LLVMCompiler) (s : Stmt) (err : CompileError)
    (h : c.compileStmt s = .error err) :
    c.compileExpr s.expr = .error err := by
  cases s with
  | LetStmt name rhs =>
    simp only [LLVMCompiler.compileStmt] at h
    cases hc : c.compileExpr rhs with
    | error e1 =>
      rw [hc] at h
      simp only [Except.error.injEq] at h
      rw [← h]
      exact hc
    | ok p => rw [hc] at h; simp at h
  | PrintStmt e =>
    simp only [LLVMCompiler.compileStmt] at h
    cases hc : c.compileExpr e with
    | error e1 =>
      rw [hc] at h
      simp only [Except.error.injEq] at h
      rw [← h]
      exact hc
    | ok p => rw [hc] at h; simp at h

theorem LLVMCompiler.compileStmt_ok (c c1 : LLVMCompiler) (s : Stmt)
    (h : c.compileStmt s = .ok c1) :
    (∃ v c2, c.compileExpr s.expr = .ok (v, c2)) ∧
      ∀ x, s.declares x = false → c1.find x = c.find x := by
  obtain ⟨_, hfr⟩ := c.compileStmt_frame c1 s h
  cases s with
  | LetStmt name rhs =>
    simp only [LLVMCompiler.compileStmt] at h
    cases hc : c.compileExpr rhs with
    | error e1 => rw [hc] at h; simp at h
    | ok p =>
      obtain ⟨slot, _, _, _, _, h5⟩ := hfr
      refine ⟨⟨p.1, p.2, hc⟩, ?_⟩
      intro x hx
      simp only [Stmt.declares, decide_eq_false_iff_not] at hx
      rw [h5 x, if_neg (fun h => hx h.symm)]
  | PrintStmt e =>
    simp only [LLVMCompiler.compileStmt] at h
    cases hc : c.compileExpr e with
    | error e1 => rw [hc] at h; simp at h
    | ok p =>
      refine ⟨⟨p.1, p.2, hc⟩, ?_⟩
      intro x _
      simp only [LLVMCompiler.find, hfr.2]

/-- The statement loop stops exactly at the first reference to a name that
`namedValues` does not hold and no statement before declared. -/
theorem LLVMCompiler.compileStmts_error (stmts : List Stmt)
    (hv : ∀ s ∈ stmts, s.expr.opsValid) :
    ∀ (c : LLVMCompiler) (err : CompileError), c.compileStmts stmts = .error err →
      ∃ pre s post x, stmts = pre ++ s :: post ∧ x ∈ s.expr.vars ∧ c.find x = none ∧
        (∀ s1 ∈ pre, s1.declares x = false) ∧ err = .unknownVariable x := by
  induction stmts with
  | nil => intro c err h; simp [LLVMCompiler.compileStmts] at h
  | cons s rest ih =>
    intro c err h
    simp only [LLVMCompiler.compileStmts] at h
    cases hs : c.compileStmt s with
    | error e1 =>
      rw [hs] at h
      simp only [Except.error.injEq] at h
      subst h
      obtain ⟨x, hx, hf, hxe⟩ := LLVMCompiler.compileExpr_error s.expr
        (hv s (List.mem_cons_self _ _)) c e1 (c.compileStmt_error s e1 hs)
      exact ⟨[], s, rest, x, rfl, hx, hf, by simp, hxe⟩
    | ok c1 =>
      rw [hs] at h
      obtain ⟨pre, s2, post, x, heq, hx, hf, hpre, hxe⟩ :=
        ih (fun s1 h1 => hv s1 (List.mem_cons_of_mem _ h1)) c1 err h
      obtain ⟨⟨v, c2, hok⟩, hfind⟩ := c.compileStmt_ok c1 s hs
      by_cases hd : s.declares x = true
      · exfalso
        cases s with
        | PrintStmt e => simp [Stmt.declares] at hd
        | LetStmt name rhs =>
          simp only [Stmt.declares, decide_eq_true_eq] at hd
          subst hd
          obtain ⟨_, slot, _, _, _, _, h5⟩ := c.compileStmt_frame c1 _ hs
          rw [h5 name, if_pos rfl] at hf
          simp at hf
      · have hd2 : s.declares x = false := by simpa using hd
        refine ⟨s :: pre, s2, post, x, by simp [heq], hx, ?_, ?_, hxe⟩
        · rw [← hfind x hd2]; exact hf
        · intro s1 h1
          rcases List.mem_cons.mp h1 with rfl | h1
          · exact hd2
          · exact hpre s1 h1

theorem LLVMCompiler.compileStmts_undeclared (pre : List Stmt) :
    ∀ (c : LLVMCompiler) (s : Stmt) (post : List Stmt) (x : List Char),
      x ∈ s.expr.vars → c.find x = none → (∀ s1 ∈ pre, s1.declares x = false) →
      ∃ err, c.compileStmts (pre ++ s :: post) = .error err := by
  induction pre with
  | nil =>
    intro c s post x hx hf _
    simp only [List.nil_append, LLVMCompiler.compileStmts]
    cases hs : c.compileStmt s with
    | error e1 => exact ⟨e1, rfl⟩
    | ok c1 =>
      obtain ⟨⟨v, c2, hok⟩, _⟩ := c.compileStmt_ok c1 s hs
      exact absurd hf (LLVMCompiler.compileExpr_ok_vars s.expr c c2 v hok x hx)
  | cons s1 pre ih =>
    intro c s post x hx hf hpre
    simp only [List.cons_append, LLVMCompiler.compileStmts]
    cases hs : c.compileStmt s1 with
    | error e1 => exact ⟨e1, rfl⟩
    | ok c1 =>
      obtain ⟨_, hfind⟩ := c.compileStmt_ok c1 s1 hs
      exact ih c1 s post x hx (by rw [hfind x (hpre s1 (List.mem_cons_self _ _))]; exact hf)
        (fun s2 h2 => hpre s2 (List.mem_cons_of_mem _ h2))

theorem Parses.opsShape {mode : Mode} {w : List Token} {e : Expr} (h : Parses mode w e) :
    OpsShape mode e := by
  induction h with
  | number t v _ _ => trivial
  | ident t _ => trivial
  | paren l r w e _ _ _ ih => exact ih
  | termStop node => exact fun h => h
  | termMul node t w1 w2 f e _ _ _ ih1 ih2 =>
    exact fun hn => ih2 ⟨Or.inr (Or.inr (Or.inl rfl)), hn, ih1⟩
  | termDiv node t w1 w2 f e _ _ _ ih1 ih2 =>
    exact fun hn => ih2 ⟨Or.inr (Or.inr (Or.inr rfl)), hn, ih1⟩
  | term w1 w2 f e _ _ ih1 ih2 => exact ih2 ih1
  | exprStop node => exact fun h => h
  | exprPlus node t w1 w2 f e _ _ _ ih1 ih2 =>
    exact fun hn => ih2 ⟨Or.inl rfl, hn, ih1⟩
  | exprMinus node t w1 w2 f e _ _ _ ih1 ih2 =>
    exact fun hn => ih2 ⟨Or.inr (Or.inl rfl), hn, ih1⟩
  | expr w1 w2 f e _ _ ih1 ih2 => exact ih2 ih1

theorem ParsesStmts.opsValid {w : List Token} {ss : List Stmt} (h : ParsesStmts w ss) :
    ∀ s ∈ ss, s.expr.opsValid := by
  induction h with
  | nil => simp
  | semi t w ss _ _ ih => exact ih
  | letStmt tl id ta ts w w2 e ss _ _ _ hw _ _ ih =>
    intro s hs
    rcases List.mem_cons.mp hs with rfl | hs
    · exact hw.opsShape
    · exact ih s hs
  | printStmt tp ts w w2 e ss _ hw _ _ ih =>
    intro s hs
    rcases List.mem_cons.mp hs with rfl | hs
    · exact hw.opsShape
    · exact ih s hs

theorem keywords_append (a b : List Token) : keywords (a ++ b) = keywords a ++ keywords b := by
  simp [keywords]

theorem keywords_cons (t : Token) (w : List Token) :
    keywords (t :: w) = if t.kind.isKeyword then t.kind :: keywords w else keywords w := by
  simp only [keywords, List.map_cons, List.filter_cons]

theorem keywords_length (toks : List Token) :
    (keywords toks).length = toks.countP (fun t => t.kind.isKeyword) := by
  induction toks with
  | nil => rfl
  | cons t w ih =>
    rw [keywords_cons, List.countP_cons]
    cases h : t.kind.isKeyword <;> simp [ih]

theorem keywords_expr {mode : Mode} {w : List Token} {e : Expr} (h : Parses mode w e) :
    keywords w = [] := by
  simp only [keywords, List.filter_eq_nil_iff, List.mem_map]
  rintro k ⟨t, ht, rfl⟩
  have := h.kinds t ht
  revert this
  cases t.kind <;> simp [TokenKind.inExpr, TokenKind.isKeyword]

/-- The statements the loop appends are, in order, those of the keywords it
consumed. -/
theorem ParsesStmts.keywords_eq {w : List Token} {ss : List Stmt} (h : ParsesStmts w ss) :
    ss.map Stmt.keyword = Minicomp.keywords w := by
  induction h with
  | nil => rfl
  | semi t w ss hk _ ih =>
    rw [keywords_cons, ih]
    simp [hk, TokenKind.isKeyword]
  | letStmt tl id ta ts w w2 e ss hl hi ha hw hs _ ih =>
    have h1 : Minicomp.keywords (tl :: id :: ta :: w ++ ts :: w2) =
        Minicomp.keywords [tl, id, ta] ++ Minicomp.keywords w ++ Minicomp.keywords [ts] ++
          Minicomp.keywords w2 := by
      simp only [← keywords_append]
      simp
    rw [h1, keywords_expr hw, ← ih]
    simp [Minicomp.keywords, hl, hi, ha, hs, TokenKind.isKeyword, Stmt.keyword]
  | printStmt tp ts w w2 e ss hp hw hs _ ih =>
    have h1 : Minicomp.keywords (tp :: w ++ ts :: w2) =
        Minicomp.keywords [tp] ++ Minicomp.keywords w ++ Minicomp.keywords [ts] ++
          Minicomp.keywords w2 := by
      simp only [← keywords_append]
      simp
    rw [h1, keywords_expr hw, ← ih]
    simp [Minicomp.keywords, hp, hs, TokenKind.isKeyword, Stmt.keyword]

/-- A successful `parseAll` on tokens that end with the only `TK_EOF` consumed
all the tokens before it in whole statements. -/
theorem Parser.parseAll_whole {body : List Token} {eof : Token} {stmts : List Stmt}
    (heof : eof.kind = .TK_EOF) (hno : ∀ t ∈ body, t.kind ≠ .TK_EOF)
    (h : Parser.parseAll (body ++ [eof]) = .ok stmts) : ParsesStmts body stmts := by
  obtain ⟨w, eof2, rest, heq, heof2, hss⟩ := Parser.parseAll_sound h
  obtain ⟨hw, _, _⟩ := eof_split_unique heq heof heof2 hno hss.no_eof
  rw [hw]
  exact hss

/-- The token list the constructor builds: tokens other than `TK_EOF`, then
one `TK_EOF`. -/
theorem Parser.tokens_shape (src : List Char) :
    ∃ body, Parser.Parser src = some (body ++ [⟨.TK_EOF, []⟩]) ∧
      ∀ t ∈ body, t.kind ≠ .TK_EOF :=
  Parser.lexLoop_total (src.length + 1) src (Nat.lt_succ_self _)

theorem arith_append (a b : List Instr) : arith (a ++ b) = arith a ++ arith b := by
  simp [arith]

/-- The folder folds two `i32` operands exactly when both are constants, and
to a constant. -/
theorem ConstantFolder.FoldBinOp_spec (op : BinOp) (l r : Val) (hl : l.isInt = true)
    (hr : r.isInt = true) :
    (l.isIntConst = true ∧ r.isIntConst = true ∧
      ∃ v, ConstantFolder.FoldBinOp op l r = some v ∧ v.isIntConst = true) ∨
    ((l.isIntConst = false ∨ r.isIntConst = false) ∧ ConstantFolder.FoldBinOp op l r = none) := by
  cases l <;> cases r <;>
    simp [ConstantFolder.FoldBinOp, Val.isIntConst, Val.isInt] at hl hr ⊢
  split <;> simp [Val.isIntConst]

/-- The last step of `compileExpr` on a binary node. -/
theorem LLVMCompiler.compileExpr_binary (c c3 : LLVMCompiler) (op : Char) (lhs rhs : Expr)
    (v : Val) (h : c.compileExpr (.BinaryExpr op lhs rhs) = .ok (v, c3)) :
    ∃ l c1 r c2 bop, c.compileExpr lhs = .ok (l, c1) ∧ c1.compileExpr rhs = .ok (r, c2) ∧
      opcode op = some bop ∧
      ((ConstantFolder.FoldBinOp bop l r = some v ∧ c3 = c2) ∨
       (ConstantFolder.FoldBinOp bop l r = none ∧ v = .inst c2.nextId ∧
        c3 = { c2 with entry := c2.entry ++ [.binop c2.nextId bop l r],
                       nextId := c2.nextId + 1 })) := by
  simp only [LLVMCompiler.compileExpr] at h
  cases hl : c.compileExpr lhs with
  | error err => rw [hl] at h; simp at h
  | ok p1 =>
    obtain ⟨l, c1⟩ := p1
    rw [hl] at h
    simp only at h
    cases hr : c1.compileExpr rhs with
    | error err => rw [hr] at h; simp at h
    | ok p2 =>
      obtain ⟨r, c2⟩ := p2
      rw [hr] at h
      simp only at h
      have key : ∀ bop, opcode op = some bop → (v, c3) = c2.CreateBinOp bop l r →
          ∃ l1 c11 r1 c21 bop1,
            (Except.ok (l, c1) : Except CompileError (Val × LLVMCompiler)) = .ok (l1, c11) ∧
            c11.compileExpr rhs = .ok (r1, c21) ∧
            opcode op = some bop1 ∧
            ((ConstantFolder.FoldBinOp bop1 l1 r1 = some v ∧ c3 = c21) ∨
             (ConstantFolder.FoldBinOp bop1 l1 r1 = none ∧ v = .inst c21.nextId ∧
              c3 = { c21 with entry := c21.entry ++ [.binop c21.nextId bop1 l1 r1],
                              nextId := c21.nextId + 1 })) := by
        intro bop hop hc
        refine ⟨l, c1, r, c2, bop, rfl, hr, hop, ?_⟩
        unfold LLVMCompiler.CreateBinOp at hc
        cases hf : ConstantFolder.FoldBinOp bop l r with
        | some v1 =>
          rw [hf] at hc
          simp only [Prod.mk.injEq] at hc
          exact Or.inl ⟨by rw [hc.1], hc.2⟩
        | none =>
          rw [hf] at hc
          simp only [Prod.mk.injEq] at hc
          exact Or.inr ⟨rfl, hc.1, hc.2⟩
      split_ifs at h with h1 h2 h3 h4
      · exact key .add (by simp [opcode, h1]) (Except.ok.inj h).symm
      · exact key .sub (by simp [opcode, h1, h2]) (Except.ok.inj h).symm
      · exact key .mul (by simp [opcode, h1, h2, h3]) (Except.ok.inj h).symm
      · exact key .sdiv (by simp [opcode, h1, h2, h3, h4]) (Except.ok.inj h).symm

/-- `compileExpr` appends to the block; the value is a constant exactly when
the expression references no variable, and the arithmetic instructions
appended are as many as the binary nodes with a variable below them. -/
theorem LLVMCompiler.compileExpr_arith (e : Expr) :
    ∀ (c c1 : LLVMCompiler) (v : Val), c.compileExpr e = .ok (v, c1) →
      v.isInt = true ∧ v.isIntConst = !e.hasVar ∧
      ∃ new, c1.entry = c.entry ++ new ∧ (arith new).length = e.arithCount := by
  induction e with
  | NumberExpr value =>
    intro c c1 v h
    simp only [LLVMCompiler.compileExpr, Except.ok.injEq, Prod.mk.injEq] at h
    obtain ⟨rfl, rfl⟩ := h
    exact ⟨rfl, rfl, [], by simp, rfl⟩
  | VarExpr name =>
    intro c c1 v h
    simp only [LLVMCompiler.compileExpr] at h
    cases hf : c.find name with
    | none => rw [hf] at h; simp at h
    | some slot =>
      rw [hf] at h
      simp only [LLVMCompiler.CreateLoad, Except.ok.injEq, Prod.mk.injEq] at h
      obtain ⟨rfl, rfl⟩ := h
      exact ⟨rfl, rfl, [.load c.nextId slot name], rfl, rfl⟩
  | BinaryExpr op lhs rhs ihl ihr =>
    intro c c3 v h
    obtain ⟨l, c1, r, c2, bop, hl, hr, _, hcase⟩ := c.compileExpr_binary c3 op lhs rhs v h
    obtain ⟨l1, l2, n1, hn1, hc1⟩ := ihl c c1 l hl
    obtain ⟨r1, r2, n2, hn2, hc2⟩ := ihr c1 c2 r hr
    rcases ConstantFolder.FoldBinOp_spec bop l r l1 r1 with
      ⟨hlc, hrc, v1, hv1, hv1c⟩ | ⟨hnc, hnone⟩
    · rcases hcase with ⟨hf, rfl⟩ | ⟨hf, _, _⟩
      · rw [hv1, Option.some.injEq] at hf
        subst hf
        rw [l2] at hlc
        rw [r2] at hrc
        simp only [Bool.not_eq_true'] at hlc hrc
        refine ⟨by cases v1 <;> simp [Val.isIntConst, Val.isInt] at hv1c ⊢,
          by simp [Expr.hasVar, hlc, hrc, hv1c], n1 ++ n2, by rw [hn2, hn1]; simp, ?_⟩
        simp [arith_append, hc1, hc2, Expr.arithCount, hlc, hrc]
      · rw [hv1] at hf; simp at hf
    · rcases hcase with ⟨hf, _⟩ | ⟨_, rfl, rfl⟩
      · rw [hnone] at hf; simp at hf
      · have hv : (lhs.hasVar || rhs.hasVar) = true := by
          rw [l2, r2] at hnc
          simpa using hnc
        refine ⟨rfl, by simp [Val.isIntConst, Expr.hasVar, hv],
          n1 ++ n2 ++ [.binop c2.nextId bop l r], by simp [hn2, hn1], ?_⟩
        simp only [arith_append, List.length_append, hc1, hc2, Expr.arithCount, hv, if_true]
        simp [arith, Instr.isArith]

theorem Lexer.scan_all (p : Char → Bool) (l : List Char) (h : ∀ c ∈ l, p c = true) :
    Lexer.scan p l = (l, []) := by
  induction l with
  | nil => rfl
  | cons c r ih =>
    have hc := h c (List.mem_cons_self _ _)
    have hr := ih (fun d hd => h d (List.mem_cons_of_mem _ hd))
    simp [Lexer.scan, hc, hr]

theorem isdigit_not_special (c : Char) (h : isdigit c = true) :
    isspace c = false ∧ c ≠ '-' ∧ c ≠ '+' := by
  simp only [isdigit, Bool.and_eq_true, decide_eq_true_eq] at h
  refine ⟨?_, ?_, ?_⟩
  · simp only [isspace, Bool.or_eq_false_iff, beq_eq_false_iff_ne, ne_eq, Bool.and_eq_false_iff,
      decide_eq_false_iff_not]
    omega
  · rintro rfl
    simp at h
  · rintro rfl
    simp at h

/-- `stoi` on a run of digits: the decimal value when it fits in `int`,
`out_of_range` otherwise. -/
theorem stoi_digits (text : List Char) (hne : text ≠ []) (hd : ∀ c ∈ text, isdigit c = true) :
    stoi text = if decimalValue text ≤ 2147483647 then .ok (decimalValue text : Int)
      else .fail .stoiOutOfRange := by
  cases text with
  | nil => exact absurd rfl hne
  | cons c r =>
    obtain ⟨h1, h2, h3⟩ := isdigit_not_special c (hd c (List.mem_cons_self _ _))
    have hs : Lexer.skip_ws (c :: r) = c :: r := by simp [Lexer.skip_ws, h1]
    have hb1 : (c == '-') = false := by simpa using h2
    have hb2 : (c == '+') = false := by simpa using h3
    have hsc := Lexer.scan_all isdigit (c :: r) hd
    by_cases hle : decimalValue (c :: r) ≤ 2147483647
    · have h6 : ¬((decimalValue (c :: r) : Int) < -2147483648 ∨
          2147483647 < (decimalValue (c :: r) : Int)) := by omega
      simp [stoi, hs, Lexer.peek, hb1, hb2, hsc, hle]
      omega
    · have h6 : (decimalValue (c :: r) : Int) < -2147483648 ∨
          2147483647 < (decimalValue (c :: r) : Int) := by omega
      simp [stoi, hs, Lexer.peek, hb1, hb2, hsc, hle, h6]

theorem Token.fitsInt.stoi {t : Token} (h : t.fitsInt) :
    Minicomp.stoi t.text = .ok (decimalValue t.text : Int) := by
  rw [stoi_digits t.text h.1 h.2.1, if_pos h.2.2]

/-- Every sentence of the grammar whose literals fit is read by the parser. -/
theorem Gram.parses {nt : NT} {w : List Token} (h : Gram nt w) :
    LiteralsFit w → GramTarget nt w := by
  induction h with
  | number t hk =>
    intro hfit
    exact ⟨_, .number t _ hk (hfit t (List.mem_singleton_self _) hk).stoi⟩
  | ident t hk => intro _; exact ⟨_, .ident t hk⟩
  | paren l r w hl _ hr ih =>
    intro hfit
    obtain ⟨e, he⟩ := ih (fun t ht => hfit t (by simp [ht]))
    exact ⟨e, .paren l r w e hl he hr⟩
  | termTailNil => intro _ node; exact ⟨node, .termStop node⟩
  | termTailCons op w1 w2 hop _ _ ih1 ih2 =>
    intro hfit node
    obtain ⟨f, hf⟩ := ih1 (fun t ht => hfit t (by simp [ht]))
    simp only [TokenKind.isMulOp, Bool.or_eq_true, decide_eq_true_eq] at hop
    rcases hop with hk | hk
    · obtain ⟨e, he⟩ := ih2 (fun t ht => hfit t (by simp [ht])) (.BinaryExpr '*' node f)
      exact ⟨e, .termMul node op w1 w2 f e hk hf he⟩
    · obtain ⟨e, he⟩ := ih2 (fun t ht => hfit t (by simp [ht])) (.BinaryExpr '/' node f)
      exact ⟨e, .termDiv node op w1 w2 f e hk hf he⟩
  | term w1 w2 _ _ ih1 ih2 =>
    intro hfit
    obtain ⟨f, hf⟩ := ih1 (fun t ht => hfit t (by simp [ht]))
    obtain ⟨e, he⟩ := ih2 (fun t ht => hfit t (by simp [ht])) f
    exact ⟨e, .term w1 w2 f e hf he⟩
  | exprTailNil => intro _ node; exact ⟨node, .exprStop node⟩
  | exprTailCons op w1 w2 hop _ _ ih1 ih2 =>
    intro hfit node
    obtain ⟨f, hf⟩ := ih1 (fun t ht => hfit t (by simp [ht]))
    simp only [TokenKind.isAddOp, Bool.or_eq_true, decide_eq_true_eq] at hop
    rcases hop with hk | hk
    · obtain ⟨e, he⟩ := ih2 (fun t ht => hfit t (by simp [ht])) (.BinaryExpr '+' node f)
      exact ⟨e, .exprPlus node op w1 w2 f e hk hf he⟩
    · obtain ⟨e, he⟩ := ih2 (fun t ht => hfit t (by simp [ht])) (.BinaryExpr '-' node f)
      exact ⟨e, .exprMinus node op w1 w2 f e hk hf he⟩
  | expr w1 w2 _ _ ih1 ih2 =>
    intro hfit
    obtain ⟨f, hf⟩ := ih1 (fun t ht => hfit t (by simp [ht]))
    obtain ⟨e, he⟩ := ih2 (fun t ht => hfit t (by simp [ht])) f
    exact ⟨e, .expr w1 w2 f e hf he⟩
  | letStmt tl id ta ts w hl hi ha _ hs ih =>
    intro hfit w2 ss hss
    obtain ⟨e, he⟩ := ih (fun t ht => hfit t (by simp [ht]))
    exact ⟨_, by simpa using ParsesStmts.letStmt tl id ta ts w w2 e ss hl hi ha he hs hss⟩
  | printStmt tp ts w hp _ hs ih =>
    intro hfit w2 ss hss
    obtain ⟨e, he⟩ := ih (fun t ht => hfit t (by simp [ht]))
    exact ⟨_, by simpa using ParsesStmts.printStmt tp ts w w2 e ss hp he hs hss⟩
  | semiStmt t hk =>
    intro _ w2 ss hss
    exact ⟨ss, .semi t w2 ss hk hss⟩
  | programNil => intro _; exact ⟨[], .nil⟩
  | programCons w1 w2 _ _ ih1 ih2 =>
    intro hfit
    obtain ⟨ss, hss⟩ := ih2 (fun t ht => hfit t (by simp [ht]))
    exact ih1 (fun t ht => hfit t (by simp [ht])) w2 ss hss

/-- Everything a function of the parser reads is a sentence of its
nonterminal. -/
theorem Parses.gram {mode : Mode} {w : List Token} {e : Expr} (h : Parses mode w e) :
    Gram mode.nt w := by
  induction h with
  | number t v hk _ => exact .number t hk
  | ident t hk => exact .ident t hk
  | paren l r w e hl _ hr ih => exact .paren l r w hl ih hr
  | termStop node => exact .termTailNil
  | termMul node t w1 w2 f e hk _ _ ih1 ih2 =>
    exact .termTailCons t w1 w2 (by simp [TokenKind.isMulOp, hk]) ih1 ih2
  | termDiv node t w1 w2 f e hk _ _ ih1 ih2 =>
    exact .termTailCons t w1 w2 (by simp [TokenKind.isMulOp, hk]) ih1 ih2
  | term w1 w2 f e _ _ ih1 ih2 => exact .term w1 w2 ih1 ih2
  | exprStop node => exact .exprTailNil
  | exprPlus node t w1 w2 f e hk _ _ ih1 ih2 =>
    exact .exprTailCons t w1 w2 (by simp [TokenKind.isAddOp, hk]) ih1 ih2
  | exprMinus node t w1 w2 f e hk _ _ ih1 ih2 =>
    exact .exprTailCons t w1 w2 (by simp [TokenKind.isAddOp, hk]) ih1 ih2
  | expr w1 w2 f e _ _ ih1 ih2 => exact .expr w1 w2 ih1 ih2

theorem ParsesStmts.program_gram {w : List Token} {ss : List Stmt} (h : ParsesStmts w ss) :
    Gram .program w := by
  induction h with
  | nil => exact .programNil
  | semi t w ss hk _ ih => exact .programCons [t] w (.semiStmt t hk) ih
  | letStmt tl id ta ts w w2 e ss hl hi ha hw hs _ ih =>
    have := Gram.programCons _ w2 (.letStmt tl id ta ts w hl hi ha hw.gram hs) ih
    simpa using this
  | printStmt tp ts w w2 e ss hp hw hs _ ih =>
    have := Gram.programCons _ w2 (.printStmt tp ts w hp hw.gram hs) ih
    simpa using this

theorem Res.bind_eq_fail {α β : Type} {A : Res α} {f : α → Res β} {e : ParseError}
    (h : A.bind f = .fail e) : A = .fail e ∨ ∃ a, A = .ok a ∧ f a = .fail e := by
  cases A with
  | ok a => exact Or.inr ⟨a, rfl, by simpa using h⟩
  | fail e1 => left; simpa using h
  | fuel => simp at h

theorem HasEof.tail {t : Token} {rest : List Token} (h : HasEof (t :: rest))
    (ht : t.kind ≠ .TK_EOF) : HasEof rest := by
  obtain ⟨x, hx, hk⟩ := h
  rcases List.mem_cons.mp hx with rfl | hx
  · exact absurd hk ht
  · exact ⟨x, hx, hk⟩

theorem HasEof.of_consumed {w rest : List Token} (hw : ∀ t ∈ w, t.kind.inExpr = true)
    (h : HasEof (w ++ rest)) : HasEof rest := by
  obtain ⟨x, hx, hk⟩ := h
  rcases List.mem_append.mp hx with hx | hx
  · have := hw x hx
    rw [hk] at this
    exact absurd this (by decide)
  · exact ⟨x, hx, hk⟩

theorem stoi_in_bounds (text : List Char) : stoi text ≠ .fail .outOfBounds := by
  simp only [stoi]
  split_ifs <;> simp

theorem Parser.expect_in_bounds {k : TokenKind} {toks : List Token} (h : HasEof toks) :
    Parser.expect k toks ≠ .fail .outOfBounds := by
  cases toks with
  | nil => obtain ⟨x, hx, _⟩ := h; simp at hx
  | cons t r => simp only [Parser.expect]; split_ifs <;> simp

theorem Parser.expect_hasEof {k : TokenKind} {toks rest : List Token} (hk : k ≠ .TK_EOF)
    (h : HasEof toks) (hx : Parser.expect k toks = .ok rest) : HasEof rest := by
  obtain ⟨t, rfl, htk⟩ := Parser.expect_eq_ok hx
  exact h.tail (by rw [htk]; exact hk)

theorem parseFactorF_hasEof {n : Nat} {toks rest : List Token} {e : Expr}
    (h : parseFactorF n toks = .ok (e, rest)) (he : HasEof toks) : HasEof rest := by
  obtain ⟨w, rfl, hw⟩ := (parse_sound n).1 toks e rest h
  exact HasEof.of_consumed hw.kinds he

theorem parseTermF_hasEof {n : Nat} {toks rest : List Token} {e : Expr}
    (h : parseTermF n toks = .ok (e, rest)) (he : HasEof toks) : HasEof rest := by
  obtain ⟨w, rfl, hw, _⟩ := (parse_sound n).2.2.1 toks e rest h
  exact HasEof.of_consumed hw.kinds he

theorem parseExprF_hasEof {n : Nat} {toks rest : List Token} {e : Expr}
    (h : parseExprF n toks = .ok (e, rest)) (he : HasEof toks) : HasEof rest := by
  obtain ⟨w, rfl, hw, _⟩ := (parse_sound n).2.2.2.2 toks e rest h
  exact HasEof.of_consumed hw.kinds he

/-- On a token vector that holds a `TK_EOF` from the cursor on, no function of
the expression parser reads past the end. -/
theorem parse_in_bounds (n : Nat) :
    (∀ toks, HasEof toks → parseFactorF n toks ≠ .fail .outOfBounds) ∧
    (∀ node toks, HasEof toks → parseTermLoopF n node toks ≠ .fail .outOfBounds) ∧
    (∀ toks, HasEof toks → parseTermF n toks ≠ .fail .outOfBounds) ∧
    (∀ node toks, HasEof toks → parseExprLoopF n node toks ≠ .fail .outOfBounds) ∧
    (∀ toks, HasEof toks → parseExprF n toks ≠ .fail .outOfBounds) := by
  induction n with
  | zero => simp [parseFactorF, parseTermLoopF, parseTermF, parseExprLoopF, parseExprF]
  | succ n ih =>
    obtain ⟨ihF, ihTL, ihT, ihEL, ihE⟩ := ih
    refine ⟨?_, ?_, ?_, ?_, ?_⟩
    · intro toks he h
      cases toks with
      | nil => obtain ⟨x, hx, _⟩ := he; simp at hx
      | cons t rest =>
        rw [parseFactorF_succ] at h
        split_ifs at h with h1 h2 h3
        · rcases Res.bind_eq_fail h with h4 | ⟨v, _, h4⟩
          · exact stoi_in_bounds _ h4
          · simp at h4
        · have her : HasEof rest := he.tail (by rw [h3]; decide)
          rcases Res.bind_eq_fail h with h4 | ⟨r, hr, h4⟩
          · exact ihE rest her h4
          · rcases Res.bind_eq_fail h4 with h5 | ⟨r2, _, h5⟩
            · exact Parser.expect_in_bounds (parseExprF_hasEof hr her) h5
            · simp at h5
        · simp at h
    · intro node toks he h
      cases toks with
      | nil => obtain ⟨x, hx, _⟩ := he; simp at hx
      | cons t rest =>
        rw [parseTermLoopF_succ] at h
        split_ifs at h with h1 h2
        · have her : HasEof rest := he.tail (by rw [h1]; decide)
          rcases Res.bind_eq_fail h with h4 | ⟨r, hr, h4⟩
          · exact ihF rest her h4
          · exact ihTL _ _ (parseFactorF_hasEof hr her) h4
        · have her : HasEof rest := he.tail (by rw [h2]; decide)
          rcases Res.bind_eq_fail h with h4 | ⟨r, hr, h4⟩
          · exact ihF rest her h4
          · exact ihTL _ _ (parseFactorF_hasEof hr her) h4
    · intro toks he h
      rw [parseTermF_succ] at h
      rcases Res.bind_eq_fail h with h4 | ⟨r, hr, h4⟩
      · exact ihF toks he h4
      · exact ihTL _ _ (parseFactorF_hasEof hr he) h4
    · intro node toks he h
      cases toks with
      | nil => obtain ⟨x, hx, _⟩ := he; simp at hx
      | cons t rest =>
        rw [parseExprLoopF_succ] at h
        split_ifs at h with h1 h2
        · have her : HasEof rest := he.tail (by rw [h1]; decide)
          rcases Res.bind_eq_fail h with h4 | ⟨r, hr, h4⟩
          · exact ihT rest her h4
          · exact ihEL _ _ (parseTermF_hasEof hr her) h4
        · have her : HasEof rest := he.tail (by rw [h2]; decide)
          rcases Res.bind_eq_fail h with h4 | ⟨r, hr, h4⟩
          · exact ihT rest her h4
          · exact ihEL _ _ (parseTermF_hasEof hr her) h4
    · intro toks he h
      rw [parseExprF_succ] at h
      rcases Res.bind_eq_fail h with h4 | ⟨r, hr, h4⟩
      · exact ihT toks he h4
      · exact ihEL _ _ (parseTermF_hasEof hr he) h4

/-- On a token vector that holds a `TK_EOF` from the cursor on, the loop of
`parseAll` does not read past the end. -/
theorem parseAllF_in_bounds (n : Nat) :
    ∀ out toks, HasEof toks → parseAllF n out toks ≠ .fail .outOfBounds := by
  induction n with
  | zero => intro out toks _; simp [parseAllF]
  | succ n ih =>
    intro out toks he h
    cases toks with
    | nil => obtain ⟨x, hx, _⟩ := he; simp at hx
    | cons t rest =>
      rw [parseAllF_succ] at h
      unfold parseAllBody at h
      split_ifs at h with h1 h2 h3 h4
      · have her : HasEof rest := he.tail h1
        cases rest with
        | nil => obtain ⟨x, hx, _⟩ := her; simp at hx
        | cons id rest1 =>
          simp only at h
          split_ifs at h with h5
          · simp at h
          · have h5 : id.kind = .TK_IDENT := by simpa using h5
            have her1 : HasEof rest1 := her.tail (by rw [h5]; decide)
            rcases Res.bind_eq_fail h with h6 | ⟨rest2, hx2, h6⟩
            · exact Parser.expect_in_bounds her1 h6
            · have her2 := Parser.expect_hasEof (k := .TK_ASSIGN) (by decide) her1 hx2
              rcases Res.bind_eq_fail h6 with h7 | ⟨r, hr, h7⟩
              · exact (parse_in_bounds _).2.2.2.2 rest2 her2 h7
              · have her3 := parseExprF_hasEof hr her2
                rcases Res.bind_eq_fail h7 with h8 | ⟨rest3, hx3, h8⟩
                · exact Parser.expect_in_bounds her3 h8
                · exact ih _ _ (Parser.expect_hasEof (k := .TK_SEMI) (by decide) her3 hx3) h8
      · have her : HasEof rest := he.tail h1
        rcases Res.bind_eq_fail h with h7 | ⟨r, hr, h7⟩
        · exact (parse_in_bounds _).2.2.2.2 rest her h7
        · have her3 := parseExprF_hasEof hr her
          rcases Res.bind_eq_fail h7 with h8 | ⟨rest3, hx3, h8⟩
          · exact Parser.expect_in_bounds her3 h8
          · exact ih _ _ (Parser.expect_hasEof (k := .TK_SEMI) (by decide) her3 hx3) h8
      · exact ih _ _ (he.tail h1) h
      · simp at h

theorem Parser.parseAll_in_bounds (toks : List Token) (h : HasEof toks) :
    Parser.parseAll toks ≠ .fail .outOfBounds :=
  parseAllF_in_bounds _ [] toks h

/-! ## The branches of `Lexer::next` -/

theorem Lexer.skip_ws_head {l : List Char} {c : Char} {r : List Char}
    (h : Lexer.skip_ws l = c :: r) : isspace c = false := by
  induction l with
  | nil => simp [Lexer.skip_ws] at h
  | cons d l ih =>
    simp only [Lexer.skip_ws] at h
    split_ifs at h with hd
    · exact ih h
    · simp only [List.cons.injEq] at h
      rw [← h.1]
      simpa using hd

/-- The run of a scan is maximal: it is a prefix of the input, all of its
characters pass the test, and the character after it does not. -/
theorem Lexer.scan_spec (p : Char → Bool) (l : List Char) :
    l = (Lexer.scan p l).1 ++ (Lexer.scan p l).2 ∧
    (∀ d ∈ (Lexer.scan p l).1, p d = true) ∧
    (∀ d rest, (Lexer.scan p l).2 = d :: rest → p d = false) := by
  induction l with
  | nil => simp [Lexer.scan]
  | cons c r ih =>
    simp only [Lexer.scan]
    split_ifs with h
    · obtain ⟨h1, h2, h3⟩ := ih
      refine ⟨by simpa using h1, ?_, h3⟩
      intro d hd
      rcases List.mem_cons.mp hd with rfl | hd
      · exact h
      · exact h2 d hd
    · refine ⟨by simp, by simp, ?_⟩
      intro d rest hd
      simp only [List.cons.injEq] at hd
      rw [← hd.1]
      simpa using h

theorem Lexer.scan_ne_nil (p : Char → Bool) (c : Char) (r : List Char) (h : p c = true) :
    (Lexer.scan p (c :: r)).1 ≠ [] := by
  simp [Lexer.scan, h]

theorem isalpha_facts (c : Char) (h : isalpha c = true ∨ c = '_') :
    c ≠ NUL ∧ isIdentChar c = true ∧ isspace c = false := by
  rcases h with h | rfl
  · refine ⟨?_, by simp [isIdentChar, isalnum, h], ?_⟩
    · rintro rfl
      exact absurd h (by decide)
    · simp only [isalpha, Bool.or_eq_true, Bool.and_eq_true, decide_eq_true_eq] at h
      simp only [isspace, Bool.or_eq_false_iff, beq_eq_false_iff_ne, ne_eq,
        Bool.and_eq_false_iff, decide_eq_false_iff_not]
      omega
  · exact ⟨by decide, by decide, by decide⟩

theorem isdigit_facts (c : Char) (h : isdigit c = true) :
    c ≠ NUL ∧ isalpha c = false ∧ c ≠ '_' ∧ isIdentChar c = true := by
  refine ⟨?_, ?_, ?_, by simp [isIdentChar, isalnum, h]⟩
  · rintro rfl
    exact absurd h (by decide)
  · simp only [isdigit, Bool.and_eq_true, decide_eq_true_eq] at h
    simp only [isalpha, Bool.or_eq_false_iff, Bool.and_eq_false_iff, decide_eq_false_iff_not]
    omega
  · rintro rfl
    exact absurd h (by decide)

theorem Lexer.next_nil {l : List Char} (h : Lexer.skip_ws l = []) :
    Lexer.next l = (⟨.TK_EOF, []⟩, []) := by
  simp [Lexer.next, h, Lexer.peek]

theorem Lexer.next_nul {l r : List Char} (h : Lexer.skip_ws l = NUL :: r) :
    Lexer.next l = (⟨.TK_EOF, []⟩, NUL :: r) := by
  simp [Lexer.next, h, Lexer.peek]

theorem Lexer.next_word {l : List Char} {c : Char} {r : List Char}
    (h : Lexer.skip_ws l = c :: r) (hc : isalpha c = true ∨ c = '_') :
    Lexer.next l = (⟨Lexer.wordKind (Lexer.scan isIdentChar (c :: r)).1,
      (Lexer.scan isIdentChar (c :: r)).1⟩, (Lexer.scan isIdentChar (c :: r)).2) := by
  have hn := (isalpha_facts c hc).1
  have hb : (isalpha c || c == '_') = true := by
    rcases hc with hc | rfl
    · simp [hc]
    · simp
  simp only [Lexer.next, h, Lexer.peek, hn, if_false, hb, if_true, Lexer.wordKind]
  split_ifs <;> rfl

theorem Lexer.next_number {l : List Char} {c : Char} {r : List Char}
    (h : Lexer.skip_ws l = c :: r) (hc : isdigit c = true) :
    Lexer.next l = (⟨.TK_NUMBER, (Lexer.scan isdigit (c :: r)).1⟩,
      (Lexer.scan isdigit (c :: r)).2) := by
  obtain ⟨hn, ha, hu, _⟩ := isdigit_facts c hc
  have hb : (isalpha c || c == '_') = false := by simp [ha, hu]
  simp [Lexer.next, h, Lexer.peek, hn, hb, hc]

theorem Lexer.next_punct {l : List Char} {c : Char} {r : List Char}
    (h : Lexer.skip_ws l = c :: r) (hn : c ≠ NUL) (ha : isalpha c = false) (hu : c ≠ '_')
    (hd : isdigit c = false) : Lexer.next l = (Lexer.punct c, r) := by
  have hb : (isalpha c || c == '_') = false := by simp [ha, hu]
  simp [Lexer.next, h, Lexer.peek, hn, hb, hd, Lexer.get]

theorem Lexer.punct_text (c : Char) : (Lexer.punct c).text = [c] := by
  unfold Lexer.punct
  split_ifs with h1 h2 h3 h4 h5 h6 h7 h8 <;> simp [*]

theorem Lexer.punct_not_word (c : Char) :
    (Lexer.punct c).kind ≠ .TK_IDENT ∧ (Lexer.punct c).kind ≠ .TK_LET ∧
    (Lexer.punct c).kind ≠ .TK_PRINT ∧ (Lexer.punct c).kind ≠ .TK_NUMBER := by
  unfold Lexer.punct
  split_ifs <;> simp

theorem Lexer.punct_unknown (c : Char) (h : Lexer.isPunct c = false) :
    Lexer.punct c = ⟨.TK_UNKNOWN, [c]⟩ := by
  simp only [Lexer.isPunct, Bool.or_eq_false_iff, decide_eq_false_iff_not] at h
  obtain ⟨⟨⟨⟨⟨⟨⟨h1, h2⟩, h3⟩, h4⟩, h5⟩, h6⟩, h7⟩, h8⟩ := h
  simp [Lexer.punct, h1, h2, h3, h4, h5, h6, h7, h8]

theorem Lexer.punct_known (c : Char) (h : Lexer.isPunct c = true) :
    (Lexer.punct c).kind ≠ .TK_UNKNOWN := by
  unfold Lexer.punct
  split_ifs with h1 h2 h3 h4 h5 h6 h7 h8 <;> simp
  simp [Lexer.isPunct, h1, h2, h3, h4, h5, h6, h7, h8] at h

theorem Lexer.wordKind_cases (run : List Char) :
    (run = "let".toList ∧ Lexer.wordKind run = .TK_LET) ∨
    (run = "print".toList ∧ Lexer.wordKind run = .TK_PRINT) ∨
    (run ≠ "let".toList ∧ run ≠ "print".toList ∧ Lexer.wordKind run = .TK_IDENT) := by
  unfold Lexer.wordKind
  by_cases h1 : run = "let".toList
  · left
    simp [h1]
  · by_cases h2 : run = "print".toList
    · right; left
      refine ⟨h2, ?_⟩
      rw [if_neg h1, if_pos h2]
    · right; right
      exact ⟨h1, h2, by rw [if_neg h1, if_neg h2]⟩

/-- The kind of the token `Lexer::next` returns is `TK_IDENT` only in the
identifier branch, with a word that is no keyword. -/
theorem Lexer.next_ident (l : List Char) (h : (Lexer.next l).1.kind = .TK_IDENT) :
    (Lexer.next l).1.text ≠ "let".toList ∧ (Lexer.next l).1.text ≠ "print".toList := by
  cases hs : Lexer.skip_ws l with
  | nil =>
    rw [Lexer.next_nil hs] at h
    exact absurd h (by decide)
  | cons c r =>
    by_cases hn : c = NUL
    · subst hn
      rw [Lexer.next_nul hs] at h
      simp at h
    · by_cases ha : isalpha c = true ∨ c = '_'
      · rw [Lexer.next_word hs ha] at h ⊢
        dsimp only at h ⊢
        rcases Lexer.wordKind_cases (Lexer.scan isIdentChar (c :: r)).1 with
          ⟨_, hk⟩ | ⟨_, hk⟩ | ⟨h1, h2, _⟩
        · rw [hk] at h
          exact absurd h (by decide)
        · rw [hk] at h
          exact absurd h (by decide)
        · exact ⟨h1, h2⟩
      · have ha1 : isalpha c = false := by
          cases hx : isalpha c
          · rfl
          · exact absurd (Or.inl hx) ha
        have hu : c ≠ '_' := fun hx => ha (Or.inr hx)
        cases hd : isdigit c
        · rw [Lexer.next_punct hs hn ha1 hu hd] at h
          exact absurd h (Lexer.punct_not_word c).1
        · rw [Lexer.next_number hs hd] at h
          simp at h

/-- Every token of the list the constructor loop builds was returned by a
call of `Lexer::next`. -/
theorem Parser.lexLoop_mem (n : Nat) :
    ∀ (l : List Char) (toks : List Token), Parser.lexLoop n l = some toks →
      ∀ t ∈ toks, ∃ l2, t = (Lexer.next l2).1 := by
  induction n with
  | zero => intro l toks h; simp [Parser.lexLoop] at h
  | succ n ih =>
    intro l toks h t ht
    simp only [Parser.lexLoop] at h
    split_ifs at h with hk
    · simp only [Option.some.injEq] at h
      subst h
      exact ⟨l, by simpa using ht⟩
    · cases hr : Parser.lexLoop n (Lexer.next l).2 with
      | none => simp [hr] at h
      | some ts =>
        simp only [hr, Option.map_some', Option.some.injEq] at h
        subst h
        rcases List.mem_cons.mp ht with rfl | ht
        · exact ⟨l, rfl⟩
        · exact ih _ _ hr t ht

/-- What `Lexer::next` does with the cursor, after whitespace, on a letter or
an underscore. -/
theorem Lexer.next_word_spec (l : List Char) (c : Char) (r : List Char)
    (h : Lexer.skip_ws l = c :: r) (hc : isalpha c = true ∨ c = '_') :
    ∃ run rest, c :: r = run ++ rest ∧ run ≠ [] ∧ (∀ d ∈ run, isIdentChar d = true) ∧
      (∀ d rest2, rest = d :: rest2 → isIdentChar d = false) ∧
      Lexer.next l = (⟨if run = "let".toList then .TK_LET
        else if run = "print".toList then .TK_PRINT else .TK_IDENT, run⟩, rest) := by
  obtain ⟨h1, h2, h3⟩ := Lexer.scan_spec isIdentChar (c :: r)
  exact ⟨_, _, h1, Lexer.scan_ne_nil _ c r (isalpha_facts c hc).2.1, h2, h3,
    Lexer.next_word h hc⟩

theorem Parser.tokens_ident (src : List Char) (toks : List Token)
    (h : Parser.Parser src = some toks) (t : Token) (ht : t ∈ toks)
    (hk : t.kind = .TK_IDENT) : t.text ≠ "let".toList ∧ t.text ≠ "print".toList := by
  obtain ⟨l2, rfl⟩ := Parser.lexLoop_mem _ _ _ h t ht
  exact Lexer.next_ident l2 hk

/-- What `Lexer::next` does with the cursor, after whitespace, on a digit: the
token is `TK_NUMBER` with the maximal run of digits as text, however long. -/
theorem Lexer.next_number_spec (l : List Char) (c : Char) (r : List Char)
    (h : Lexer.skip_ws l = c :: r) (hc : isdigit c = true) :
    ∃ run rest, c :: r = run ++ rest ∧ run ≠ [] ∧ (∀ d ∈ run, isdigit d = true) ∧
      (∀ d rest2, rest = d :: rest2 → isdigit d = false) ∧
      Lexer.next l = (⟨.TK_NUMBER, run⟩, rest) := by
  obtain ⟨h1, h2, h3⟩ := Lexer.scan_spec isdigit (c :: r)
  exact ⟨_, _, h1, Lexer.scan_ne_nil _ c r hc, h2, h3, Lexer.next_number h hc⟩

/-- `parseFactor` on a `TK_NUMBER` token whose text is a run of digits. -/
theorem Parser.parseFactor_number (t : Token) (rest : List Token) (hk : t.kind = .TK_NUMBER)
    (hne : t.text ≠ []) (hd : ∀ c ∈ t.text, isdigit c = true) :
    Parser.parseFactor (t :: rest) =
      if decimalValue t.text ≤ 2147483647 then .ok (.NumberExpr (decimalValue t.text), rest)
      else .fail .stoiOutOfRange := by
  rw [Parser.parseFactor_cons, if_pos hk, stoi_digits t.text hne hd]
  split_ifs <;> rfl

/-! ## What the lexer keeps and what it drops -/

theorem Lexer.skip_ws_filter (l : List Char) :
    (Lexer.skip_ws l).filter (fun c => !isspace c) = l.filter (fun c => !isspace c) := by
  induction l with
  | nil => rfl
  | cons c r ih =>
    simp only [Lexer.skip_ws]
    split_ifs with h
    · rw [ih, List.filter_cons_of_neg (by simp [h])]
    · rfl

theorem Lexer.skip_ws_mem (l : List Char) : ∀ x ∈ Lexer.skip_ws l, x ∈ l := by
  induction l with
  | nil => simp [Lexer.skip_ws]
  | cons c r ih =>
    intro x hx
    simp only [Lexer.skip_ws] at hx
    split_ifs at hx with h
    · exact List.mem_cons_of_mem _ (ih x hx)
    · exact hx

theorem Lexer.skip_ws_append (c : Char) (hc : isspace c = false) (s t : List Char) :
    Lexer.skip_ws (s ++ c :: t) = Lexer.skip_ws s ++ c :: t := by
  induction s with
  | nil => simp [Lexer.skip_ws, hc]
  | cons d r ih =>
    simp only [List.cons_append, Lexer.skip_ws]
    split_ifs with h
    · exact ih
    · rfl

theorem Lexer.scan_append (p : Char → Bool) (c : Char) (hc : p c = false) (s t : List Char) :
    Lexer.scan p (s ++ c :: t) = ((Lexer.scan p s).1, (Lexer.scan p s).2 ++ c :: t) := by
  induction s with
  | nil => simp [Lexer.scan, hc]
  | cons d r ih =>
    simp only [List.cons_append, Lexer.scan]
    split_ifs with h
    · have ih2 : Lexer.scan p (r.append (c :: t)) =
          ((Lexer.scan p r).1, (Lexer.scan p r).2 ++ c :: t) := ih
      rw [ih2]
    · rfl

theorem isIdentChar_not_space (d : Char) (h : isIdentChar d = true) : isspace d = false := by
  simp only [isIdentChar, isalnum, Bool.or_eq_true, beq_iff_eq] at h
  rcases h with (h | h) | h
  · exact (isalpha_facts d (Or.inl h)).2.2
  · simp only [isdigit, Bool.and_eq_true, decide_eq_true_eq] at h
    simp only [isspace, Bool.or_eq_false_iff, beq_eq_false_iff_ne, ne_eq,
      Bool.and_eq_false_iff, decide_eq_false_iff_not]
    omega
  · exact (isalpha_facts d (Or.inr h)).2.2

theorem isdigit_isIdentChar (d : Char) (h : isdigit d = true) : isIdentChar d = true :=
  (isdigit_facts d h).2.2.2

/-- The five ways a call of `Lexer::next` goes, by the character under the
cursor after whitespace. -/
theorem Lexer.next_cases (l : List Char) :
    (Lexer.skip_ws l = [] ∧ Lexer.next l = (⟨.TK_EOF, []⟩, [])) ∨
    (∃ r, Lexer.skip_ws l = NUL :: r ∧ Lexer.next l = (⟨.TK_EOF, []⟩, NUL :: r)) ∨
    (∃ c r, Lexer.skip_ws l = c :: r ∧ (isalpha c = true ∨ c = '_') ∧
      Lexer.next l = (⟨Lexer.wordKind (Lexer.scan isIdentChar (c :: r)).1,
        (Lexer.scan isIdentChar (c :: r)).1⟩, (Lexer.scan isIdentChar (c :: r)).2)) ∨
    (∃ c r, Lexer.skip_ws l = c :: r ∧ isdigit c = true ∧
      Lexer.next l = (⟨.TK_NUMBER, (Lexer.scan isdigit (c :: r)).1⟩,
        (Lexer.scan isdigit (c :: r)).2)) ∨
    (∃ c r, Lexer.skip_ws l = c :: r ∧ c ≠ NUL ∧ isIdentChar c = false ∧ isspace c = false ∧
      Lexer.next l = (Lexer.punct c, r)) := by
  cases hs : Lexer.skip_ws l with
  | nil => exact Or.inl ⟨rfl, Lexer.next_nil hs⟩
  | cons c r =>
    right
    by_cases hn : c = NUL
    · subst hn
      exact Or.inl ⟨r, rfl, Lexer.next_nul hs⟩
    · right
      by_cases ha : isalpha c = true ∨ c = '_'
      · exact Or.inl ⟨c, r, rfl, ha, Lexer.next_word hs ha⟩
      · right
        have ha1 : isalpha c = false := by
          cases hx : isalpha c
          · rfl
          · exact absurd (Or.inl hx) ha
        have hu : c ≠ '_' := fun hx => ha (Or.inr hx)
        cases hd : isdigit c
        · refine Or.inr ⟨c, r, rfl, hn, ?_, Lexer.skip_ws_head hs, Lexer.next_punct hs hn ha1 hu hd⟩
          simp [isIdentChar, isalnum, ha1, hd, hu]
        · exact Or.inl ⟨c, r, rfl, hd, Lexer.next_number hs hd⟩

/-- The text of a token other than `TK_EOF` is what `Lexer::next` consumed
after the whitespace, and has no whitespace in it. -/
theorem Lexer.next_text (l : List Char) (h : (Lexer.next l).1.kind ≠ .TK_EOF) :
    Lexer.skip_ws l = (Lexer.next l).1.text ++ (Lexer.next l).2 ∧
      ∀ d ∈ (Lexer.next l).1.text, isspace d = false := by
  rcases Lexer.next_cases l with ⟨_, hn⟩ | ⟨r, _, hn⟩ | ⟨c, r, hs, _, hn⟩ | ⟨c, r, hs, _, hn⟩ |
    ⟨c, r, hs, _, _, hsp, hn⟩
  · rw [hn] at h
    exact absurd rfl h
  · rw [hn] at h
    exact absurd rfl h
  · obtain ⟨h1, h2, _⟩ := Lexer.scan_spec isIdentChar (c :: r)
    rw [hn, hs]
    exact ⟨h1, fun d hd => isIdentChar_not_space d (h2 d hd)⟩
  · obtain ⟨h1, h2, _⟩ := Lexer.scan_spec isdigit (c :: r)
    rw [hn, hs]
    exact ⟨h1, fun d hd => isIdentChar_not_space d (isdigit_isIdentChar d (h2 d hd))⟩
  · rw [hn, hs]
    dsimp only
    rw [Lexer.punct_text]
    refine ⟨rfl, ?_⟩
    intro d hd
    rw [List.mem_singleton.mp hd]
    exact hsp

/-- On input with no NUL character, `Lexer::next` returns `TK_EOF` only when
nothing but whitespace is left. -/
theorem Lexer.next_eof_nul_free (l : List Char) (hnul : NUL ∉ l)
    (h : (Lexer.next l).1.kind = .TK_EOF) : Lexer.skip_ws l = [] := by
  rcases Lexer.next_cases l with ⟨hs, _⟩ | ⟨r, hs, _⟩ | ⟨c, r, hs, hc, hn⟩ | ⟨c, r, hs, hc, hn⟩ |
    ⟨c, r, hs, _, _, _, hn⟩
  · exact hs
  · exact absurd (Lexer.skip_ws_mem l NUL (by simp [hs])) hnul
  · rw [hn] at h
    rcases Lexer.wordKind_cases (Lexer.scan isIdentChar (c :: r)).1 with
      ⟨_, hk⟩ | ⟨_, hk⟩ | ⟨_, _, hk⟩ <;> simp [hk] at h
  · rw [hn] at h
    simp at h
  · rw [hn] at h
    exact absurd h (Lexer.punct_kind c)

/-- The characters left after a call of `Lexer::next` were in the input. -/
theorem Lexer.next_rest_mem (l : List Char) : ∀ x ∈ (Lexer.next l).2, x ∈ l := by
  intro x hx
  by_cases h : (Lexer.next l).1.kind = .TK_EOF
  · rcases Lexer.next_cases l with ⟨_, hn⟩ | ⟨r, hs, hn⟩ | ⟨c, r, hs, hc, hn⟩ |
      ⟨c, r, hs, hc, hn⟩ | ⟨c, r, hs, _, _, _, hn⟩
    · simp [hn] at hx
    · rw [hn] at hx
      exact Lexer.skip_ws_mem l x (by rw [hs]; exact hx)
    · rw [hn] at h
      rcases Lexer.wordKind_cases (Lexer.scan isIdentChar (c :: r)).1 with
        ⟨_, hk⟩ | ⟨_, hk⟩ | ⟨_, _, hk⟩ <;> simp [hk] at h
    · rw [hn] at h
      simp at h
    · rw [hn] at h
      exact absurd h (Lexer.punct_kind c)
  · apply Lexer.skip_ws_mem l x
    rw [(Lexer.next_text l h).1]
    exact List.mem_append_right _ hx

/-- The texts of the tokens the constructor loop collects from input with no
NUL character are the input without its whitespace. -/
theorem Parser.lexLoop_texts (n : Nat) :
    ∀ (l : List Char) (toks : List Token), NUL ∉ l → Parser.lexLoop n l = some toks →
      (toks.map Token.text).flatten = l.filter (fun c => !isspace c) := by
  induction n with
  | zero => intro l toks _ h; simp [Parser.lexLoop] at h
  | succ n ih =>
    intro l toks hnul h
    simp only [Parser.lexLoop] at h
    split_ifs at h with hk
    · simp only [Option.some.injEq] at h
      subst h
      rw [← Lexer.skip_ws_filter, Lexer.next_eof_nul_free l hnul hk, Lexer.next_eof l hk]
      rfl
    · cases hr : Parser.lexLoop n (Lexer.next l).2 with
      | none => simp [hr] at h
      | some ts =>
        simp only [hr, Option.map_some', Option.some.injEq] at h
        subst h
        obtain ⟨h1, h2⟩ := Lexer.next_text l hk
        have hrest := ih _ ts (fun hx => hnul (Lexer.next_rest_mem l NUL hx)) hr
        rw [List.map_cons, List.flatten_cons, hrest, ← Lexer.skip_ws_filter l, h1,
          List.filter_append]
        congr 1
        symm
        rw [List.filter_eq_self]
        intro d hd
        simp [h2 d hd]

/-- A character that is no whitespace and cannot be part of a word or a number,
put after the input, leaves a call of `Lexer::next` that finds a character to
read as it was. -/
theorem Lexer.next_append (c : Char) (hsp : isspace c = false) (hid : isIdentChar c = false)
    (s t : List Char) (hs : Lexer.skip_ws s ≠ []) :
    Lexer.next (s ++ c :: t) = ((Lexer.next s).1, (Lexer.next s).2 ++ c :: t) := by
  have hdg : isdigit c = false := by
    cases h : isdigit c
    · rfl
    · rw [isdigit_isIdentChar c h] at hid
      exact absurd hid (by decide)
  have hws := Lexer.skip_ws_append c hsp s t
  rcases Lexer.next_cases s with ⟨h0, _⟩ | ⟨r, h0, hn⟩ | ⟨d, r, h0, hc, hn⟩ | ⟨d, r, h0, hc, hn⟩ |
    ⟨d, r, h0, hnn, hi, _, hn⟩
  · exact absurd h0 hs
  · rw [h0, List.cons_append] at hws
    rw [hn, Lexer.next_nul hws]
    rfl
  · rw [h0, List.cons_append] at hws
    rw [hn, Lexer.next_word hws hc, ← List.cons_append, Lexer.scan_append _ c hid]
  · rw [h0, List.cons_append] at hws
    rw [hn, Lexer.next_number hws hc, ← List.cons_append, Lexer.scan_append _ c hdg]
  · rw [h0, List.cons_append] at hws
    have ha : isalpha d = false := by
      cases h : isalpha d
      · rfl
      · simp [isIdentChar, isalnum, h] at hi
    have hu : d ≠ '_' := by
      rintro rfl
      exact absurd hi (by decide)
    have hd : isdigit d = false := by
      cases h : isdigit d
      · rfl
      · rw [isdigit_isIdentChar d h] at hi
        exact absurd hi (by decide)
    rw [hn, Lexer.next_punct hws hnn ha hu hd]

/-- A NUL character put after the input leaves every call of `Lexer::next`
as it was. -/
theorem Lexer.next_append_nul (s t : List Char) :
    Lexer.next (s ++ NUL :: t) = ((Lexer.next s).1, (Lexer.next s).2 ++ NUL :: t) := by
  cases hs : Lexer.skip_ws s with
  | nil =>
    have hws := Lexer.skip_ws_append NUL (by decide) s t
    rw [hs, List.nil_append] at hws
    rw [Lexer.next_nil hs, Lexer.next_nul hws]
    rfl
  | cons d r =>
    exact Lexer.next_append NUL (by decide) (by decide) s t (by simp [hs])

/-- The constructor loop does not look behind a NUL character. -/
theorem Parser.lexLoop_append_nul (t : List Char) (n : Nat) :
    ∀ (m : Nat) (s : List Char), s.length < n → s.length < m →
      Parser.lexLoop n (s ++ NUL :: t) = Parser.lexLoop m s := by
  induction n with
  | zero => intro m s h; omega
  | succ n ih =>
    intro m s hn hm
    cases m with
    | zero => omega
    | succ m =>
      simp only [Parser.lexLoop, Lexer.next_append_nul]
      split_ifs with hk
      · rfl
      · have := Lexer.next_length s hk
        rw [ih m (Lexer.next s).2 (by omega) (by omega)]

/-! ## Characters the lexer has no case for -/

theorem Lexer.isUnrecognized_facts (c : Char) (h : Lexer.isUnrecognized c = true) :
    isspace c = false ∧ c ≠ NUL ∧ isalpha c = false ∧ isdigit c = false ∧ c ≠ '_' ∧
      Lexer.isPunct c = false ∧ isIdentChar c = false := by
  simp only [Lexer.isUnrecognized, Bool.and_eq_true, Bool.not_eq_true', beq_eq_false_iff_ne,
    ne_eq] at h
  obtain ⟨⟨⟨⟨⟨h1, h2⟩, h3⟩, h4⟩, h5⟩, h6⟩ := h
  exact ⟨h1, h2, h3, h4, h5, h6, by simp [isIdentChar, isalnum, h3, h4, h5]⟩

/-- The tokens of whole statements are no `TK_UNKNOWN`. -/
theorem ParsesStmts.no_unknown {w : List Token} {ss : List Stmt} (h : ParsesStmts w ss) :
    ∀ t ∈ w, t.kind ≠ .TK_UNKNOWN := by
  induction h with
  | nil => simp
  | semi t w ss hk _ ih =>
    intro t2 ht
    rcases List.mem_cons.mp ht with rfl | ht
    · rw [hk]; decide
    · exact ih t2 ht
  | letStmt tl id ta ts w w2 e ss hl hi ha hw hs _ ih =>
    intro t2 ht
    simp only [List.cons_append, List.mem_cons, List.mem_append] at ht
    rcases ht with rfl | rfl | rfl | ht | rfl | ht
    · rw [hl]; decide
    · rw [hi]; decide
    · rw [ha]; decide
    · have := hw.kinds t2 ht
      intro h0
      rw [h0] at this
      exact absurd this (by decide)
    · rw [hs]; decide
    · exact ih t2 ht
  | printStmt tp ts w w2 e ss hp hw hs _ ih =>
    intro t2 ht
    simp only [List.cons_append, List.mem_cons, List.mem_append] at ht
    rcases ht with rfl | ht | rfl | ht
    · rw [hp]; decide
    · have := hw.kinds t2 ht
      intro h0
      rw [h0] at this
      exact absurd this (by decide)
    · rw [hs]; decide
    · exact ih t2 ht

/-- With a `TK_UNKNOWN` token before the first `TK_EOF`, `parseAll` fails, and
not by reading past the tokens when there is a `TK_EOF`. -/
theorem Parser.parseAll_unknown (pre : List Token) (u : Token) (post : List Token)
    (hpre : ∀ t ∈ pre, t.kind ≠ .TK_EOF) (hu : u.kind = .TK_UNKNOWN) :
    ∃ e, Parser.parseAll (pre ++ u :: post) = .fail e ∧
      (HasEof (pre ++ u :: post) → e ≠ .outOfBounds) := by
  cases hr : Parser.parseAll (pre ++ u :: post) with
  | fuel => exact absurd hr (Parser.parseAllLoop_ne_fuel _ _)
  | fail e =>
    refine ⟨e, rfl, fun hE he => ?_⟩
    rw [he] at hr
    exact Parser.parseAll_in_bounds _ hE hr
  | ok stmts =>
    exfalso
    obtain ⟨w, eof, rest, heq, heof, hss⟩ := Parser.parseAll_sound hr
    have hne : u.kind ≠ .TK_EOF := by rw [hu]; decide
    rcases List.append_eq_append_iff.mp heq with ⟨a, rfl, ha⟩ | ⟨a, rfl, ha⟩
    · cases a with
      | nil =>
        simp only [List.nil_append, List.cons.injEq] at ha
        exact hne (ha.1 ▸ heof)
      | cons b a =>
        simp only [List.cons_append, List.cons.injEq] at ha
        exact hss.no_unknown u (by simp [ha.1]) hu
    · cases a with
      | nil =>
        simp only [List.nil_append, List.cons.injEq] at ha
        exact hne (ha.1 ▸ heof)
      | cons b a =>
        simp only [List.cons_append, List.cons.injEq] at ha
        exact hpre eof (by simp [ha.1]) heof

/-- An unrecognized character with no NUL character before it becomes a
`TK_UNKNOWN` token of the list the constructor loop builds. -/
theorem Parser.lexLoop_unknown (c : Char) (hc : Lexer.isUnrecognized c = true)
    (post : List Char) (n : Nat) :
    ∀ pre : List Char, NUL ∉ pre → (pre ++ c :: post).length < n →
      ∃ toks, Parser.lexLoop n (pre ++ c :: post) = some toks ∧
        (⟨.TK_UNKNOWN, [c]⟩ : Token) ∈ toks := by
  obtain ⟨hsp, hnn, ha, hd, hu, hp, hid⟩ := Lexer.isUnrecognized_facts c hc
  induction n with
  | zero => intro pre _ h; omega
  | succ n ih =>
    intro pre hnul hlen
    simp only [List.length_append, List.length_cons] at hlen
    simp only [Parser.lexLoop]
    by_cases hs : Lexer.skip_ws pre = []
    · have hws := Lexer.skip_ws_append c hsp pre post
      rw [hs, List.nil_append] at hws
      rw [Lexer.next_punct hws hnn ha hu hd, Lexer.punct_unknown c hp]
      obtain ⟨body, hb, _⟩ := Parser.lexLoop_total n post (by omega)
      simp [hb]
    · rw [Lexer.next_append c hsp hid pre post hs]
      have hk : (Lexer.next pre).1.kind ≠ .TK_EOF :=
        fun hk => hs (Lexer.next_eof_nul_free pre hnul hk)
      have hl := Lexer.next_length pre hk
      obtain ⟨toks, ht, hm⟩ := ih (Lexer.next pre).2
        (fun hx => hnul (Lexer.next_rest_mem pre NUL hx))
        (by simp only [List.length_append, List.length_cons]; omega)
      dsimp only
      rw [if_neg hk, ht]
      exact ⟨_, rfl, List.mem_cons_of_mem _ hm⟩

/-! ## The layout of the emitted block -/

theorem LLVMCompiler.CreateBinOp_entry (c : LLVMCompiler) (op : BinOp) (l r : Val) :
    ∃ new, (c.CreateBinOp op l r).2.entry = c.entry ++ new ∧
      (∀ i ∈ new, i.isExprInstr = true) ∧
      (c.CreateBinOp op l r).2.nextId = c.nextId + new.length := by
  unfold LLVMCompiler.CreateBinOp
  cases ConstantFolder.FoldBinOp op l r with
  | some v => exact ⟨[], by simp, by simp, rfl⟩
  | none => exact ⟨[.binop c.nextId op l r], rfl, by simp [Instr.isExprInstr], rfl⟩

/-- `compileExpr` appends loads and arithmetic instructions to the block, as
many as it takes numbers. -/
theorem LLVMCompiler.compileExpr_entry (e : Expr) :
    ∀ (c c1 : LLVMCompiler) (v : Val), c.compileExpr e = .ok (v, c1) →
      ∃ new, c1.entry = c.entry ++ new ∧ (∀ i ∈ new, i.isExprInstr = true) ∧
        c1.nextId = c.nextId + new.length := by
  induction e with
  | NumberExpr value =>
    intro c c1 v h
    simp only [LLVMCompiler.compileExpr, Except.ok.injEq, Prod.mk.injEq] at h
    obtain ⟨_, rfl⟩ := h
    exact ⟨[], by simp, by simp, rfl⟩
  | VarExpr name =>
    intro c c1 v h
    simp only [LLVMCompiler.compileExpr] at h
    cases hf : c.find name with
    | none => rw [hf] at h; simp at h
    | some slot =>
      rw [hf] at h
      simp only [LLVMCompiler.CreateLoad, Except.ok.injEq, Prod.mk.injEq] at h
      obtain ⟨_, rfl⟩ := h
      exact ⟨[.load c.nextId slot name], rfl, by simp [Instr.isExprInstr], rfl⟩
  | BinaryExpr op lhs rhs ihl ihr =>
    intro c c3 v h
    simp only [LLVMCompiler.compileExpr] at h
    cases hl : c.compileExpr lhs with
    | error err => rw [hl] at h; simp at h
    | ok p1 =>
      obtain ⟨l, c1⟩ := p1
      rw [hl] at h
      simp only at h
      cases hr : c1.compileExpr rhs with
      | error err => rw [hr] at h; simp at h
      | ok p2 =>
        obtain ⟨r, c2⟩ := p2
        rw [hr] at h
        simp only at h
        obtain ⟨n1, a1, a2, a3⟩ := ihl c c1 l hl
        obtain ⟨n2, b1, b2, b3⟩ := ihr c1 c2 r hr
        have key : ∀ bop : BinOp, (v, c3) = c2.CreateBinOp bop l r →
            ∃ new, c3.entry = c.entry ++ new ∧ (∀ i ∈ new, i.isExprInstr = true) ∧
              c3.nextId = c.nextId + new.length := by
          intro bop hc
          obtain ⟨n3, d1, d2, d3⟩ := c2.CreateBinOp_entry bop l r
          rw [← hc] at d1 d3
          simp only at d1 d3
          refine ⟨n1 ++ n2 ++ n3, by rw [d1, b1, a1]; simp, ?_, ?_⟩
          · intro i hi
            simp only [List.mem_append] at hi
            rcases hi with (hi | hi) | hi
            · exact a2 i hi
            · exact b2 i hi
            · exact d2 i hi
          · rw [d3, b3, a3]
            simp only [List.length_append]
            omega
        split_ifs at h
        · exact key .add (Except.ok.inj h).symm
        · exact key .sub (Except.ok.inj h).symm
        · exact key .mul (Except.ok.inj h).symm
        · exact key .sdiv (Except.ok.inj h).symm

theorem LLVMCompiler.compileExpr_appended (e : Expr) (c c1 : LLVMCompiler) (v : Val)
    (h : c.compileExpr e = .ok (v, c1)) :
    c1.entry = c.entry ++ c.appended c1 ∧ (∀ i ∈ c.appended c1, i.isExprInstr = true) ∧
      c1.nextId = c.nextId + (c.appended c1).length ∧ c1.namedValues = c.namedValues := by
  obtain ⟨new, h1, h2, h3⟩ := LLVMCompiler.compileExpr_entry e c c1 v h
  have : c.appended c1 = new := by simp [LLVMCompiler.appended, h1]
  rw [this]
  exact ⟨h1, h2, h3, (LLVMCompiler.compileExpr_frame e c c1 v h).2.2.1⟩

/-- The block after `compileStmt`: a `let` puts the allocation of its slot
in front of the block and appends the instructions of its right-hand side and
the store; a `print` appends the instructions of its expression and the
call. -/
theorem LLVMCompiler.compileStmt_entry (c c2 : LLVMCompiler) (s : Stmt)
    (h : c.compileStmt s = .ok c2) :
    match s with
    | .LetStmt name rhs =>
      ∃ v c1, c.compileExpr rhs = .ok (v, c1) ∧
        c2.entry = .alloca c1.nextId name :: (c.entry ++ c.appended c1 ++ [.store v c1.nextId]) ∧
        c2.nextId = c1.nextId + 1 ∧
        c2.namedValues = (name, c1.nextId) :: c.namedValues.filter (fun p => p.1 != name)
    | .PrintStmt expr =>
      ∃ v c1, c.compileExpr expr = .ok (v, c1) ∧
        c2.entry = c.entry ++ c.appended c1 ++
          [.call c1.nextId "printf".toList [.globalStr "%d\n".toList, v]] ∧
        c2.nextId = c1.nextId + 1 ∧ c2.namedValues = c.namedValues := by
  cases s with
  | LetStmt name rhs =>
    simp only [LLVMCompiler.compileStmt] at h
    cases hc : c.compileExpr rhs with
    | error err => rw [hc] at h; simp at h
    | ok p =>
      obtain ⟨val, c1⟩ := p
      rw [hc] at h
      simp only [Except.ok.injEq] at h
      obtain ⟨a1, _, _, a4⟩ := LLVMCompiler.compileExpr_appended rhs c c1 val hc
      subst h
      refine ⟨val, c1, hc, ?_, rfl, ?_⟩
      · simp only [LLVMCompiler.assign, LLVMCompiler.CreateStore,
          LLVMCompiler.createEntryBlockAlloca, List.cons_append]
        rw [← a1]
      · simp only [LLVMCompiler.assign, LLVMCompiler.CreateStore,
          LLVMCompiler.createEntryBlockAlloca, a4]
  | PrintStmt expr =>
    simp only [LLVMCompiler.compileStmt] at h
    cases hc : c.compileExpr expr with
    | error err => rw [hc] at h; simp at h
    | ok p =>
      obtain ⟨val, c1⟩ := p
      rw [hc] at h
      simp only [Except.ok.injEq] at h
      obtain ⟨a1, _, _, a4⟩ := LLVMCompiler.compileExpr_appended expr c c1 val hc
      subst h
      refine ⟨val, c1, hc, ?_, rfl, a4⟩
      simp only [LLVMCompiler.CreateCall]
      rw [← a1]

theorem LLVMCompiler.group_spec (c c2 : LLVMCompiler) (s : Stmt)
    (h : c.compileStmt s = .ok c2) :
    ∃ g, c.group s = some g ∧ g.IsFor s ∧ c2.entry = g.alloc ++ c.entry ++ g.expr ++ [g.last] := by
  have h0 := c.compileStmt_entry c2 s h
  cases s with
  | LetStmt name rhs =>
    obtain ⟨v, c1, hc, he, _, _⟩ := h0
    refine ⟨⟨c.appended c1, [.alloca c1.nextId name], .store v c1.nextId⟩,
      by simp only [LLVMCompiler.group, hc], ⟨?_, v, c1.nextId, rfl, rfl⟩, ?_⟩
    · exact (LLVMCompiler.compileExpr_appended rhs c c1 v hc).2.1
    · rw [he]
      simp
  | PrintStmt expr =>
    obtain ⟨v, c1, hc, he, _, _⟩ := h0
    refine ⟨⟨c.appended c1, [],
        .call c1.nextId "printf".toList [.globalStr "%d\n".toList, v]⟩,
      by simp only [LLVMCompiler.group, hc], ⟨?_, rfl, c1.nextId, v, rfl⟩, ?_⟩
    · exact (LLVMCompiler.compileExpr_appended expr c c1 v hc).2.1
    · rw [he]
      simp

/-- The block after the loop over the statements: the allocations of the
groups, the latest first, the block as it was, the groups in order. -/
theorem LLVMCompiler.compileStmts_layout (stmts : List Stmt) :
    ∀ c c1 : LLVMCompiler, c.compileStmts stmts = .ok c1 →
      List.Forall₂ Group.IsFor stmts (c.groups stmts) ∧
      c1.entry = ((c.groups stmts).reverse.map Group.alloc).flatten ++ c.entry ++
        ((c.groups stmts).map fun g => g.expr ++ [g.last]).flatten := by
  induction stmts with
  | nil =>
    intro c c1 h
    simp only [LLVMCompiler.compileStmts, Except.ok.injEq] at h
    subst h
    simp [LLVMCompiler.groups]
  | cons s rest ih =>
    intro c c1 h
    simp only [LLVMCompiler.compileStmts] at h
    cases hs : c.compileStmt s with
    | error err => rw [hs] at h; simp at h
    | ok c2 =>
      rw [hs] at h
      simp only at h
      obtain ⟨g, hg, hshape, he⟩ := c.group_spec c2 s hs
      obtain ⟨ih1, ih2⟩ := ih c2 c1 h
      simp only [LLVMCompiler.groups, hg, hs]
      refine ⟨List.Forall₂.cons hshape ih1, ?_⟩
      rw [ih2, he]
      simp

theorem Group.IsFor.notRet {s : Stmt} {g : Group} (h : g.IsFor s) :
    (∀ i ∈ g.alloc, i.notRet) ∧ (∀ i ∈ g.expr, i.notRet) ∧ g.last.notRet := by
  obtain ⟨h1, h2⟩ := h
  have he : ∀ i ∈ g.expr, i.notRet := by
    intro i hi
    have := h1 i hi
    cases i <;> simp [Instr.isExprInstr, Instr.notRet] at this ⊢
  cases s with
  | LetStmt name rhs =>
    obtain ⟨v, slot, ha, hl⟩ := h2
    refine ⟨?_, he, by rw [hl]; trivial⟩
    intro i hi
    rw [ha, List.mem_singleton] at hi
    rw [hi]
    trivial
  | PrintStmt expr =>
    obtain ⟨ha, id, v, hl⟩ := h2
    refine ⟨?_, he, by rw [hl]; trivial⟩
    intro i hi
    rw [ha] at hi
    simp at hi

theorem Group.notRet_of_forall₂ {stmts : List Stmt} {gs : List Group}
    (h : List.Forall₂ Group.IsFor stmts gs) :
    (∀ i ∈ (gs.reverse.map Group.alloc).flatten, i.notRet) ∧
    (∀ i ∈ (gs.map fun g => g.expr ++ [g.last]).flatten, i.notRet) := by
  induction h with
  | nil => simp
  | cons hg _ ih =>
    obtain ⟨a1, a2, a3⟩ := hg.notRet
    obtain ⟨ih1, ih2⟩ := ih
    constructor
    · intro i hi
      simp only [List.reverse_cons, List.map_append, List.map_cons, List.map_nil,
        List.flatten_append, List.flatten_cons, List.flatten_nil, List.append_nil,
        List.mem_append] at hi
      rcases hi with hi | hi
      · exact ih1 i hi
      · exact a1 i hi
    · intro i hi
      simp only [List.map_cons, List.flatten_cons, List.mem_append, List.mem_singleton] at hi
      rcases hi with (hi | hi) | hi
      · exact a2 i hi
      · rw [hi]; exact a3
      · exact ih2 i hi

/-! ## The calls of a block -/

theorem callsOf_append (a b : List Instr) : callsOf (a ++ b) = callsOf a ++ callsOf b := by
  induction a with
  | nil => rfl
  | cons i a ih => cases i <;> simp [callsOf, ih]

theorem callsOf_expr (l : List Instr) (h : ∀ i ∈ l, i.isExprInstr = true) : callsOf l = [] := by
  induction l with
  | nil => rfl
  | cons i l ih =>
    have hi := h i (List.mem_cons_self _ _)
    have hl := ih (fun j hj => h j (List.mem_cons_of_mem _ hj))
    cases i <;> simp [Instr.isExprInstr] at hi <;> simp [callsOf, hl]

/-- The calls of the block after the loop over the statements: those it had,
then one for each `print` statement, in order. -/
theorem LLVMCompiler.compileStmts_calls (stmts : List Stmt) :
    ∀ c c1 : LLVMCompiler, c.compileStmts stmts = .ok c1 →
      callsOf c1.entry = callsOf c.entry ++ c.printCalls stmts ∧
      (c.printCalls stmts).length = (stmts.filter Stmt.isPrint).length := by
  induction stmts with
  | nil =>
    intro c c1 h
    simp only [LLVMCompiler.compileStmts, Except.ok.injEq] at h
    subst h
    simp [LLVMCompiler.printCalls]
  | cons s rest ih =>
    intro c c1 h
    simp only [LLVMCompiler.compileStmts] at h
    cases hs : c.compileStmt s with
    | error err => rw [hs] at h; simp at h
    | ok c2 =>
      rw [hs] at h
      simp only at h
      obtain ⟨ih1, ih2⟩ := ih c2 c1 h
      have h0 := c.compileStmt_entry c2 s hs
      cases s with
      | LetStmt name rhs =>
        obtain ⟨v, c3, hc, he, _, _⟩ := h0
        have hx := (LLVMCompiler.compileExpr_appended rhs c c3 v hc).2.1
        simp only [LLVMCompiler.printCalls, hs, List.filter_cons, Stmt.isPrint]
        refine ⟨?_, by simpa using ih2⟩
        rw [ih1, he]
        simp [callsOf, callsOf_append, callsOf_expr _ hx]
      | PrintStmt expr =>
        obtain ⟨v, c3, hc, he, _, _⟩ := h0
        have hx := (LLVMCompiler.compileExpr_appended expr c c3 v hc).2.1
        simp only [LLVMCompiler.printCalls, hs, hc, List.filter_cons, Stmt.isPrint]
        refine ⟨?_, by simpa using ih2⟩
        rw [ih1, he]
        simp [callsOf, callsOf_append, callsOf_expr _ hx]

theorem LLVMCompiler.printCalls_shape (stmts : List Stmt) :
    ∀ c : LLVMCompiler, ∀ p ∈ c.printCalls stmts,
      p.1 = "printf".toList ∧ ∃ v, p.2 = [.globalStr "%d\n".toList, v] := by
  induction stmts with
  | nil => intro c p hp; simp [LLVMCompiler.printCalls] at hp
  | cons s rest ih =>
    intro c p hp
    simp only [LLVMCompiler.printCalls] at hp
    cases hs : c.compileStmt s with
    | error err => rw [hs] at hp; simp at hp
    | ok c2 =>
      rw [hs] at hp
      cases s with
      | LetStmt name rhs => exact ih c2 p hp
      | PrintStmt expr =>
        simp only at hp
        cases hc : c.compileExpr expr with
        | error err =>
          rw [hc] at hp
          exact ih c2 p hp
        | ok r =>
          obtain ⟨v, c3⟩ := r
          rw [hc] at hp
          rcases List.mem_cons.mp hp with rfl | hp
          · exact ⟨rfl, v, rfl⟩
          · exact ih c2 p hp

/-! ## Definition before use -/

theorem results_append (a b : List Instr) : results (a ++ b) = results a ++ results b := by
  induction a with
  | nil => rfl
  | cons i a ih => cases i <;> simp [results, ih]

theorem slots_cons (i : Instr) (a : List Instr) : slots (i :: a) = slots [i] ++ slots a := by
  cases i <;> simp [slots]

theorem results_cons (i : Instr) (a : List Instr) :
    results (i :: a) = results [i] ++ results a := by
  cases i <;> simp [results]

theorem Val.definedIn_mono {R R2 : List Nat} (h : ∀ x ∈ R, x ∈ R2) (v : Val)
    (hv : v.definedIn R = true) : v.definedIn R2 = true := by
  cases v with
  | inst id =>
    simp only [Val.definedIn, decide_eq_true_eq] at hv ⊢
    exact h id hv
  | const n => rfl
  | poison => rfl
  | globalStr s => rfl

theorem Instr.usesOk_mono {A A2 R R2 : List Nat} (hA : ∀ x ∈ A, x ∈ A2) (hR : ∀ x ∈ R, x ∈ R2)
    (i : Instr) (h : i.usesOk A R = true) : i.usesOk A2 R2 = true := by
  cases i with
  | alloca id nm => rfl
  | load id slot nm =>
    simp only [Instr.usesOk, decide_eq_true_eq] at h ⊢
    exact hA slot h
  | store v slot =>
    simp only [Instr.usesOk, Bool.and_eq_true, decide_eq_true_eq] at h ⊢
    exact ⟨hA slot h.1, Val.definedIn_mono hR v h.2⟩
  | binop id op l r =>
    simp only [Instr.usesOk, Bool.and_eq_true] at h ⊢
    exact ⟨Val.definedIn_mono hR l h.1, Val.definedIn_mono hR r h.2⟩
  | call id callee args =>
    simp only [Instr.usesOk, List.all_eq_true] at h ⊢
    exact fun v hv => Val.definedIn_mono hR v (h v hv)
  | ret v =>
    simp only [Instr.usesOk] at h ⊢
    exact Val.definedIn_mono hR v h

theorem defBeforeUse_mono (l : List Instr) :
    ∀ {A A2 R R2 : List Nat}, (∀ x ∈ A, x ∈ A2) → (∀ x ∈ R, x ∈ R2) →
      defBeforeUse A R l = true → defBeforeUse A2 R2 l = true := by
  induction l with
  | nil => intros; rfl
  | cons i l ih =>
    intro A A2 R R2 hA hR h
    simp only [defBeforeUse, Bool.and_eq_true] at h ⊢
    refine ⟨Instr.usesOk_mono hA hR i h.1, ih ?_ ?_ h.2⟩
    · intro x hx
      rcases List.mem_append.mp hx with hx | hx
      · exact List.mem_append_left _ hx
      · exact List.mem_append_right _ (hA x hx)
    · intro x hx
      rcases List.mem_append.mp hx with hx | hx
      · exact List.mem_append_left _ hx
      · exact List.mem_append_right _ (hR x hx)

/-- The check of a list is that of every instruction against the slots and
results of the instructions before it. -/
theorem defBeforeUse_spec (l : List Instr) :
    ∀ A R : List Nat, defBeforeUse A R l = true ↔
      ∀ pre i post, l = pre ++ i :: post →
        i.usesOk (slots pre ++ A) (results pre ++ R) = true := by
  induction l with
  | nil =>
    intro A R
    simp [defBeforeUse]
  | cons j l ih =>
    intro A R
    simp only [defBeforeUse, Bool.and_eq_true, ih]
    constructor
    · rintro ⟨h1, h2⟩ pre i post he
      cases pre with
      | nil =>
        simp only [List.nil_append, List.cons.injEq] at he
        rw [← he.1]
        simpa [slots, results] using h1
      | cons k pre =>
        simp only [List.cons_append, List.cons.injEq] at he
        obtain ⟨rfl, rfl⟩ := he
        have := h2 pre i post rfl
        rw [slots_cons j pre, results_cons j pre]
        refine Instr.usesOk_mono ?_ ?_ i this
        · intro x hx
          simp only [List.mem_append] at hx ⊢
          tauto
        · intro x hx
          simp only [List.mem_append] at hx ⊢
          tauto
    · intro h
      refine ⟨by simpa [slots, results] using h [] j l rfl, ?_⟩
      intro pre i post he
      have := h (j :: pre) i post (by rw [he]; rfl)
      rw [slots_cons j pre, results_cons j pre] at this
      refine Instr.usesOk_mono ?_ ?_ i this
      · intro x hx
        simp only [List.mem_append] at hx ⊢
        tauto
      · intro x hx
        simp only [List.mem_append] at hx ⊢
        tauto

theorem LLVMCompiler.wellFormed_iff (c : LLVMCompiler) : c.wellFormed = true ↔ c.WellFormed := by
  simp only [LLVMCompiler.wellFormed, LLVMCompiler.WellFormed, DefBeforeUse, Bool.and_eq_true,
    defBeforeUse_spec, List.append_nil, List.all_eq_true, decide_eq_true_eq]

theorem DefBeforeUse.snoc {l : List Instr} (h : DefBeforeUse l) (j : Instr)
    (hj : j.usesOk (slots l) (results l) = true) : DefBeforeUse (l ++ [j]) := by
  intro pre i post he
  rcases List.eq_nil_or_concat post with rfl | ⟨post2, k, rfl⟩
  · have h2 : l ++ [j] = pre ++ [i] := he
    obtain ⟨rfl, h3⟩ := List.append_inj' h2 rfl
    simp only [List.cons.injEq, and_true] at h3
    rw [← h3]
    exact hj
  · have h2 : l ++ [j] = (pre ++ i :: post2) ++ [k] := by
      rw [he]
      simp
    obtain ⟨rfl, _⟩ := List.append_inj' h2 rfl
    exact h pre i post2 rfl

theorem DefBeforeUse.alloca {l : List Instr} (h : DefBeforeUse l) (id : Nat) (nm : List Char) :
    DefBeforeUse (.alloca id nm :: l) := by
  intro pre i post he
  cases pre with
  | nil =>
    simp only [List.nil_append, List.cons.injEq] at he
    rw [← he.1]
    rfl
  | cons k pre =>
    simp only [List.cons_append, List.cons.injEq] at he
    obtain ⟨rfl, rfl⟩ := he
    refine Instr.usesOk_mono ?_ ?_ i (h pre i post rfl)
    · intro x hx
      simp [slots, hx]
    · intro x hx
      simpa [results] using hx

theorem LLVMCompiler.CreateLoad_wellFormed (c : LLVMCompiler) (slot : Nat) (name : List Char)
    (h : c.WellFormed) (hs : slot ∈ slots c.entry) :
    (c.CreateLoad slot name).2.WellFormed ∧
      (c.CreateLoad slot name).1.definedIn (results (c.CreateLoad slot name).2.entry) = true := by
  refine ⟨⟨h.1.snoc _ (by simpa [Instr.usesOk] using hs), ?_⟩, ?_⟩
  · intro p hp
    simp only [LLVMCompiler.CreateLoad, slots_append]
    exact List.mem_append_left _ (h.2 p hp)
  · simp [LLVMCompiler.CreateLoad, Val.definedIn, results_append, results]

theorem ConstantFolder.FoldBinOp_defined (op : BinOp) (l r v : Val) (R : List Nat)
    (h : ConstantFolder.FoldBinOp op l r = some v) : v.definedIn R = true := by
  cases l <;> cases r <;> simp only [ConstantFolder.FoldBinOp] at h
  · split at h <;> simp only [Option.some.injEq] at h <;> rw [← h] <;> rfl
  all_goals first
    | (simp only [Option.some.injEq] at h; rw [← h]; rfl)
    | simp at h

theorem LLVMCompiler.CreateBinOp_wellFormed (c : LLVMCompiler) (op : BinOp) (l r : Val)
    (h : c.WellFormed) (hl : l.definedIn (results c.entry) = true)
    (hr : r.definedIn (results c.entry) = true) :
    (c.CreateBinOp op l r).2.WellFormed ∧
      (c.CreateBinOp op l r).1.definedIn (results (c.CreateBinOp op l r).2.entry) = true := by
  unfold LLVMCompiler.CreateBinOp
  cases hf : ConstantFolder.FoldBinOp op l r with
  | some v => exact ⟨h, ConstantFolder.FoldBinOp_defined op l r v _ hf⟩
  | none =>
    refine ⟨⟨h.1.snoc _ (by simp [Instr.usesOk, hl, hr]), ?_⟩, ?_⟩
    · intro p hp
      simp only [slots_append]
      exact List.mem_append_left _ (h.2 p hp)
    · simp [Val.definedIn, results_append, results]

theorem LLVMCompiler.createEntryBlockAlloca_wellFormed (c : LLVMCompiler) (name : List Char)
    (h : c.WellFormed) :
    (c.createEntryBlockAlloca name).2.WellFormed ∧
      (c.createEntryBlockAlloca name).1 ∈ slots (c.createEntryBlockAlloca name).2.entry := by
  refine ⟨⟨h.1.alloca _ _, ?_⟩, by simp [LLVMCompiler.createEntryBlockAlloca, slots]⟩
  intro p hp
  simp only [LLVMCompiler.createEntryBlockAlloca, slots]
  exact List.mem_cons_of_mem _ (h.2 p hp)

theorem LLVMCompiler.CreateStore_wellFormed (c : LLVMCompiler) (v : Val) (slot : Nat)
    (h : c.WellFormed) (hs : slot ∈ slots c.entry)
    (hv : v.definedIn (results c.entry) = true) : (c.CreateStore v slot).WellFormed := by
  refine ⟨h.1.snoc _ (by simp [Instr.usesOk, hs, hv]), ?_⟩
  intro p hp
  simp only [LLVMCompiler.CreateStore, slots_append]
  exact List.mem_append_left _ (h.2 p hp)

theorem LLVMCompiler.assign_wellFormed (c : LLVMCompiler) (name : List Char) (slot : Nat)
    (h : c.WellFormed) (hs : slot ∈ slots c.entry) : (c.assign name slot).WellFormed := by
  refine ⟨h.1, ?_⟩
  intro p hp
  simp only [LLVMCompiler.assign, List.mem_cons, List.mem_filter] at hp
  rcases hp with rfl | ⟨hp, _⟩
  · exact hs
  · exact h.2 p hp

theorem LLVMCompiler.CreateCall_wellFormed (c : LLVMCompiler) (callee : List Char)
    (args : List Val) (h : c.WellFormed)
    (ha : ∀ v ∈ args, v.definedIn (results c.entry) = true) :
    (c.CreateCall callee args).WellFormed := by
  refine ⟨h.1.snoc _ (by simpa [Instr.usesOk] using ha), ?_⟩
  intro p hp
  simp only [LLVMCompiler.CreateCall, slots_append]
  exact List.mem_append_left _ (h.2 p hp)

theorem LLVMCompiler.CreateRet_wellFormed (c : LLVMCompiler) (v : Val) (h : c.WellFormed)
    (hv : v.definedIn (results c.entry) = true) : (c.CreateRet v).WellFormed := by
  refine ⟨h.1.snoc _ (by simpa [Instr.usesOk] using hv), ?_⟩
  intro p hp
  simp only [LLVMCompiler.CreateRet, slots_append]
  exact List.mem_append_left _ (h.2 p hp)

theorem lookup_mem {β : Type} (nv : List (List Char × β)) (x : List Char) (s : β)
    (h : nv.lookup x = some s) : (x, s) ∈ nv := by
  induction nv with
  | nil => simp at h
  | cons p nv ih =>
    obtain ⟨y, t⟩ := p
    simp only [List.lookup] at h
    split at h
    · rename_i heq
      simp only [Option.some.injEq] at h
      have : x = y := by simpa using heq
      rw [this, h]
      exact List.mem_cons_self _ _
    · exact List.mem_cons_of_mem _ (ih h)

theorem LLVMCompiler.WellFormed.find {c : LLVMCompiler} (h : c.WellFormed) {x : List Char}
    {slot : Nat} (hf : c.find x = some slot) : slot ∈ slots c.entry :=
  h.2 (x, slot) (lookup_mem _ _ _ hf)

/-- `compileExpr` keeps the state well formed, and the value it returns is a
constant or the result of an instruction of the block. -/
theorem LLVMCompiler.compileExpr_wellFormed (e : Expr) :
    ∀ (c c1 : LLVMCompiler) (v : Val), c.WellFormed → c.compileExpr e = .ok (v, c1) →
      c1.WellFormed ∧ v.definedIn (results c1.entry) = true := by
  induction e with
  | NumberExpr value =>
    intro c c1 v hw h
    simp only [LLVMCompiler.compileExpr, Except.ok.injEq, Prod.mk.injEq] at h
    obtain ⟨rfl, rfl⟩ := h
    exact ⟨hw, rfl⟩
  | VarExpr name =>
    intro c c1 v hw h
    simp only [LLVMCompiler.compileExpr] at h
    cases hf : c.find name with
    | none => rw [hf] at h; simp at h
    | some slot =>
      rw [hf] at h
      simp only [Except.ok.injEq] at h
      have := c.CreateLoad_wellFormed slot name hw (hw.find hf)
      rw [h] at this
      exact this
  | BinaryExpr op lhs rhs ihl ihr =>
    intro c c3 v hw h
    simp only [LLVMCompiler.compileExpr] at h
    cases hl : c.compileExpr lhs with
    | error err => rw [hl] at h; simp at h
    | ok p1 =>
      obtain ⟨l, c1⟩ := p1
      rw [hl] at h
      simp only at h
      cases hr : c1.compileExpr rhs with
      | error err => rw [hr] at h; simp at h
      | ok p2 =>
        obtain ⟨r, c2⟩ := p2
        rw [hr] at h
        simp only at h
        obtain ⟨w1, d1⟩ := ihl c c1 l hw hl
        obtain ⟨w2, d2⟩ := ihr c1 c2 r w1 hr
        obtain ⟨new, hnew, _, _⟩ := LLVMCompiler.compileExpr_entry rhs c1 c2 r hr
        have d1b : l.definedIn (results c2.entry) = true := by
          refine Val.definedIn_mono ?_ l d1
          intro x hx
          rw [hnew, results_append]
          exact List.mem_append_left _ hx
        have key : ∀ bop : BinOp, (v, c3) = c2.CreateBinOp bop l r →
            c3.WellFormed ∧ v.definedIn (results c3.entry) = true := by
          intro bop hc
          have := c2.CreateBinOp_wellFormed bop l r w2 d1b d2
          rw [← hc] at this
          exact this
        split_ifs at h
        · exact key .add (Except.ok.inj h).symm
        · exact key .sub (Except.ok.inj h).symm
        · exact key .mul (Except.ok.inj h).symm
        · exact key .sdiv (Except.ok.inj h).symm

/-- `compileStmt` keeps the state well formed. -/
theorem LLVMCompiler.compileStmt_wellFormed (c c2 : LLVMCompiler) (s : Stmt)
    (hw : c.WellFormed) (h : c.compileStmt s = .ok c2) : c2.WellFormed := by
  cases s with
  | LetStmt name rhs =>
    simp only [LLVMCompiler.compileStmt] at h
    cases hc : c.compileExpr rhs with
    | error err => rw [hc] at h; simp at h
    | ok p =>
      obtain ⟨val, c1⟩ := p
      rw [hc] at h
      simp only [Except.ok.injEq] at h
      obtain ⟨w1, d1⟩ := LLVMCompiler.compileExpr_wellFormed rhs c c1 val hw hc
      obtain ⟨w2, hs⟩ := c1.createEntryBlockAlloca_wellFormed name w1
      have d2 : val.definedIn (results (c1.createEntryBlockAlloca name).2.entry) = true := by
        simpa [LLVMCompiler.createEntryBlockAlloca, results] using d1
      have w3 := (c1.createEntryBlockAlloca name).2.CreateStore_wellFormed val
        (c1.createEntryBlockAlloca name).1 w2 hs d2
      rw [← h]
      refine LLVMCompiler.assign_wellFormed _ name _ w3 ?_
      simp only [LLVMCompiler.CreateStore, slots_append]
      exact List.mem_append_left _ hs
  | PrintStmt expr =>
    simp only [LLVMCompiler.compileStmt] at h
    cases hc : c.compileExpr expr with
    | error err => rw [hc] at h; simp at h
    | ok p =>
      obtain ⟨val, c1⟩ := p
      rw [hc] at h
      simp only [Except.ok.injEq] at h
      obtain ⟨w1, d1⟩ := LLVMCompiler.compileExpr_wellFormed expr c c1 val hw hc
      rw [← h]
      refine c1.CreateCall_wellFormed _ _ w1 ?_
      intro v hv
      simp only [List.mem_cons, List.mem_singleton, List.not_mem_nil, or_false] at hv
      rcases hv with rfl | rfl
      · rfl
      · exact d1

theorem LLVMCompiler.init_wellFormed : LLVMCompiler.init.WellFormed := by
  refine ⟨?_, by simp [LLVMCompiler.init]⟩
  intro pre i post he
  simp [LLVMCompiler.init] at he

/-- The state after every statement of the loop is well formed. -/
theorem LLVMCompiler.compileStmts_wellFormed (stmts : List Stmt) :
    ∀ c c1 : LLVMCompiler, c.WellFormed → c.compileStmts stmts = .ok c1 → c1.WellFormed := by
  induction stmts with
  | nil =>
    intro c c1 hw h
    simp only [LLVMCompiler.compileStmts, Except.ok.injEq] at h
    exact h ▸ hw
  | cons s rest ih =>
    intro c c1 hw h
    simp only [LLVMCompiler.compileStmts] at h
    cases hs : c.compileStmt s with
    | error err => rw [hs] at h; simp at h
    | ok c2 =>
      rw [hs] at h
      exact ih c2 c1 (c.compileStmt_wellFormed c2 s hw hs) h

/-- The loop over a list of statements succeeds on every prefix of a list on
which it succeeds. -/
theorem LLVMCompiler.compileStmts_prefix (pre post : List Stmt) :
    ∀ c c1 : LLVMCompiler, c.compileStmts (pre ++ post) = .ok c1 →
      ∃ c2, c.compileStmts pre = .ok c2 ∧ c2.compileStmts post = .ok c1 := by
  induction pre with
  | nil => intro c c1 h; exact ⟨c, rfl, h⟩
  | cons s pre ih =>
    intro c c1 h
    simp only [List.cons_append, LLVMCompiler.compileStmts] at h ⊢
    cases hs : c.compileStmt s with
    | error err => rw [hs] at h; simp at h
    | ok c2 =>
      rw [hs] at h
      exact ih c2 c1 h

/-! ## The slots a `let` reads and the slot it binds -/

theorem loadsOf_append (a b : List Instr) : loadsOf (a ++ b) = loadsOf a ++ loadsOf b := by
  induction a with
  | nil => rfl
  | cons i a ih => cases i <;> simp [loadsOf, ih]

theorem LLVMCompiler.CreateBinOp_loads (c : LLVMCompiler) (op : BinOp) (l r : Val) :
    ∃ new, (c.CreateBinOp op l r).2.entry = c.entry ++ new ∧ loadsOf new = [] := by
  unfold LLVMCompiler.CreateBinOp
  cases ConstantFolder.FoldBinOp op l r with
  | some v => exact ⟨[], by simp, rfl⟩
  | none => exact ⟨[.binop c.nextId op l r], rfl, rfl⟩

/-- The loads `compileExpr` appends are, in order, one for each reference of
the expression, from the slot `namedValues` holds for the name when
`compileExpr` is entered. -/
theorem LLVMCompiler.compileExpr_loads (e : Expr) :
    ∀ (c c1 : LLVMCompiler) (v : Val), c.compileExpr e = .ok (v, c1) →
      ∃ new, c1.entry = c.entry ++ new ∧
        (loadsOf new).map (fun p => (p.1, some p.2)) = e.vars.map (fun y => (y, c.find y)) := by
  induction e with
  | NumberExpr value =>
    intro c c1 v h
    simp only [LLVMCompiler.compileExpr, Except.ok.injEq, Prod.mk.injEq] at h
    obtain ⟨_, rfl⟩ := h
    exact ⟨[], by simp, rfl⟩
  | VarExpr name =>
    intro c c1 v h
    simp only [LLVMCompiler.compileExpr] at h
    cases hf : c.find name with
    | none => rw [hf] at h; simp at h
    | some slot =>
      rw [hf] at h
      simp only [LLVMCompiler.CreateLoad, Except.ok.injEq, Prod.mk.injEq] at h
      obtain ⟨_, rfl⟩ := h
      exact ⟨[.load c.nextId slot name], rfl, by simp [loadsOf, Expr.vars, hf]⟩
  | BinaryExpr op lhs rhs ihl ihr =>
    intro c c3 v h
    simp only [LLVMCompiler.compileExpr] at h
    cases hl : c.compileExpr lhs with
    | error err => rw [hl] at h; simp at h
    | ok p1 =>
      obtain ⟨l, c1⟩ := p1
      rw [hl] at h
      simp only at h
      cases hr : c1.compileExpr rhs with
      | error err => rw [hr] at h; simp at h
      | ok p2 =>
        obtain ⟨r, c2⟩ := p2
        rw [hr] at h
        simp only at h
        obtain ⟨n1, a1, a2⟩ := ihl c c1 l hl
        obtain ⟨n2, b1, b2⟩ := ihr c1 c2 r hr
        have hnv := (LLVMCompiler.compileExpr_frame lhs c c1 l hl).2.2.1
        have hfind : ∀ y, c1.find y = c.find y := fun y => by
          simp only [LLVMCompiler.find, hnv]
        have key : ∀ bop : BinOp, (v, c3) = c2.CreateBinOp bop l r →
            ∃ new, c3.entry = c.entry ++ new ∧
              (loadsOf new).map (fun p => (p.1, some p.2)) =
                (Expr.BinaryExpr op lhs rhs).vars.map (fun y => (y, c.find y)) := by
          intro bop hc
          obtain ⟨n3, d1, d2⟩ := c2.CreateBinOp_loads bop l r
          rw [← hc] at d1
          simp only at d1
          refine ⟨n1 ++ n2 ++ n3, by rw [d1, b1, a1]; simp, ?_⟩
          simp only [loadsOf_append, d2, List.append_nil, List.map_append, Expr.vars, a2, b2,
            hfind]
        split_ifs at h
        · exact key .add (Except.ok.inj h).symm
        · exact key .sub (Except.ok.inj h).symm
        · exact key .mul (Except.ok.inj h).symm
        · exact key .sdiv (Except.ok.inj h).symm

theorem LLVMCompiler.init_idsBelow : LLVMCompiler.init.IdsBelow := by
  intro s hs
  simp [LLVMCompiler.init, slots] at hs

/-- What a `let` of `x` does in the state `c`: the right-hand side is emitted
in `c`, with the loads from the slots `c` holds, and then `x` is bound to a
new slot. -/
theorem LLVMCompiler.compileStmt_let (c c2 : LLVMCompiler) (x : List Char) (e : Expr)
    (h : c.compileStmt (.LetStmt x e) = .ok c2) :
    ∃ v c1 new, c.compileExpr e = .ok (v, c1) ∧ c1.entry = c.entry ++ new ∧
      (loadsOf new).map (fun p => (p.1, some p.2)) = e.vars.map (fun y => (y, c.find y)) ∧
      c2.entry = .alloca c1.nextId x :: (c.entry ++ new ++ [.store v c1.nextId]) ∧
      c2.find x = some c1.nextId ∧ c.nextId ≤ c1.nextId := by
  obtain ⟨v, c1, hc, he, _, hnv⟩ := c.compileStmt_entry c2 (.LetStmt x e) h
  obtain ⟨new, h1, h2⟩ := LLVMCompiler.compileExpr_loads e c c1 v hc
  have happ : c.appended c1 = new := by simp [LLVMCompiler.appended, h1]
  rw [happ] at he
  refine ⟨v, c1, new, hc, h1, h2, he, ?_, (LLVMCompiler.compileExpr_frame e c c1 v hc).2.1⟩
  simp [LLVMCompiler.find, hnv, List.lookup]

/-! ## The claims -/

/-- C1. Semantic preservation of the whole pipeline: when lexing the source,
parsing the tokens and emitting the statements all succeed, and evaluating the
parsed statements top to bottom in a flat environment is defined (no division
by zero, no `INT_MIN / -1`) and prints `outs`, then executing the emitted
entry block of `main` prints exactly `outs` and returns 0. -/
theorem pipeline_preserves_semantics (src : List Char) (toks : List Token)
    (stmts : List Stmt) (c : LLVMCompiler) (outs : List Int)
    (_hlex : Parser.Parser src = some toks) (_hparse : Parser.parseAll toks = .ok stmts)
    (hemit : LLVMCompiler.compile stmts = .ok c) (heval : evalStmts [] stmts = some outs) :
    exec c.entry Machine.init = some (outs, 0) :=
  LLVMCompiler.compile_sim stmts c outs hemit heval

/-- C1 at `let x = 2 + 3 * 4; print x;`: the emitted block prints 14 and
returns 0. -/
theorem pipeline_preserves_semantics_witness :
    Parser.Parser "let x = 2 + 3 * 4; print x;".toList = some sampleTokens ∧
    Parser.parseAll sampleTokens = .ok sampleStmts ∧
    LLVMCompiler.compile sampleStmts = .ok sampleCompiled ∧
    evalStmts [] sampleStmts = some [14] ∧
    exec sampleCompiled.entry Machine.init = some ([14], 0) :=
  ⟨by decide, by decide, rfl, by decide,
    pipeline_preserves_semantics "let x = 2 + 3 * 4; print x;".toList sampleTokens sampleStmts
      sampleCompiled [14] (by decide) (by decide) rfl (by decide)⟩

/-- C2. Operator precedence.  For all factors `a`, `b`, `c` (token lists
that `parseFactor` reads as the trees `ea`, `eb`, `ec`), `parseExpr` on
`a + b * c` followed by a token that is no operator returns
`Binary('+', a, Binary('*', b, c))`, which is not
`Binary('*', Binary('+', a, b), c)`; and every tree `parseExpr` returns after
consuming tokens without `(` has no `+` or `-` node as a child of a `*` or `/`
node. -/
theorem precedence_mul_over_add :
    (∀ (wa wb wc : List Token) (ea eb ec : Expr) (plus star t : Token) (rest : List Token),
      IsFactor wa ea → IsFactor wb eb → IsFactor wc ec →
      plus.kind = .TK_PLUS → star.kind = .TK_MUL →
      t.kind.isMulOp = false → t.kind.isAddOp = false →
      Parser.parseExpr (wa ++ plus :: wb ++ star :: wc ++ t :: rest) =
        .ok (.BinaryExpr '+' ea (.BinaryExpr '*' eb ec), t :: rest) ∧
      Parser.parseExpr (wa ++ plus :: wb ++ star :: wc ++ t :: rest) ≠
        .ok (.BinaryExpr '*' (.BinaryExpr '+' ea eb) ec, t :: rest)) ∧
    (∀ (w rest : List Token) (e : Expr), NoParen w →
      Parser.parseExpr (w ++ rest) = .ok (e, rest) → e.precedenceOk = true) := by
  constructor
  · intro wa wb wc ea eb ec plus star t rest ha hb hc hp hs hm hadd
    have hpm : plus.kind.isMulOp = false := by simp [TokenKind.isMulOp, hp]
    have hsp : star.kind ≠ .TK_PLUS := by rw [hs]; decide
    have h : Parser.parseExpr (wa ++ plus :: wb ++ star :: wc ++ t :: rest) =
        .ok (.BinaryExpr '+' ea (.BinaryExpr '*' eb ec), t :: rest) := by
      simp only [List.append_assoc, List.cons_append]
      rw [Parser.parseExpr_unfold, ha.parseTerm plus _ hpm, Res.bind_ok,
        Parser.parseExprLoop_cons, if_pos hp, Parser.parseTerm_unfold, hb _, Res.bind_ok,
        Parser.parseTermLoop_cons, if_pos hs, hc _, Res.bind_ok,
        Parser.parseTermLoop_stop _ t rest hm, Res.bind_ok,
        Parser.parseExprLoop_stop _ t rest hadd]
    refine ⟨h, ?_⟩
    rw [h]
    simp
  · intro w rest e hn h
    obtain ⟨w1, hw, hp, _⟩ := Parser.parseExpr_sound h
    have : w = w1 := List.append_cancel_right hw
    subst this
    exact Expr.flatSum_spec e (hp.shape hn)

/-- C2 at the tokens of `a + b * c;`. -/
theorem precedence_mul_over_add_witness :
    Parser.parseExpr [⟨.TK_IDENT, ['a']⟩, ⟨.TK_PLUS, ['+']⟩, ⟨.TK_IDENT, ['b']⟩,
        ⟨.TK_MUL, ['*']⟩, ⟨.TK_IDENT, ['c']⟩, ⟨.TK_SEMI, [';']⟩, ⟨.TK_EOF, []⟩] =
      .ok (.BinaryExpr '+' (.VarExpr ['a']) (.BinaryExpr '*' (.VarExpr ['b']) (.VarExpr ['c'])),
        [⟨.TK_SEMI, [';']⟩, ⟨.TK_EOF, []⟩]) :=
  (precedence_mul_over_add.1 [⟨.TK_IDENT, ['a']⟩] [⟨.TK_IDENT, ['b']⟩] [⟨.TK_IDENT, ['c']⟩]
    (.VarExpr ['a']) (.VarExpr ['b']) (.VarExpr ['c']) ⟨.TK_PLUS, ['+']⟩ ⟨.TK_MUL, ['*']⟩
    ⟨.TK_SEMI, [';']⟩ [⟨.TK_EOF, []⟩] (Parses.ident _ rfl).isFactor
    (Parses.ident _ rfl).isFactor (Parses.ident _ rfl).isFactor rfl rfl
    (by decide) (by decide)).1

/-- C3. Left-associativity.  For factors `f0 .. fn` (token lists that
`parseFactor` reads as trees) joined by operators that are all `+` or `-`, or
all `*` or `/`, and followed by a token that is no operator, `parseExpr`
returns the left fold `((f0 op1 f1) op2 f2) ... opn fn`. -/
theorem same_level_operators_fold_left (w0 : List Token) (e0 : Expr) (links : List Link)
    (t : Token) (rest : List Token)
    (h0 : IsFactor w0 e0) (hf : ∀ l ∈ links, IsFactor l.w l.e)
    (hlevel : (∀ l ∈ links, l.op.kind.isAddOp = true) ∨
      (∀ l ∈ links, l.op.kind.isMulOp = true))
    (hm : t.kind.isMulOp = false) (ha : t.kind.isAddOp = false) :
    Parser.parseExpr (w0 ++ chainTokens links ++ t :: rest) =
      .ok (leftFold e0 links, t :: rest) := by
  rw [List.append_assoc, Parser.parseExpr_unfold]
  rcases hlevel with hadd | hmul
  · obtain ⟨t1, rest1, heq, hm1⟩ := chainTokens_head links t rest hadd hm
    rw [heq, h0.parseTerm t1 rest1 hm1, Res.bind_ok, ← heq]
    exact Parser.parseExprLoop_chain links e0 t rest hf hadd hm ha
  · rw [Parser.parseTerm_unfold, h0 _, Res.bind_ok,
      Parser.parseTermLoop_chain links e0 t rest hf hmul hm, Res.bind_ok]
    exact Parser.parseExprLoop_stop _ t rest ha

/-- C3 at the tokens of `a - b - c;`: the tree is
`Binary('-', Binary('-', a, b), c)`. -/
theorem same_level_operators_fold_left_witness :
    Parser.parseExpr [⟨.TK_IDENT, ['a']⟩, ⟨.TK_MINUS, ['-']⟩, ⟨.TK_IDENT, ['b']⟩,
        ⟨.TK_MINUS, ['-']⟩, ⟨.TK_IDENT, ['c']⟩, ⟨.TK_SEMI, [';']⟩, ⟨.TK_EOF, []⟩] =
      .ok (.BinaryExpr '-' (.BinaryExpr '-' (.VarExpr ['a']) (.VarExpr ['b'])) (.VarExpr ['c']),
        [⟨.TK_SEMI, [';']⟩, ⟨.TK_EOF, []⟩]) :=
  same_level_operators_fold_left [⟨.TK_IDENT, ['a']⟩] (.VarExpr ['a'])
    [⟨⟨.TK_MINUS, ['-']⟩, [⟨.TK_IDENT, ['b']⟩], .VarExpr ['b']⟩,
     ⟨⟨.TK_MINUS, ['-']⟩, [⟨.TK_IDENT, ['c']⟩], .VarExpr ['c']⟩]
    ⟨.TK_SEMI, [';']⟩ [⟨.TK_EOF, []⟩] (Parses.ident _ rfl).isFactor
    (by
      intro l hl
      simp only [List.mem_cons, List.mem_singleton, List.not_mem_nil, or_false] at hl
      rcases hl with rfl | rfl
      · exact (Parses.ident _ rfl).isFactor
      · exact (Parses.ident _ rfl).isFactor)
    (Or.inl (by decide)) (by decide) (by decide)

/-- C4. Re-declaration, last declaration wins.  During `compile`, a `let x`
allocates a slot that no earlier `let` allocated; as long as no other `let x`
follows, `namedValues` holds that slot for `x`, every load that emitting an
expression adds for `x` reads it, and a reference to `x` emits exactly one
load from it.  For `let x = 1; let x = 2; print x;` the load of the `print`
reads slot 1, the slot of the second `let`, and the block prints 2. -/
theorem redeclaration_last_wins :
    (∀ (pre mid : List Stmt) (x : List Char) (rhs : Expr) (c c1 c2 : LLVMCompiler),
      LLVMCompiler.init.compileStmts pre = .ok c →
      c.compileStmt (.LetStmt x rhs) = .ok c1 →
      c1.compileStmts mid = .ok c2 →
      (∀ y e, Stmt.LetStmt y e ∈ mid → y ≠ x) →
      ∃ slot, slots c1.entry = slot :: slots c.entry ∧ slot ∉ slots c.entry ∧
        Instr.alloca slot x ∈ c1.entry ∧ c2.find x = some slot ∧
        (∀ e v c3, c2.compileExpr e = .ok (v, c3) → ∀ id s, Instr.load id s x ∈ c3.entry →
          Instr.load id s x ∈ c2.entry ∨ s = slot) ∧
        c2.compileExpr (.VarExpr x) = .ok (.inst c2.nextId,
          { c2 with entry := c2.entry ++ [.load c2.nextId slot x],
                    nextId := c2.nextId + 1 })) ∧
    (LLVMCompiler.compile redeclStmts = .ok redeclCompiled ∧
      exec redeclCompiled.entry Machine.init = some ([2], 0)) := by
  refine ⟨?_, rfl, by decide⟩
  intro pre mid x rhs c c1 c2 hpre hlet hmid hno
  have hinv : c.IdsBelow :=
    LLVMCompiler.compileStmts_idsBelow pre _ c (by simp [LLVMCompiler.IdsBelow,
      LLVMCompiler.init, slots]) hpre
  obtain ⟨_, slot, h1, h2, h3, h4, h5⟩ := c.compileStmt_frame c1 _ hlet
  have hfind : c2.find x = some slot := by
    rw [LLVMCompiler.compileStmts_find mid x c1 c2 hno hmid, h5 x, if_pos rfl]
  refine ⟨slot, h3, ?_, h4, hfind, ?_, ?_⟩
  · intro hmem
    have := hinv slot hmem
    omega
  · intro e v c3 he id s hl
    rcases (LLVMCompiler.compileExpr_frame e c2 c3 v he).2.2.2 id s x hl with h | h
    · exact Or.inl h
    · rw [hfind] at h
      exact Or.inr (Option.some.inj h).symm
  · simp [LLVMCompiler.compileExpr, hfind, LLVMCompiler.CreateLoad]

/-- C4 at `let x = 1; let x = 2;`: the second `let` allocates slot 1, which is
not the slot 0 of the first, and a reference to `x` after it loads from
slot 1. -/
theorem redeclaration_last_wins_witness :
    ∃ slot, slots [Instr.alloca 1 ['x'], .alloca 0 ['x'], .store (.const 1) 0,
          .store (.const 2) 1] = slot :: slots [Instr.alloca 0 ['x'], .store (.const 1) 0] ∧
      slot ∉ slots [Instr.alloca 0 ['x'], .store (.const 1) 0] :=
  have h := redeclaration_last_wins.1 [.LetStmt ['x'] (.NumberExpr 1)] [] ['x'] (.NumberExpr 2)
    ⟨[.alloca 0 ['x'], .store (.const 1) 0], 1, [(['x'], 0)]⟩
    ⟨[.alloca 1 ['x'], .alloca 0 ['x'], .store (.const 1) 0, .store (.const 2) 1], 2,
      [(['x'], 1)]⟩
    ⟨[.alloca 1 ['x'], .alloca 0 ['x'], .store (.const 1) 0, .store (.const 2) 1], 2,
      [(['x'], 1)]⟩
    rfl rfl rfl (by simp)
  h.imp fun _ hs => ⟨hs.1, hs.2.1⟩

/-- C5. Unknown variable is a fatal emission error, and the only one for
parsed programs.  For every statement list the parser returns, `compile`
fails if and only if some statement references a name of which no earlier
statement is a `let`; and when it fails, it fails with the "Unknown variable"
error, for which there is no IR. -/
theorem compile_fails_iff_undeclared (toks : List Token) (stmts : List Stmt)
    (hparse : Parser.parseAll toks = .ok stmts) :
    ((∃ err, LLVMCompiler.compile stmts = .error err) ↔ HasUndeclaredRef stmts) ∧
    (∀ err, LLVMCompiler.compile stmts = .error err → ∃ x, err = .unknownVariable x) := by
  obtain ⟨w, eof, rest, _, _, hss⟩ := Parser.parseAll_sound hparse
  have hv := hss.opsValid
  have key : ∀ err, LLVMCompiler.compile stmts = .error err →
      LLVMCompiler.init.compileStmts stmts = .error err := by
    intro err h
    simp only [LLVMCompiler.compile] at h
    cases hc : LLVMCompiler.init.compileStmts stmts with
    | error e1 => rw [hc] at h; simpa using h
    | ok c => rw [hc] at h; simp at h
  refine ⟨⟨?_, ?_⟩, ?_⟩
  · rintro ⟨err, h⟩
    obtain ⟨pre, s, post, x, heq, hx, _, hpre, _⟩ :=
      LLVMCompiler.compileStmts_error stmts hv _ err (key err h)
    exact ⟨pre, s, post, x, heq, hx, hpre⟩
  · rintro ⟨pre, s, post, x, rfl, hx, hpre⟩
    obtain ⟨err, h⟩ := LLVMCompiler.compileStmts_undeclared pre LLVMCompiler.init s post x hx
      (by simp [LLVMCompiler.find, LLVMCompiler.init]) hpre
    exact ⟨err, by simp [LLVMCompiler.compile, h]⟩
  · intro err h
    obtain ⟨_, _, _, x, _, _, _, _, hxe⟩ :=
      LLVMCompiler.compileStmts_error stmts hv _ err (key err h)
    exact ⟨x, hxe⟩

/-- C5 at `print y;`: the statement list is parsed, `y` is referenced and never
declared, and `compile` fails with "Unknown variable y". -/
theorem compile_fails_iff_undeclared_witness :
    Parser.parseAll [⟨.TK_PRINT, "print".toList⟩, ⟨.TK_IDENT, ['y']⟩, ⟨.TK_SEMI, [';']⟩,
        ⟨.TK_EOF, []⟩] = .ok [.PrintStmt (.VarExpr ['y'])] ∧
    HasUndeclaredRef [.PrintStmt (.VarExpr ['y'])] ∧
    LLVMCompiler.compile [.PrintStmt (.VarExpr ['y'])] = .error (.unknownVariable ['y']) :=
  ⟨by decide,
    ((compile_fails_iff_undeclared [⟨.TK_PRINT, "print".toList⟩, ⟨.TK_IDENT, ['y']⟩,
      ⟨.TK_SEMI, [';']⟩, ⟨.TK_EOF, []⟩] [.PrintStmt (.VarExpr ['y'])] (by decide)).1).mp
      ⟨.unknownVariable ['y'], rfl⟩,
    rfl⟩

/-- C6. A missing `=` in a `let` is a syntax error reported at the offending
token.  In every token sequence in which, after the tokens `pre` of whole
statements (a program that `parseAll` accepts), a statement starts with
`let`, an identifier and a token `t` other than `=`, `parseAll` stops in
`expect(TK_ASSIGN)`, the token it reports as found is `t`, and no statement
list is returned. -/
theorem missing_assign_is_reported (pre : List Token) (ss : List Stmt) (tl id t : Token)
    (rest : List Token)
    (hpre : Parser.parseAll (pre ++ [⟨.TK_EOF, []⟩]) = .ok ss)
    (hno : ∀ x ∈ pre, x.kind ≠ .TK_EOF)
    (hl : tl.kind = .TK_LET) (hi : id.kind = .TK_IDENT) (ht : t.kind ≠ .TK_ASSIGN) :
    Parser.parseAll (pre ++ tl :: id :: t :: rest) = .fail (.expected .TK_ASSIGN t.text) := by
  have hss := Parser.parseAll_whole rfl hno hpre
  rw [Parser.parseAll_eq, hss.loop_runs, Parser.parseAllLoop_cons]
  simp [parseAllBody, hl, hi, Parser.expect, ht]

/-- C6 at `let x 5;`: parsing stops in `expect(TK_ASSIGN)` and reports the
token `5`. -/
theorem missing_assign_is_reported_witness :
    Parser.Parser "let x 5;".toList =
      some [⟨.TK_LET, "let".toList⟩, ⟨.TK_IDENT, ['x']⟩, ⟨.TK_NUMBER, ['5']⟩,
        ⟨.TK_SEMI, [';']⟩, ⟨.TK_EOF, []⟩] ∧
    Parser.parseAll [⟨.TK_LET, "let".toList⟩, ⟨.TK_IDENT, ['x']⟩, ⟨.TK_NUMBER, ['5']⟩,
        ⟨.TK_SEMI, [';']⟩, ⟨.TK_EOF, []⟩] = .fail (.expected .TK_ASSIGN ['5']) :=
  ⟨by decide,
    missing_assign_is_reported [] [] ⟨.TK_LET, "let".toList⟩ ⟨.TK_IDENT, ['x']⟩
      ⟨.TK_NUMBER, ['5']⟩ [⟨.TK_SEMI, [';']⟩, ⟨.TK_EOF, []⟩] (by decide) (by simp) rfl rfl
      (by decide)⟩

/-- C7. Statement count.  Whenever `parseAll` succeeds on the token list the
constructor built, the number of statements returned is the number of `TK_LET`
and `TK_PRINT` tokens of the list, the statements are in the order of those
keywords, and a `;` at statement start adds no statement. -/
theorem statement_count_matches_keywords (src : List Char) (toks : List Token)
    (stmts : List Stmt)
    (hlex : Parser.Parser src = some toks) (hparse : Parser.parseAll toks = .ok stmts) :
    stmts.length = toks.countP (fun t => t.kind.isKeyword) ∧
    stmts.map Stmt.keyword = keywords toks ∧
    ∀ (out : List Stmt) (t : Token) (rest : List Token), t.kind = .TK_SEMI →
      Parser.parseAllLoop out (t :: rest) = Parser.parseAllLoop out rest := by
  obtain ⟨body, hb, hno⟩ := Parser.tokens_shape src
  rw [hlex, Option.some.injEq] at hb
  subst hb
  have hss := Parser.parseAll_whole rfl hno hparse
  have hk : stmts.map Stmt.keyword = keywords (body ++ [⟨.TK_EOF, []⟩]) := by
    rw [keywords_append, hss.keywords_eq]
    simp [keywords, TokenKind.isKeyword]
  refine ⟨?_, hk, ?_⟩
  · have := congrArg List.length hk
    rw [List.length_map] at this
    rw [this, keywords_length]
  · intro out t rest ht
    rw [Parser.parseAllLoop_cons]
    simp [parseAllBody, ht]

/-- C7 at `let x = 2 + 3 * 4; print x;`: two keywords, two statements. -/
theorem statement_count_matches_keywords_witness :
    sampleStmts.length = sampleTokens.countP (fun t => t.kind.isKeyword) ∧
    sampleStmts.map Stmt.keyword = [.TK_LET, .TK_PRINT] ∧
    keywords sampleTokens = [.TK_LET, .TK_PRINT] :=
  have h := statement_count_matches_keywords "let x = 2 + 3 * 4; print x;".toList sampleTokens
    sampleStmts (by decide) (by decide)
  ⟨h.1, by decide, by decide⟩

/-- C8, the claim as stated is false.  For `let x = 2 + 3 * 4; print x;` the
emitted block holds no arithmetic instruction at all, hence not one multiply
of 3 and 4 followed by one add of 2 and its result: both operations have
constant operands and are folded by the builder, and the constant 14 is
stored. -/
theorem expression_emission_counterexample :
    compileSource "let x = 2 + 3 * 4; print x;".toList = some (.ok (.ok sampleCompiled)) ∧
    arith sampleCompiled.entry = [] ∧
    Instr.store (.const 14) 0 ∈ sampleCompiled.entry ∧
    ¬ ∃ i j, arith sampleCompiled.entry =
      [.binop i .mul (.const 3) (.const 4), .binop j .add (.const 2) (.inst i)] :=
  ⟨rfl, by decide, by decide, by
    rintro ⟨i, j, h⟩
    have h0 : arith sampleCompiled.entry = [] := by decide
    rw [h0] at h
    simp at h⟩

/-- C8 as amended.  Expression emission emits at most one arithmetic
instruction per binary-operation node, in post-order: the instructions of the
left operand, then those of the right operand, emitted in the state the left
operand left, then the node's own `add`/`sub`/`mul`/`sdiv` on the two
resulting values, unless both values are constants, in which case nothing is
emitted for the node and its value is the folded constant.  The arithmetic
instructions emitted for an expression are as many as its binary nodes with a
variable reference below them, and no instruction is emitted for a Number.
For `let x = 2 + 3 * 4; print x;` no arithmetic instruction is emitted and the
constant 14 is stored. -/
theorem expression_emission_post_order :
    (∀ (c : LLVMCompiler) (value : Int),
      c.compileExpr (.NumberExpr value) = .ok (.const value, c)) ∧
    (∀ (c c3 : LLVMCompiler) (op : Char) (lhs rhs : Expr) (v : Val),
      c.compileExpr (.BinaryExpr op lhs rhs) = .ok (v, c3) →
      ∃ l c1 r c2 bop, c.compileExpr lhs = .ok (l, c1) ∧ c1.compileExpr rhs = .ok (r, c2) ∧
        opcode op = some bop ∧
        ((l.isIntConst = true ∧ r.isIntConst = true ∧
            ConstantFolder.FoldBinOp bop l r = some v ∧ c3 = c2) ∨
         ((l.isIntConst = false ∨ r.isIntConst = false) ∧ v = .inst c2.nextId ∧
            c3 = { c2 with entry := c2.entry ++ [.binop c2.nextId bop l r],
                           nextId := c2.nextId + 1 }))) ∧
    (∀ (c c1 : LLVMCompiler) (e : Expr) (v : Val), c.compileExpr e = .ok (v, c1) →
      ∃ new, c1.entry = c.entry ++ new ∧ (arith new).length = e.arithCount) ∧
    (compileSource "let x = 2 + 3 * 4; print x;".toList = some (.ok (.ok sampleCompiled)) ∧
      arith sampleCompiled.entry = [] ∧ Instr.store (.const 14) 0 ∈ sampleCompiled.entry) := by
  refine ⟨fun c value => rfl, ?_, ?_, rfl, by decide, by decide⟩
  · intro c c3 op lhs rhs v h
    obtain ⟨l, c1, r, c2, bop, hl, hr, hop, hcase⟩ := c.compileExpr_binary c3 op lhs rhs v h
    refine ⟨l, c1, r, c2, bop, hl, hr, hop, ?_⟩
    have hli := (LLVMCompiler.compileExpr_arith lhs c c1 l hl).1
    have hri := (LLVMCompiler.compileExpr_arith rhs c1 c2 r hr).1
    rcases ConstantFolder.FoldBinOp_spec bop l r hli hri with
      ⟨hlc, hrc, v1, hv1, _⟩ | ⟨hnc, hnone⟩
    · rcases hcase with ⟨hf, hc⟩ | ⟨hf, _, _⟩
      · exact Or.inl ⟨hlc, hrc, hf, hc⟩
      · rw [hv1] at hf; simp at hf
    · rcases hcase with ⟨hf, _⟩ | ⟨_, hv, hc⟩
      · rw [hnone] at hf; simp at hf
      · exact Or.inr ⟨hnc, hv, hc⟩
  · intro c c1 e v h
    exact (LLVMCompiler.compileExpr_arith e c c1 v h).2.2

/-- C8 as amended, at `x * (2 + 3)` after `let x = 1;`: a load of `x`, then
one multiply of the loaded value and the folded constant 5. -/
theorem expression_emission_post_order_witness :
    ∃ new, [Instr.alloca 0 ['x'], .store (.const 1) 0, .load 1 0 ['x'],
        .binop 2 .mul (.inst 1) (.const 5)] =
        [Instr.alloca 0 ['x'], .store (.const 1) 0] ++ new ∧
      (arith new).length =
        (Expr.BinaryExpr '*' (.VarExpr ['x'])
          (.BinaryExpr '+' (.NumberExpr 2) (.NumberExpr 3))).arithCount :=
  expression_emission_post_order.2.2.1 ⟨[.alloca 0 ['x'], .store (.const 1) 0], 1, [(['x'], 0)]⟩
    ⟨[.alloca 0 ['x'], .store (.const 1) 0, .load 1 0 ['x'],
      .binop 2 .mul (.inst 1) (.const 5)], 3, [(['x'], 0)]⟩
    (.BinaryExpr '*' (.VarExpr ['x']) (.BinaryExpr '+' (.NumberExpr 2) (.NumberExpr 3)))
    (.inst 2) rfl

/-- C9. For every source string the constructor loop of `Parser` terminates;
the token list it builds ends with `TK_EOF`, and no other token of the list
is `TK_EOF`. -/
theorem token_list_ends_with_single_eof (src : List Char) :
    ∃ body, Parser.Parser src = some (body ++ [⟨.TK_EOF, []⟩]) ∧
      ∀ t ∈ body, t.kind ≠ .TK_EOF :=
  Parser.tokens_shape src

/-- C10. The parser accepts exactly the documented grammar.  For every token
sequence that holds a `TK_EOF`, with no `TK_EOF` among the tokens `body`
before it and with integer literals that fit in a 32-bit signed `int`,
`parseAll` succeeds if and only if `body` is a sentence of
`program := { statement }`; on any other such sequence it stops the process
with an error. -/
theorem parser_accepts_exactly_the_grammar (body tail : List Token) (eof : Token)
    (heof : eof.kind = .TK_EOF) (hno : ∀ t ∈ body, t.kind ≠ .TK_EOF)
    (hfit : LiteralsFit body) :
    ((∃ stmts, Parser.parseAll (body ++ eof :: tail) = .ok stmts) ↔ Gram .program body) ∧
    (¬ Gram .program body →
      ∃ err, Parser.parseAll (body ++ eof :: tail) = .fail err ∧ err ≠ .outOfBounds) := by
  have hiff : (∃ stmts, Parser.parseAll (body ++ eof :: tail) = .ok stmts) ↔
      Gram .program body := by
    constructor
    · rintro ⟨stmts, h⟩
      obtain ⟨w, eof2, rest, heq, heof2, hss⟩ := Parser.parseAll_sound h
      obtain ⟨hw, _, _⟩ := eof_split_unique heq heof heof2 hno hss.no_eof
      rw [hw]
      exact hss.program_gram
    · intro hg
      obtain ⟨ss, hss⟩ := hg.parses hfit
      exact ⟨ss, Parser.parseAll_complete hss eof tail heof⟩
  refine ⟨hiff, ?_⟩
  intro hng
  have hb := Parser.parseAll_in_bounds (body ++ eof :: tail) ⟨eof, by simp, heof⟩
  cases hres : Parser.parseAll (body ++ eof :: tail) with
  | ok stmts => exact absurd (hiff.mp ⟨stmts, hres⟩) hng
  | fail err =>
    refine ⟨err, rfl, ?_⟩
    rintro rfl
    exact hb hres
  | fuel => exact absurd hres (Parser.parseAllLoop_ne_fuel [] _)

/-- C10 at the tokens of `let x = 2 + 3 * 4; print x;`: they form a program and
`parseAll` succeeds. -/
theorem parser_accepts_exactly_the_grammar_witness :
    Gram .program sampleTokens.dropLast ∧
    ∃ stmts, Parser.parseAll (sampleTokens.dropLast ++ ⟨.TK_EOF, []⟩ :: []) = .ok stmts :=
  have h := parser_accepts_exactly_the_grammar sampleTokens.dropLast [] ⟨.TK_EOF, []⟩ rfl
    (by decide)
    (by
      intro t ht hk
      simp only [sampleTokens, List.dropLast, List.mem_cons, List.not_mem_nil, or_false] at ht
      rcases ht with rfl | rfl | rfl | rfl | rfl | rfl | rfl | rfl | rfl | rfl | rfl | rfl <;>
        first
        | exact absurd hk (by decide)
        | exact ⟨by decide, by decide, by decide⟩)
  ⟨h.1.mp ⟨sampleStmts, by decide⟩, h.1.mpr (h.1.mp ⟨sampleStmts, by decide⟩)⟩

/-- C11, the claim as stated is false.  For `let x = 1; let x = 2; print x;` the block is
the allocation of the second slot, the allocation of the first slot, the two
stores, the load, the call and the return.  It is not the concatenation of
the groups of the three statements with the allocation of each `let` before
its store, and it is no concatenation of any groups of the claimed shape: the
first instruction is an allocation that no store follows. -/
theorem ir_layout_counterexample :
    LLVMCompiler.compile redeclStmts = .ok redeclCompiled ∧
    redeclCompiled.entry = [.alloca 1 ['x'], .alloca 0 ['x'], .store (.const 1) 0,
      .store (.const 2) 1, .load 2 1 ['x'],
      .call 3 "printf".toList [.globalStr "%d\n".toList, .inst 2], .ret (.const 0)] ∧
    claimedLayout (LLVMCompiler.init.groups redeclStmts) = [.alloca 0 ['x'],
      .store (.const 1) 0, .alloca 1 ['x'], .store (.const 2) 1, .load 2 1 ['x'],
      .call 3 "printf".toList [.globalStr "%d\n".toList, .inst 2], .ret (.const 0)] ∧
    redeclCompiled.entry ≠ claimedLayout (LLVMCompiler.init.groups redeclStmts) ∧
    ¬ ∃ groups, List.Forall₂ ClaimedGroup redeclStmts groups ∧
        redeclCompiled.entry = groups.flatten ++ [.ret (.const 0)] := by
  refine ⟨rfl, rfl, by decide, by decide, ?_⟩
  rintro ⟨groups, hf, he⟩
  simp only [redeclStmts, List.forall₂_cons_left_iff] at hf
  obtain ⟨g1, gs1, hg1, _, rfl⟩ := hf
  obtain ⟨new, v, slot, hnew, rfl⟩ := hg1
  cases new with
  | nil => simp [redeclCompiled] at he
  | cons i new =>
    simp only [redeclCompiled, List.flatten_cons, List.cons_append, List.cons.injEq] at he
    have := hnew i (List.mem_cons_self _ _)
    rw [← he.1] at this
    simp [Instr.isExprInstr] at this

/-- C11 as amended.  For every statement list on which `compile` succeeds, the
instruction list of the entry block of `main` is the stack-slot allocations of
the `let` statements, the latest first, followed by the concatenation, in
statement order, of one instruction group per input statement (for a `let`:
the instructions of its right-hand side, then the store into its slot; for a
`print`: the instructions of its expression, then the call), followed by
exactly one final return of 0. -/
theorem ir_layout_allocations_first (stmts : List Stmt) (c : LLVMCompiler)
    (h : LLVMCompiler.compile stmts = .ok c) :
    List.Forall₂ Group.IsFor stmts (LLVMCompiler.init.groups stmts) ∧
    c.entry = hoistedLayout (LLVMCompiler.init.groups stmts) ∧
    ∃ body, c.entry = body ++ [.ret (.const 0)] ∧ ∀ i ∈ body, i.notRet := by
  simp only [LLVMCompiler.compile] at h
  cases hs : LLVMCompiler.init.compileStmts stmts with
  | error err => rw [hs] at h; simp at h
  | ok c1 =>
    rw [hs] at h
    simp only [Except.ok.injEq] at h
    subst h
    obtain ⟨h1, h2⟩ := LLVMCompiler.compileStmts_layout stmts _ c1 hs
    obtain ⟨n1, n2⟩ := Group.notRet_of_forall₂ h1
    have he : (c1.CreateRet (.const 0)).entry =
        hoistedLayout (LLVMCompiler.init.groups stmts) := by
      simp only [LLVMCompiler.CreateRet, hoistedLayout, h2, LLVMCompiler.init, List.append_nil]
    refine ⟨h1, he, _, by rw [he]; rfl, ?_⟩
    intro i hi
    rcases List.mem_append.mp hi with hi | hi
    · exact n1 i hi
    · exact n2 i hi

/-- C11 as amended, at `let x = 1; let x = 2; print x;`: the two allocations,
the later first, then the two stores, the load and the call, then the
return. -/
theorem ir_layout_allocations_first_witness :
    LLVMCompiler.compile redeclStmts = .ok redeclCompiled ∧
    List.Forall₂ Group.IsFor redeclStmts (LLVMCompiler.init.groups redeclStmts) ∧
    redeclCompiled.entry = hoistedLayout (LLVMCompiler.init.groups redeclStmts) ∧
    ∃ body, redeclCompiled.entry = body ++ [.ret (.const 0)] ∧ ∀ i ∈ body, i.notRet :=
  ⟨rfl, ir_layout_allocations_first redeclStmts redeclCompiled rfl⟩

/-- C12. With the cursor, after whitespace, on a letter or an underscore,
`Lexer::next` consumes the maximal run of letters, digits and underscores and
returns `TK_LET` for the run `let`, `TK_PRINT` for the run `print` and
otherwise `TK_IDENT`, with the run as text. Hence no `TK_IDENT` token that
`Lexer::next` returns, or that is in a token list built by the constructor,
has the text `let` or `print`; and the words `letx` and `print1` are lexed
as `TK_IDENT`. -/
theorem identifier_keyword_classification :
    (∀ (l : List Char) (c : Char) (r : List Char), Lexer.skip_ws l = c :: r →
      (isalpha c = true ∨ c = '_') →
      ∃ run rest, c :: r = run ++ rest ∧ run ≠ [] ∧ (∀ d ∈ run, isIdentChar d = true) ∧
        (∀ d rest2, rest = d :: rest2 → isIdentChar d = false) ∧
        Lexer.next l = (⟨if run = "let".toList then .TK_LET
          else if run = "print".toList then .TK_PRINT else .TK_IDENT, run⟩, rest)) ∧
    (∀ l : List Char, (Lexer.next l).1.kind = .TK_IDENT →
      (Lexer.next l).1.text ≠ "let".toList ∧ (Lexer.next l).1.text ≠ "print".toList) ∧
    (∀ (src : List Char) (toks : List Token), Parser.Parser src = some toks →
      ∀ t ∈ toks, t.kind = .TK_IDENT → t.text ≠ "let".toList ∧ t.text ≠ "print".toList) ∧
    Lexer.next "let x".toList = (⟨.TK_LET, "let".toList⟩, " x".toList) ∧
    Lexer.next "print x".toList = (⟨.TK_PRINT, "print".toList⟩, " x".toList) ∧
    Lexer.next "letx = 1".toList = (⟨.TK_IDENT, "letx".toList⟩, " = 1".toList) ∧
    Lexer.next "print1;".toList = (⟨.TK_IDENT, "print1".toList⟩, ";".toList) :=
  ⟨Lexer.next_word_spec, Lexer.next_ident, Parser.tokens_ident, by decide, by decide, by decide,
    by decide⟩

/-- C13. For every statement list on which `compile` succeeds, the call
instructions of the emitted block are, in statement order, one per `print`
statement and no other: each calls `printf` with exactly two arguments, the
format string `%d\n` and the value `compileExpr` returned for the expression
of that statement. -/
theorem print_emits_one_printf_call (stmts : List Stmt) (c : LLVMCompiler)
    (h : LLVMCompiler.compile stmts = .ok c) :
    callsOf c.entry = LLVMCompiler.init.printCalls stmts ∧
    (callsOf c.entry).length = (stmts.filter Stmt.isPrint).length ∧
    ∀ p ∈ callsOf c.entry, p.1 = "printf".toList ∧ ∃ v, p.2 = [.globalStr "%d\n".toList, v] := by
  simp only [LLVMCompiler.compile] at h
  cases hs : LLVMCompiler.init.compileStmts stmts with
  | error err => rw [hs] at h; simp at h
  | ok c1 =>
    rw [hs] at h
    simp only [Except.ok.injEq] at h
    subst h
    obtain ⟨h1, h2⟩ := LLVMCompiler.compileStmts_calls stmts _ c1 hs
    have he : callsOf (c1.CreateRet (.const 0)).entry = LLVMCompiler.init.printCalls stmts := by
      simp [LLVMCompiler.CreateRet, callsOf_append, h1, callsOf, LLVMCompiler.init]
    refine ⟨he, by rw [he, h2], ?_⟩
    rw [he]
    exact LLVMCompiler.printCalls_shape stmts _

/-- C13 at `let x = 5; print x; print x * 2;`: two calls of `printf`, the
first with the value loaded for `x`, the second with the product. -/
theorem print_emits_one_printf_call_witness :
    LLVMCompiler.compile printsStmts = .ok printsCompiled ∧
    callsOf printsCompiled.entry =
      [("printf".toList, [.globalStr "%d\n".toList, .inst 1]),
       ("printf".toList, [.globalStr "%d\n".toList, .inst 4])] ∧
    (callsOf printsCompiled.entry = LLVMCompiler.init.printCalls printsStmts ∧
      (callsOf printsCompiled.entry).length = (printsStmts.filter Stmt.isPrint).length ∧
      ∀ p ∈ callsOf printsCompiled.entry,
        p.1 = "printf".toList ∧ ∃ v, p.2 = [.globalStr "%d\n".toList, v]) :=
  ⟨rfl, by decide, print_emits_one_printf_call printsStmts printsCompiled rfl⟩

/-- C14. The lexer makes a `TK_NUMBER` token of every maximal run of digits
it meets, whatever its magnitude; `parseFactor` on a `TK_NUMBER` token whose
text is a run of digits with decimal value `v` returns `Number(v)` when
`v <= 2147483647` and fails in the conversion, with no tree, when `v` is
larger, so it succeeds if and only if `v <= 2147483647`. -/
theorem literal_overflow_fails_at_conversion :
    (∀ (l : List Char) (c : Char) (r : List Char), Lexer.skip_ws l = c :: r →
      isdigit c = true →
      ∃ run rest, c :: r = run ++ rest ∧ run ≠ [] ∧ (∀ d ∈ run, isdigit d = true) ∧
        (∀ d rest2, rest = d :: rest2 → isdigit d = false) ∧
        Lexer.next l = (⟨.TK_NUMBER, run⟩, rest)) ∧
    (∀ (t : Token) (rest : List Token), t.kind = .TK_NUMBER → t.text ≠ [] →
      (∀ c ∈ t.text, isdigit c = true) →
      (decimalValue t.text ≤ 2147483647 →
        Parser.parseFactor (t :: rest) = .ok (.NumberExpr (decimalValue t.text), rest)) ∧
      (2147483647 < decimalValue t.text →
        Parser.parseFactor (t :: rest) = .fail .stoiOutOfRange) ∧
      ((∃ r, Parser.parseFactor (t :: rest) = .ok r) ↔ decimalValue t.text ≤ 2147483647)) ∧
    Lexer.next "99999999999999999999;".toList =
      (⟨.TK_NUMBER, "99999999999999999999".toList⟩, ";".toList) ∧
    Parser.parseFactor [⟨.TK_NUMBER, "2147483647".toList⟩, ⟨.TK_EOF, []⟩] =
      .ok (.NumberExpr 2147483647, [⟨.TK_EOF, []⟩]) ∧
    Parser.parseFactor [⟨.TK_NUMBER, "2147483648".toList⟩, ⟨.TK_EOF, []⟩] =
      .fail .stoiOutOfRange := by
  refine ⟨Lexer.next_number_spec, ?_, by decide, by decide, by decide⟩
  intro t rest hk hne hd
  have h := Parser.parseFactor_number t rest hk hne hd
  refine ⟨fun hle => by rw [h, if_pos hle], fun hgt => by rw [h, if_neg (by omega)], ?_⟩
  constructor
  · rintro ⟨r, hr⟩
    by_contra hgt
    rw [h, if_neg hgt] at hr
    exact absurd hr (by simp)
  · intro hle
    exact ⟨_, by rw [h, if_pos hle]⟩

/-- C15, the claim as stated is false.  The source of the two characters NUL and `@`
contains the unrecognized character `@`, and the constructor builds from it
the token list of the one token `TK_EOF`, with no `TK_UNKNOWN` token; and
`parseAll` succeeds on the token sequence of a `TK_EOF` followed by a
`TK_UNKNOWN` token. -/
theorem unknown_character_counterexample :
    (Lexer.isUnrecognized '@' = true ∧ '@' ∈ [NUL, '@'] ∧
      Parser.Parser [NUL, '@'] = some [⟨.TK_EOF, []⟩] ∧
      ¬ ∃ toks, Parser.Parser [NUL, '@'] = some toks ∧ (⟨.TK_UNKNOWN, ['@']⟩ : Token) ∈ toks) ∧
    ((∃ t ∈ [(⟨.TK_EOF, []⟩ : Token), ⟨.TK_UNKNOWN, ['@']⟩], t.kind = .TK_UNKNOWN) ∧
      Parser.parseAll [⟨.TK_EOF, []⟩, ⟨.TK_UNKNOWN, ['@']⟩] = .ok []) := by
  refine ⟨⟨by decide, by decide, by decide, ?_⟩, ⟨⟨.TK_UNKNOWN, ['@']⟩, by simp, rfl⟩, by decide⟩
  rintro ⟨toks, h, hm⟩
  have h2 : Parser.Parser [NUL, '@'] = some [⟨.TK_EOF, []⟩] := by decide
  rw [h2] at h
  simp only [Option.some.injEq] at h
  subst h
  simp at hm

/-- C15 as amended.  For every source containing, with no NUL character before
it, a character that is not whitespace, NUL, a letter, a digit, underscore or
one of `+ - * / ( ) ; =`, lexing still completes and yields a `TK_UNKNOWN`
token whose text is exactly that one character; and `parseAll` fails on every
token sequence that contains a `TK_UNKNOWN` token before its first `TK_EOF`
token, without reading past the tokens, hence on every token list built by
the constructor that contains a `TK_UNKNOWN` token. -/
theorem unknown_character_fatal_in_parseAll :
    (∀ (pre : List Char) (c : Char) (post : List Char), NUL ∉ pre →
      Lexer.isUnrecognized c = true →
      ∃ toks, Parser.Parser (pre ++ c :: post) = some toks ∧
        (⟨.TK_UNKNOWN, [c]⟩ : Token) ∈ toks) ∧
    (∀ (pre : List Token) (u : Token) (post : List Token), (∀ t ∈ pre, t.kind ≠ .TK_EOF) →
      u.kind = .TK_UNKNOWN →
      ∃ e, Parser.parseAll (pre ++ u :: post) = .fail e ∧
        (HasEof (pre ++ u :: post) → e ≠ .outOfBounds)) ∧
    (∀ (src : List Char) (toks : List Token), Parser.Parser src = some toks →
      (∃ t ∈ toks, t.kind = .TK_UNKNOWN) →
      ∃ e, Parser.parseAll toks = .fail e ∧ e ≠ .outOfBounds) ∧
    Parser.Parser "print 1 @ 2;".toList = some [⟨.TK_PRINT, "print".toList⟩,
      ⟨.TK_NUMBER, ['1']⟩, ⟨.TK_UNKNOWN, ['@']⟩, ⟨.TK_NUMBER, ['2']⟩, ⟨.TK_SEMI, [';']⟩,
      ⟨.TK_EOF, []⟩] ∧
    Parser.parseAll [⟨.TK_PRINT, "print".toList⟩,
      ⟨.TK_NUMBER, ['1']⟩, ⟨.TK_UNKNOWN, ['@']⟩, ⟨.TK_NUMBER, ['2']⟩, ⟨.TK_SEMI, [';']⟩,
      ⟨.TK_EOF, []⟩] = .fail (.expected .TK_SEMI ['@']) := by
  refine ⟨?_, Parser.parseAll_unknown, ?_, by decide, by decide⟩
  · intro pre c post hnul hc
    exact Parser.lexLoop_unknown c hc post _ pre hnul (Nat.lt_succ_self _)
  · rintro src toks h ⟨u, hu, hk⟩
    obtain ⟨body, hb, hne⟩ := Parser.tokens_shape src
    rw [h, Option.some.injEq] at hb
    subst hb
    have hub : u ∈ body := by
      rcases List.mem_append.mp hu with hu | hu
      · exact hu
      · rw [List.mem_singleton.mp hu] at hk
        exact absurd hk (by decide)
    obtain ⟨pre, post, rfl⟩ := List.append_of_mem hub
    have hE : HasEof (pre ++ u :: post ++ [⟨.TK_EOF, []⟩]) := ⟨⟨.TK_EOF, []⟩, by simp, rfl⟩
    rw [List.append_assoc, List.cons_append] at hE ⊢
    obtain ⟨e, he, hin⟩ := Parser.parseAll_unknown pre u (post ++ [⟨.TK_EOF, []⟩])
      (fun t ht => hne t (by simp [ht])) hk
    exact ⟨e, he, hin hE⟩

/-- C16. A `let` evaluates its right-hand side before it binds its name.
When `compileStmt` processes `let x = e` in a state `c`, the expression `e` is
emitted in `c`: the loads appended are, in order, one for each reference of
`e`, from the slot `namedValues` holds for the name before the statement, and
only then is `x` bound to a new slot.  In a run of `compile`, a reference to
`x` inside `e` therefore loads from the slot `x` had before, which is older
than the new one; and when no earlier statement is a `let` of `x`, `compile`
fails, with the "Unknown variable" error when the operators are those the
parser builds.  So `let x = x;` fails, and `let x = 1; let x = x + 1;
print x;` loads from the first slot and prints 2. -/
theorem let_evaluates_rhs_before_binding :
    (∀ (c c2 : LLVMCompiler) (x : List Char) (e : Expr),
      c.compileStmt (.LetStmt x e) = .ok c2 →
      ∃ v c1 new, c.compileExpr e = .ok (v, c1) ∧ c1.entry = c.entry ++ new ∧
        (loadsOf new).map (fun p => (p.1, some p.2)) = e.vars.map (fun y => (y, c.find y)) ∧
        c2.entry = .alloca c1.nextId x :: (c.entry ++ new ++ [.store v c1.nextId]) ∧
        c2.find x = some c1.nextId) ∧
    (∀ (pre : List Stmt) (c c2 : LLVMCompiler) (x : List Char) (e : Expr),
      LLVMCompiler.init.compileStmts pre = .ok c → c.compileStmt (.LetStmt x e) = .ok c2 →
      x ∈ e.vars →
      ∃ old new added, c.find x = some old ∧ c2.find x = some new ∧ old < new ∧
        c2.entry = .alloca new x :: (c.entry ++ added) ∧
        (x, old) ∈ loadsOf added ∧ ∀ s, (x, s) ∈ loadsOf added → s = old) ∧
    (∀ (pre post : List Stmt) (x : List Char) (e : Expr), x ∈ e.vars →
      (∀ s ∈ pre, s.declares x = false) →
      ∃ err, LLVMCompiler.compile (pre ++ .LetStmt x e :: post) = .error err) ∧
    (∀ (c : LLVMCompiler) (x : List Char) (e : Expr), x ∈ e.vars → c.find x = none →
      (∃ err, c.compileStmt (.LetStmt x e) = .error err) ∧
      (e.opsValid → ∃ y ∈ e.vars, c.find y = none ∧
        c.compileStmt (.LetStmt x e) = .error (.unknownVariable y))) ∧
    (compileSource "let x = x;".toList = some (.ok (.error (.unknownVariable ['x']))) ∧
      compileSource "let x = 1; let x = x + 1; print x;".toList =
        some (.ok (.ok rebindCompiled)) ∧
      loadsOf rebindCompiled.entry = [(['x'], 0), (['x'], 3)] ∧
      exec rebindCompiled.entry Machine.init = some ([2], 0)) := by
  refine ⟨?_, ?_, ?_, ?_, rfl, rfl, by decide, by decide⟩
  · intro c c2 x e h
    obtain ⟨v, c1, new, h1, h2, h3, h4, h5, _⟩ := c.compileStmt_let c2 x e h
    exact ⟨v, c1, new, h1, h2, h3, h4, h5⟩
  · intro pre c c2 x e hpre h hx
    obtain ⟨v, c1, new, h1, h2, h3, h4, h5, h6⟩ := c.compileStmt_let c2 x e h
    have hw := LLVMCompiler.compileStmts_wellFormed pre _ c LLVMCompiler.init_wellFormed hpre
    have hb := LLVMCompiler.compileStmts_idsBelow pre _ c LLVMCompiler.init_idsBelow hpre
    cases hf : c.find x with
    | none => exact absurd hf (LLVMCompiler.compileExpr_ok_vars e c c1 v h1 x hx)
    | some old =>
      have hlt : old < c.nextId := hb old (hw.find hf)
      have hmem : ∀ s, (x, s) ∈ loadsOf new ↔ s = old := by
        intro s
        have : (x, some s) ∈ (loadsOf new).map (fun p => (p.1, some p.2)) ↔ s = old := by
          rw [h3]
          simp only [List.mem_map, Prod.mk.injEq]
          constructor
          · rintro ⟨y, _, rfl, hy⟩
            rw [hf] at hy
            exact (Option.some.inj hy).symm
          · rintro rfl
            exact ⟨x, hx, rfl, hf⟩
        rw [← this]
        simp only [List.mem_map, Prod.mk.injEq, Option.some.injEq]
        constructor
        · intro hm
          exact ⟨(x, s), hm, rfl, rfl⟩
        · rintro ⟨⟨a, b⟩, hm, rfl, rfl⟩
          exact hm
      refine ⟨old, c1.nextId, new ++ [.store v c1.nextId], rfl, h5, by omega, ?_, ?_, ?_⟩
      · rw [h4]
        simp
      · rw [loadsOf_append]
        exact List.mem_append_left _ ((hmem old).mpr rfl)
      · intro s hs
        rw [loadsOf_append] at hs
        simp only [loadsOf, List.append_nil] at hs
        exact (hmem s).mp hs
  · intro pre post x e hx hpre
    obtain ⟨err, h⟩ := LLVMCompiler.compileStmts_undeclared pre LLVMCompiler.init
      (.LetStmt x e) post x hx (by simp [LLVMCompiler.find, LLVMCompiler.init]) hpre
    exact ⟨err, by simp [LLVMCompiler.compile, h]⟩
  · intro c x e hx hf
    cases hc : c.compileExpr e with
    | ok p => exact absurd hf (LLVMCompiler.compileExpr_ok_vars e c p.2 p.1 hc x hx)
    | error err =>
      have hs : c.compileStmt (.LetStmt x e) = .error err := by
        simp only [LLVMCompiler.compileStmt, hc]
      refine ⟨⟨err, hs⟩, fun hv => ?_⟩
      obtain ⟨y, hy, hfy, rfl⟩ := LLVMCompiler.compileExpr_error e hv c err hc
      exact ⟨y, hy, hfy, hs⟩

/-- C17. On every token list that holds a `TK_EOF`, as every list built by the
constructor does at its end, `parseAll` either returns statements or stops
with a reported error: no `toks[pos]` read of `peek` or `get`, on the success
and on the failure paths, is past the end of the list, also not the
unconditional `get()` of the `let` branch, which reads the `TK_EOF` in
`let` followed by `TK_EOF` and is past the end only when no `TK_EOF` follows. -/
theorem parser_indexing_in_bounds :
    (∀ toks : List Token, HasEof toks →
      (∃ stmts, Parser.parseAll toks = .ok stmts) ∨
      (∃ e, Parser.parseAll toks = .fail e ∧ e ≠ .outOfBounds)) ∧
    (∀ src : List Char, ∃ toks, Parser.Parser src = some toks ∧ HasEof toks ∧
      ((∃ stmts, Parser.parseAll toks = .ok stmts) ∨
        (∃ e, Parser.parseAll toks = .fail e ∧ e ≠ .outOfBounds))) ∧
    Parser.parseAll [⟨.TK_LET, "let".toList⟩, ⟨.TK_EOF, []⟩] = .fail .expectedIdent ∧
    Parser.parseAll [⟨.TK_LET, "let".toList⟩] = .fail .outOfBounds := by
  have key : ∀ toks : List Token, HasEof toks →
      (∃ stmts, Parser.parseAll toks = .ok stmts) ∨
      (∃ e, Parser.parseAll toks = .fail e ∧ e ≠ .outOfBounds) := by
    intro toks h
    cases hr : Parser.parseAll toks with
    | ok stmts => exact Or.inl ⟨stmts, rfl⟩
    | fail e =>
      refine Or.inr ⟨e, rfl, fun he => ?_⟩
      rw [he] at hr
      exact Parser.parseAll_in_bounds toks h hr
    | fuel => exact absurd hr (Parser.parseAllLoop_ne_fuel _ _)
  refine ⟨key, ?_, by decide, by decide⟩
  intro src
  obtain ⟨body, hb, _⟩ := Parser.tokens_shape src
  have hE : HasEof (body ++ [⟨.TK_EOF, []⟩]) := ⟨⟨.TK_EOF, []⟩, by simp, rfl⟩
  exact ⟨_, hb, hE, key _ hE⟩

/-- C18. For every source with no NUL character, the constructor builds a
token list, and the texts of its tokens, concatenated in order, are the source
with the characters accepted by `isspace` removed. -/
theorem lexing_loses_only_whitespace (src : List Char) (hnul : NUL ∉ src) :
    ∃ toks, Parser.Parser src = some toks ∧
      (toks.map Token.text).flatten = src.filter (fun c => !isspace c) := by
  obtain ⟨body, hb, _⟩ := Parser.tokens_shape src
  exact ⟨_, hb, Parser.lexLoop_texts _ src _ hnul hb⟩

/-- C18 at a source with blanks, a tab and a newline. -/
theorem lexing_loses_only_whitespace_witness :
    NUL ∉ "let x1 = 2 +\t30;\n print x1 ;".toList ∧
    ∃ toks, Parser.Parser "let x1 = 2 +\t30;\n print x1 ;".toList = some toks ∧
      (toks.map Token.text).flatten =
        "let x1 = 2 +\t30;\n print x1 ;".toList.filter (fun c => !isspace c) :=
  ⟨by decide, lexing_loses_only_whitespace _ (by decide)⟩

/-- C19. For all strings `s` and `t`, the token list the constructor builds
from `s`, a NUL character and `t` is the token list it builds from `s`: a NUL
character ends the input, also a word or a number being scanned. -/
theorem nul_ends_the_input :
    (∀ s t : List Char, Parser.Parser (s ++ NUL :: t) = Parser.Parser s ∧
      ∃ toks, Parser.Parser s = some toks) ∧
    Parser.Parser ("print ab".toList ++ NUL :: "cd;".toList) =
      some [⟨.TK_PRINT, "print".toList⟩, ⟨.TK_IDENT, "ab".toList⟩, ⟨.TK_EOF, []⟩] := by
  refine ⟨fun s t => ⟨Parser.lexLoop_append_nul t _ _ s (by simp; omega) (by simp), ?_⟩,
    by decide⟩
  obtain ⟨body, h, _⟩ := Parser.tokens_shape s
  exact ⟨_, h⟩

/-- C20. The emitted block is well formed with respect to definition before
use after every step of `compile`.  The fresh state is well formed; every
emission of an expression keeps the state well formed and returns a constant
or the result of an instruction of the block; in a `let` the state is well
formed after the allocation, after the store and after the update of
`namedValues`; the state after every statement of the loop is well formed;
and so is the state `compile` ends in, after the return.  Well formed means:
each load and store addresses a slot whose allocation is earlier in the
block, each operand of a store, an arithmetic instruction, a call and the
return is a constant or the result of an earlier instruction, and every slot
held in `namedValues` has its allocation in the block.  The block of
`let x = 1; let x = 2; print x;` is well formed; a block with a load before
the allocation of its slot is not. -/
theorem emitted_ir_defined_before_use :
    LLVMCompiler.init.WellFormed ∧
    (∀ (c c1 : LLVMCompiler) (e : Expr) (v : Val), c.WellFormed →
      c.compileExpr e = .ok (v, c1) →
      c1.WellFormed ∧ v.definedIn (results c1.entry) = true) ∧
    (∀ (c c1 : LLVMCompiler) (name : List Char) (rhs : Expr) (v : Val), c.WellFormed →
      c.compileExpr rhs = .ok (v, c1) →
      (c1.createEntryBlockAlloca name).2.WellFormed ∧
      ((c1.createEntryBlockAlloca name).2.CreateStore v
        (c1.createEntryBlockAlloca name).1).WellFormed ∧
      c.compileStmt (.LetStmt name rhs) =
        .ok (((c1.createEntryBlockAlloca name).2.CreateStore v
          (c1.createEntryBlockAlloca name).1).assign name (c1.createEntryBlockAlloca name).1) ∧
      (((c1.createEntryBlockAlloca name).2.CreateStore v
        (c1.createEntryBlockAlloca name).1).assign name
          (c1.createEntryBlockAlloca name).1).WellFormed) ∧
    (∀ (c c2 : LLVMCompiler) (s : Stmt), c.WellFormed → c.compileStmt s = .ok c2 →
      c2.WellFormed) ∧
    (∀ (pre post : List Stmt) (c : LLVMCompiler),
      LLVMCompiler.compile (pre ++ post) = .ok c →
      ∃ c1, LLVMCompiler.init.compileStmts pre = .ok c1 ∧ c1.WellFormed) ∧
    (∀ (stmts : List Stmt) (c : LLVMCompiler), LLVMCompiler.compile stmts = .ok c →
      c.WellFormed) ∧
    (LLVMCompiler.compile redeclStmts = .ok redeclCompiled ∧ redeclCompiled.WellFormed ∧
      ¬ LLVMCompiler.WellFormed ⟨[.load 1 0 ['x'], .alloca 0 ['x']], 2, [(['x'], 0)]⟩) := by
  have hstmts : ∀ (stmts : List Stmt) (c1 : LLVMCompiler),
      LLVMCompiler.init.compileStmts stmts = .ok c1 → c1.WellFormed :=
    fun stmts c1 h =>
      LLVMCompiler.compileStmts_wellFormed stmts _ c1 LLVMCompiler.init_wellFormed h
  refine ⟨LLVMCompiler.init_wellFormed,
    fun c c1 e v hw h => LLVMCompiler.compileExpr_wellFormed e c c1 v hw h, ?_,
    fun c c2 s hw h => c.compileStmt_wellFormed c2 s hw h, ?_, ?_, rfl,
    (LLVMCompiler.wellFormed_iff _).mp (by decide),
    fun h => absurd ((LLVMCompiler.wellFormed_iff _).mpr h) (by decide)⟩
  · intro c c1 name rhs v hw h
    obtain ⟨w1, d1⟩ := LLVMCompiler.compileExpr_wellFormed rhs c c1 v hw h
    obtain ⟨w2, hs⟩ := c1.createEntryBlockAlloca_wellFormed name w1
    have d2 : v.definedIn (results (c1.createEntryBlockAlloca name).2.entry) = true := by
      simpa [LLVMCompiler.createEntryBlockAlloca, results] using d1
    have hc : c.compileStmt (.LetStmt name rhs) =
        .ok (((c1.createEntryBlockAlloca name).2.CreateStore v
          (c1.createEntryBlockAlloca name).1).assign name
            (c1.createEntryBlockAlloca name).1) := by
      simp only [LLVMCompiler.compileStmt, h]
    exact ⟨w2, (c1.createEntryBlockAlloca name).2.CreateStore_wellFormed v _ w2 hs d2, hc,
      c.compileStmt_wellFormed _ _ hw hc⟩
  · intro pre post c h
    simp only [LLVMCompiler.compile] at h
    cases hs : LLVMCompiler.init.compileStmts (pre ++ post) with
    | error err => rw [hs] at h; simp at h
    | ok c1 =>
      obtain ⟨c2, h2, _⟩ := LLVMCompiler.compileStmts_prefix pre post _ c1 hs
      exact ⟨c2, h2, hstmts pre c2 h2⟩
  · intro stmts c h
    simp only [LLVMCompiler.compile] at h
    cases hs : LLVMCompiler.init.compileStmts stmts with
    | error err => rw [hs] at h; simp at h
    | ok c1 =>
      rw [hs] at h
      simp only [Except.ok.injEq] at h
      rw [← h]
      exact c1.CreateRet_wellFormed _ (hstmts stmts c1 hs) rfl

end Minicomp
